import Mathlib

/-!
The user-space process scheduler (project1): process.c, clist.c, uspsv3.c.

A shallow embedding of the round-robin scheduler.

* A `Process` is the record of `struct process`.  The queue stores pointers to
  processes; here an entry is the value the pointer refers to, and a write through
  the pointer replaces the entry where it sits in the queue.
* The circular list of clist.c is modelled twice.  In the scheduler it is the sequence
  of its items, read from the head node (`tail->next`) round to the tail node.  In
  the namespace `Heap` it is `struct clist` with its nodes in memory, linked by `next`
  pointers; `IsRing` relates the two, and the theorems on `Heap.cl_rotate`,
  `Heap.cl_insert`, `Heap.cl_remove` and `Heap.cl_toArray` show that the functions on
  memory do to the ring what the functions on sequences do.
* Every call of `kill()` and `free_pr()` made by a handler is recorded, in order,
  as an `Event`.
* `malloc` is taken to succeed, and `int` counters are mathematical integers
  (the tick counter stays far from the limits of `int`).
-/

namespace USPS

/-! ## process.h, process.c -/

/-- Status macro `WAITING` of process.h. -/
def WAITING : Int := 16
/-- Status macro `ALIVE` of process.h. -/
def ALIVE : Int := 17
/-- Status macro `DEAD` of process.h. -/
def DEAD : Int := 18

/-- The record `struct process` of process.c. -/
structure Process where
  argv : List String
  pid : Int
  status : Int
  ticks : Int
  nticks : Int
  prev_jfs : Nat := 0
  curr_jfs : Nat := 0
  prev_util : Nat := 0
  curr_util : Nat := 0
deriving DecidableEq, Repr

/-- Function `malloc_pr`, given the argument vector that `extract_argv` built. -/
def malloc_pr (args : List String) : Process :=
  { argv := args, pid := 0, status := WAITING, ticks := 0, nticks := 0,
    prev_jfs := 0, curr_jfs := 0, prev_util := 0, curr_util := 0 }

/-- Function `pr_argv`. -/
def pr_argv (pr : Process) : List String := pr.argv

/-- Function `assign_pid`. -/
def assign_pid (pr : Process) (pid : Int) : Process := { pr with pid := pid }

/-- Function `assign_ticks`: `pr->ticks = pr->nticks = nticks`. -/
def assign_ticks (pr : Process) (nticks : Int) : Process :=
  { pr with ticks := nticks, nticks := nticks }

/-- Function `decr_tick`: returns `left`, the counter right after the decrement, and
the process with the counter reset to `nticks` when it is `<= 0`. -/
def decr_tick (pr : Process) : Int × Process :=
  let left := pr.ticks - 1
  let pr1 : Process := { pr with ticks := left }
  let pr2 : Process := if pr1.ticks ≤ 0 then { pr1 with ticks := pr1.nticks } else pr1
  (left, pr2)

/-- Function `pr_pid`. -/
def pr_pid (pr : Process) : Int := pr.pid

/-- Function `pr_status`. -/
def pr_status (pr : Process) : Int := pr.status

/-- Function `pr_wake`. -/
def pr_wake (pr : Process) : Process := { pr with status := ALIVE }

/-- Function `pr_kill`. -/
def pr_kill (pr : Process) : Process := { pr with status := DEAD }

/-! ## clist.h, clist.c (the ring as its head-to-tail sequence of items) -/

/-- Function `cl_create`: the empty ring. -/
def cl_create {α : Type} : List α := []

/-- Function `cl_insert` (allocation succeeding): the new node becomes the tail. -/
def cl_insert {α : Type} (cl : List α) (item : α) : List α := cl ++ [item]

/-- Function `cl_head`: `none` stands for the return value 0 (empty list). -/
def cl_head {α : Type} (cl : List α) : Option α :=
  match cl with
  | [] => none
  | x :: _ => some x

/-- Function `cl_rotate`: `tail = tail->next`, so the head node becomes the tail. -/
def cl_rotate {α : Type} (cl : List α) : List α :=
  match cl with
  | [] => []
  | x :: xs => xs ++ [x]

/-- Function `cl_remove`: `none` stands for the return value 0; otherwise the former
head item and the remaining list. -/
def cl_remove {α : Type} (cl : List α) : Option (α × List α) :=
  match cl with
  | [] => none
  | x :: xs => some (x, xs)

/-- Function `cl_size`. -/
def cl_size {α : Type} (cl : List α) : Int := cl.length

/-- Function `cl_isEmpty`. -/
def cl_isEmpty {α : Type} (cl : List α) : Bool := cl_size cl == 0

/-- Function `cl_toArray` (allocation succeeding): `none` stands for `NULL`, returned
on the empty list. -/
def cl_toArray {α : Type} (cl : List α) : Option (List α) :=
  if cl_size cl = 0 then none else some cl

/-! ## uspsv3.c -/

/-- Macro `MIN_QUANTUM`. -/
def MIN_QUANTUM : Int := 100
/-- Macro `MAX_QUANTUM`. -/
def MAX_QUANTUM : Int := 1000
/-- Macro `SLICE`. -/
def SLICE : Int := 20

/-- A piece of text written to standard output: by `p1putstr` or by `p1putint`. -/
inductive Out where
  | str (s : String)
  | int (n : Int)
deriving DecidableEq, Repr

/-- The result of lines 141-160 of `main`. -/
structure Quantum where
  quantum : Int
  nticks : Int
  out : List Out
deriving DecidableEq, Repr

/-- Lines 141-160 of `main`: clamp the value `p1atoi` returned, warn, round to the
nearest 100 and convert to ticks.  Division is that of C (truncating). -/
def compute_quantum (q : Int) : Quantum :=
  let quantum := q
  let r1 : Int × List Out :=
    if quantum < MIN_QUANTUM then
      (MIN_QUANTUM,
        [Out.str "The specified quantum is less than the minimum (",
         Out.int MIN_QUANTUM, Out.str "), setting to minimum.\n"])
    else (quantum, [])
  let r2 : Int × List Out :=
    if r1.1 > MAX_QUANTUM then
      (MAX_QUANTUM,
        r1.2 ++ [Out.str "The specified quantum is greater than the maximum (",
                 Out.int MAX_QUANTUM, Out.str "), setting to maximum.\n"])
    else r1
  let quantum := (Int.tdiv (r2.1 + 50) 100) * 100
  { quantum := quantum, nticks := Int.tdiv quantum SLICE, out := r2.2 }

/-- The signals the scheduler sends. -/
inductive Signal where
  | SIGSTOP
  | SIGCONT
  | SIGUSR1
  | SIGUSR2
  | SIGKILL
deriving DecidableEq, Repr

/-- One observable call made by a handler. -/
inductive Event where
  /-- The call `kill(pr_pid(temp), sig)`, with the entry `temp` as it is at the call. -/
  | signal (temp : Process) (sig : Signal)
  /-- The call `kill(parent_pid, SIGUSR2)`. -/
  | wake_parent (parent_pid : Int)
  /-- The call `free_pr(temp)`. -/
  | freed (temp : Process)
deriving DecidableEq, Repr

/-- Destination pid and signal of an event that is a call of `kill`. -/
def Event.sent : Event → Option (Int × Signal)
  | Event.signal temp sig => some (pr_pid temp, sig)
  | Event.wake_parent p => some (p, Signal.SIGUSR2)
  | Event.freed _ => none

/-- Destination pid and signal of a call `kill(pr_pid(temp), sig)`, the form of every
signal the timer handler sends to a queued process. -/
def Event.to_child : Event → Option (Int × Signal)
  | Event.signal temp sig => some (pr_pid temp, sig)
  | Event.wake_parent _ => none
  | Event.freed _ => none

/-- The `while` loop of `sigalrm_handler` (lines 401-418): start or resume the head,
or remove and free it when it is neither WAITING nor ALIVE and look at the next. -/
def reap_loop : List Process → List Process × List Event
  | [] => ([], [])
  | temp :: rest =>
    if pr_status temp = WAITING then
      (pr_wake temp :: rest, [Event.signal (pr_wake temp) Signal.SIGUSR1])
    else if pr_status temp = ALIVE then
      (temp :: rest, [Event.signal temp Signal.SIGCONT])
    else
      let r := reap_loop rest
      (r.1, Event.freed temp :: r.2)

/-- Function `sigalrm_handler` of uspsv3.c: the new queue and the calls made. -/
def sigalrm_handler (pr_list : List Process) : List Process × List Event :=
  match pr_list with
  | [] => ([], [])
  | temp :: rest =>
    if pr_status temp = ALIVE then
      let d := decr_tick temp
      if d.1 ≠ 0 then (d.2 :: rest, [])
      else
        let r := reap_loop (cl_rotate (d.2 :: rest))
        (r.1, Event.signal d.2 Signal.SIGSTOP :: r.2)
    else reap_loop (cl_rotate (temp :: rest))

/-- The `for` loop of `kill_process` over the array: mark the first entry whose pid
is `pid` and stop. -/
def kill_scan (pid : Int) : List Process → List Process
  | [] => []
  | p :: rest => if pr_pid p = pid then pr_kill p :: rest else p :: kill_scan pid rest

/-- Function `kill_process`. -/
def kill_process (pr_list : List Process) (pid : Int) : List Process :=
  match cl_toArray pr_list with
  | none => pr_list
  | some plist => kill_scan pid plist

/-- The file-scope variables of uspsv3.c that the handlers use. -/
structure Sched where
  pr_list : List Process
  active_processes : Int
  parent_pid : Int
deriving DecidableEq, Repr

/-- Function `sigchld_handler`.  `reaped` lists what the successive calls of
`waitpid` returned before it returned a value `<= 0`: the pid, and whether
`WIFEXITED(status) || WIFSIGNALED(status)` holds. -/
def sigchld_handler (s : Sched) : List (Int × Bool) → Sched × List Event
  | [] => (s, [])
  | (pid, ended) :: more =>
    if ended then
      let s1 : Sched := { s with pr_list := kill_process s.pr_list pid,
                                 active_processes := s.active_processes - 1 }
      let r := sigchld_handler s1 more
      (r.1, Event.wake_parent s.parent_pid :: r.2)
    else sigchld_handler s more

/-- An asynchronous notification delivered to the control process. -/
inductive Input where
  /-- The timer fired: `sigalrm_handler` runs. -/
  | alarm
  /-- Children changed state: `sigchld_handler` runs and reaps `reaped`. -/
  | chld (reaped : List (Int × Bool))
deriving DecidableEq, Repr

/-- The termination notice of one child that exited or was killed. -/
def Input.notice (pid : Int) : Input := Input.chld [(pid, true)]

/-- One handler execution. -/
def step (s : Sched) : Input → Sched × List Event
  | Input.alarm =>
    let r := sigalrm_handler s.pr_list
    ({ s with pr_list := r.1 }, r.2)
  | Input.chld reaped => sigchld_handler s reaped

/-- Handlers do not nest: a sequence of notifications is handled one after the other.
The second component is what has been recorded so far, oldest first. -/
def run (s : Sched) (log : List Event) : List Input → Sched × List Event
  | [] => (s, log)
  | i :: more => run (step s i).1 (log ++ (step s i).2) more

/-- Lines 248-252 of `main`: rotate `cl_size - 1` times, then call the timer handler
by hand. -/
def first_decision (pr_list : List Process) : List Process × List Event :=
  sigalrm_handler (cl_rotate^[(cl_size pr_list - 1).toNat] pr_list)

/-- The condition of the loop `while (active_processes > 0L) pause();`. -/
def loop_exits (s : Sched) : Bool := !(decide (s.active_processes > 0))

/-- The queue as `main` leaves it after the fork loop: every entry WAITING, with a
full tick counter of at least one tick, and with the pid `fork` gave it (the
pids of children that exist together are pairwise distinct). -/
def LaunchState (q : List Process) : Prop :=
  (∀ p ∈ q, p.status = WAITING ∧ p.ticks = p.nticks ∧ 1 ≤ p.nticks) ∧ (q.map pr_pid).Nodup

instance (q : List Process) : Decidable (LaunchState q) := by
  unfold LaunchState; infer_instance

/-- The last signal among `log` that was sent to the queued process `pid`. -/
def last_signal (log : List Event) (pid : Int) : Option Signal :=
  ((log.filterMap Event.to_child).filter (fun e => e.1 = pid)).getLast?.map Prod.snd

/-- A queued process is runnable when it is not DEAD and the last signal sent to it
is SIGUSR1 or SIGCONT. -/
def runnable (log : List Event) (p : Process) : Prop :=
  p.status ≠ DEAD ∧
    (last_signal log p.pid = some Signal.SIGUSR1 ∨ last_signal log p.pid = some Signal.SIGCONT)

instance (log : List Event) (p : Process) : Decidable (runnable log p) := by
  unfold runnable; infer_instance

/-- In the words of the specification: `clamp` limits a value to `[lo, hi]`. -/
def clamp_spec (x lo hi : Int) : Int := max lo (min x hi)

/-- In the words of the specification: the multiple of 100 closest to `x`, the upper
one when `x` is halfway between two of them. -/
def round_nearest_100_spec (x : Int) : Int :=
  let below := 100 * (x / 100)
  let above := below + 100
  if x - below < above - x then below else above

/-- The warning written when the quantum is below the minimum. -/
def warn_min : List Out :=
  [Out.str "The specified quantum is less than the minimum (", Out.int 100,
   Out.str "), setting to minimum.\n"]

/-- The warning written when the quantum is above the maximum. -/
def warn_max : List Out :=
  [Out.str "The specified quantum is greater than the maximum (", Out.int 1000,
   Out.str "), setting to maximum.\n"]

/-- Nobody in `q` is runnable. -/
def quiet (log : List Event) (q : List Process) : Prop := ∀ p ∈ q, ¬ runnable log p

/-- The invariant behind at-most-one-runnable: pids are pairwise distinct, no entry
behind the head is runnable, and a runnable head is ALIVE. -/
def OneRunnable (log : List Event) (q : List Process) : Prop :=
  (q.map pr_pid).Nodup ∧ quiet log q.tail ∧
    ∀ p, q.head? = some p → runnable log p → p.status = ALIVE

/-- The moves a status can make: none, WAITING to ALIVE, and, when `kills` is set
(termination notices are among the notifications), anything to DEAD. -/
def status_move (kills : Bool) (a b : Int) : Prop :=
  a = b ∨ (a = WAITING ∧ b = ALIVE) ∨ (kills = true ∧ b = DEAD)

/-- Every entry of `q2` comes from an entry of `q1` with the same pid, by a status move. -/
def evolves (kills : Bool) (q1 q2 : List Process) : Prop :=
  ∀ e2 ∈ q2, ∃ e1 ∈ q1, e1.pid = e2.pid ∧ status_move kills e1.status e2.status

/-- A sample scheduler state right after launch: two WAITING workers with a quantum of
two ticks. -/
def sample_launch : Sched :=
  { pr_list := [⟨["a"], 11, 16, 2, 2, 0, 0, 0, 0⟩, ⟨["b"], 12, 16, 2, 2, 0, 0, 0, 0⟩],
    active_processes := 2, parent_pid := 10 }

/-- Every WAITING or ALIVE entry of `q` has a full tick counter. -/
def Full (q : List Process) : Prop :=
  ∀ p ∈ q, (p.status = WAITING ∨ p.status = ALIVE) → p.ticks = p.nticks

/-- The tick invariant of reachable queues: quanta are at least one tick long, every
WAITING or ALIVE entry behind the head has a full counter, and so has a WAITING head. -/
def TickInv (q : List Process) : Prop :=
  (∀ p ∈ q, 1 ≤ p.nticks) ∧ Full q.tail ∧
    ∀ p, q.head? = some p → p.status = WAITING → p.ticks = p.nticks

/-- The notification records the termination of the child `pid`. -/
def Input.reaps (i : Input) (pid : Int) : Prop :=
  match i with
  | Input.alarm => False
  | Input.chld reaped => (pid, true) ∈ reaped

instance (i : Input) (pid : Int) : Decidable (i.reaps pid) := by
  unfold Input.reaps; split <;> infer_instance

/-- The number of timer firings among the notifications. -/
def alarms (ins : List Input) : Nat := ins.count Input.alarm

/-- The pids the SIGSTOPs of `log` were sent to, oldest first. -/
def stop_pids (log : List Event) : List Int :=
  log.filterMap fun e =>
    match e with
    | Event.signal t Signal.SIGSTOP => some (pr_pid t)
    | _ => none

/-- The pids the start and resume notifications (SIGUSR1, SIGCONT) of `log` were sent
to, oldest first: one entry for each quantum granted. -/
def grant_pids (log : List Event) : List Int :=
  log.filterMap fun e =>
    match e with
    | Event.signal t Signal.SIGUSR1 => some (pr_pid t)
    | Event.signal t Signal.SIGCONT => some (pr_pid t)
    | _ => none

/-- The number of quanta `log` grants to the process `pid`. -/
def grants (log : List Event) (pid : Int) : Nat := (grant_pids log).count pid

/-- Every entry of `q` is WAITING or ALIVE with a full quantum of `T` ticks. -/
def Live (T : Nat) (q : List Process) : Prop :=
  ∀ e ∈ q, (e.status = WAITING ∨ e.status = ALIVE) ∧ e.ticks = T ∧ e.nticks = T

/-- The pid of the process `P[j mod N]` of the workload `P` of `N` processes. -/
def turn_pid (P : List Process) (j : Nat) : Int := (P.map pr_pid).getD (j % P.length) 0

/-- The state of the scheduler `m` timer firings after the start-up, for a workload `P`
of processes that never die, each with a quantum of `T` ticks: the head is running
and has used `m mod T` ticks, the others are full, the queue has turned `m / T` times,
and the stops and grants so far went round the workload in order. -/
def Turn (P : List Process) (T m : Nat) (q : List Process) (log : List Event) : Prop :=
  ∃ h rest, q = h :: rest ∧ h.status = ALIVE ∧ h.nticks = T ∧
    h.ticks = (T : Int) - ((m % T : Nat) : Int) ∧ Live T rest ∧
    q.map pr_pid = (P.map pr_pid).rotate (m / T) ∧
    stop_pids log = (List.range (m / T)).map (turn_pid P) ∧
    grant_pids log = (List.range (m / T + 1)).map (turn_pid P)

/-- A sample workload: three WAITING workers with a quantum of two ticks. -/
def sample_three : List Process :=
  [⟨["a"], 11, 16, 2, 2, 0, 0, 0, 0⟩, ⟨["b"], 12, 16, 2, 2, 0, 0, 0, 0⟩,
   ⟨["c"], 13, 16, 2, 2, 0, 0, 0, 0⟩]

/-- A sample workload: one WAITING worker with a quantum of five ticks (100 ms). -/
def sample_one : List Process := [⟨["a"], 31, 16, 5, 5, 0, 0, 0, 0⟩]

/-- The scheduler state right after the start-up sequence on the workload `P`
(`active_processes = len`, line 183; the parent's pid, from `getpid`, is taken to be 1). -/
def started (P : List Process) : Sched :=
  { pr_list := (first_decision P).1, active_processes := cl_size P, parent_pid := 1 }

/-- Calling `decr_tick` `k` times in a row on the same process: the values returned,
in order, and the process afterwards. -/
def decr_tick_times : Nat → Process → List Int × Process
  | 0, pr => ([], pr)
  | k + 1, pr =>
    let d := decr_tick pr
    let r := decr_tick_times k d.2
    (d.1 :: r.1, r.2)

/-! ## clist.c at the level of pointers

The ring is a set of nodes in memory, linked by `next` pointers.  An address is a
natural number; `none` is the `NULL` pointer.  A function returns `none` when it
dereferences `NULL` or an address where no node lives (undefined behaviour in C). -/

/-- A node, `struct cnode`. -/
structure CNode (α : Type) where
  item : α
  next : Nat

/-- The list, `struct clist`, with the memory that holds its nodes: `nodes p` is the
node living at address `p`, or `none`. -/
structure CList (α : Type) where
  nodes : Nat → Option (CNode α)
  tail : Option Nat
  size : Int

namespace Heap

/-- Function `cl_create` (allocation succeeding). -/
def cl_create {α : Type} : CList α := { nodes := fun _ => none, tail := none, size := 0 }

/-- Function `cl_insert`.  `malloc` is what the call of `malloc` returns: `none` on
failure, else the address of a block where no node lives yet.  The two writes that
fill the new node (`next`, then `item`) are made at once. -/
def cl_insert {α : Type} (cl : CList α) (item : α) (malloc : Option Nat) :
    Option (Int × CList α) :=
  match malloc with
  | none => some (0, cl)
  | some node => do
    let cl1 ← (if cl.size = 0 then
        some { cl with tail := some node,
                       nodes := Function.update cl.nodes node (some ⟨item, node⟩) }
      else do
        let t ← cl.tail
        let tn ← cl.nodes t
        let nodes1 := Function.update cl.nodes node (some ⟨item, tn.next⟩)
        let tn1 ← nodes1 t
        some { cl with nodes := Function.update nodes1 t (some { tn1 with next := node }) })
    let t ← cl1.tail
    let tn ← cl1.nodes t
    some (1, { cl1 with tail := some tn.next, size := cl1.size + 1 })

/-- Function `cl_head`: the return value and what is stored in `*head`. -/
def cl_head {α : Type} (cl : CList α) : Option (Int × Option α) :=
  if cl.size = 0 then some (0, none)
  else do
    let t ← cl.tail
    let tn ← cl.nodes t
    let hn ← cl.nodes tn.next
    some (1, some hn.item)

/-- Function `cl_rotate`. -/
def cl_rotate {α : Type} (cl : CList α) : Option (CList α) :=
  if cl.size ≠ 0 then do
    let t ← cl.tail
    let tn ← cl.nodes t
    some { cl with tail := some tn.next }
  else some cl

/-- Function `cl_remove`: the return value, what is stored in `*head`, and the list. -/
def cl_remove {α : Type} (cl : CList α) : Option (Int × Option α × CList α) :=
  if cl.size = 0 then some (0, none, cl)
  else do
    let t ← cl.tail
    let tn ← cl.nodes t
    let node := tn.next
    let n ← cl.nodes node
    let cl1 : CList α :=
      if cl.size = 1 then { cl with tail := none }
      else { cl with nodes := Function.update cl.nodes t (some { tn with next := n.next }) }
    some (1, some n.item,
      { cl1 with nodes := Function.update cl1.nodes node none, size := cl1.size - 1 })

/-- Function `cl_size`. -/
def cl_size {α : Type} (cl : CList α) : Int := cl.size

/-- Function `cl_isEmpty`. -/
def cl_isEmpty {α : Type} (cl : CList α) : Bool := cl.size == 0

/-- The `for` loop of `cl_toArray`: `k` iterations starting at the node `temp`. -/
def walk {α : Type} (nodes : Nat → Option (CNode α)) : Nat → Nat → Option (List α)
  | 0, _ => some []
  | k + 1, temp => do
    let n ← nodes temp
    let rest ← walk nodes k n.next
    some (n.item :: rest)

/-- Function `cl_toArray` (allocation succeeding): `some none` stands for `NULL`;
otherwise the array and the value stored in `*len`. -/
def cl_toArray {α : Type} (cl : CList α) : Option (Option (List α × Int)) :=
  if cl.size = 0 then some none
  else do
    let t ← cl.tail
    let tn ← cl.nodes t
    let array ← walk cl.nodes cl.size.toNat tn.next
    some (some (array, cl.size))

/-- Calling `cl_rotate` `k` times. -/
def rotate_times {α : Type} : Nat → CList α → Option (CList α)
  | 0, cl => some cl
  | k + 1, cl => (cl_rotate cl).bind (rotate_times k)

/-- Inserting the items of a list one after the other, each with the address that
`malloc` returns for it. -/
def insert_all {α : Type} : CList α → List (Nat × α) → Option (CList α)
  | cl, [] => some cl
  | cl, (node, item) :: more => (cl_insert cl item (some node)).bind fun r => insert_all r.2 more

end Heap

/-- The address of the first node of `ring`, or `d` when there is none. -/
def first_addr {α : Type} : List (Nat × α) → Nat → Nat
  | [], d => d
  | (a, _) :: _, _ => a

/-- The nodes at the addresses of `ring` hold its items and are linked in this order,
the last one to `back`. -/
def Linked {α : Type} (nodes : Nat → Option (CNode α)) : List (Nat × α) → Nat → Prop
  | [], _ => True
  | (a, x) :: rest, back => nodes a = some ⟨x, first_addr rest back⟩ ∧ Linked nodes rest back

/-- The list `cl` is the well-formed ring made of the nodes `ring` (address and item,
from the head node to the tail node): `size` is their number, `tail` points to the
last one (`NULL` when there is none), the addresses are pairwise distinct, every node
is linked to the next and the tail node to the head node, and no other node lives in
the memory of the list. -/
def IsRing {α : Type} (cl : CList α) (ring : List (Nat × α)) : Prop :=
  cl.size = ring.length ∧ (ring.map Prod.fst).Nodup ∧
  cl.tail = (ring.map Prod.fst).getLast? ∧
  Linked cl.nodes ring (first_addr ring 0) ∧
  ∀ a, a ∉ ring.map Prod.fst → cl.nodes a = none

/-- A sample ring of three nodes at the addresses 1, 2, 3 holding 10, 20, 30. -/
def sample_ring : CList Int :=
  { nodes := fun p =>
      if p = 1 then some ⟨10, 2⟩ else if p = 2 then some ⟨20, 3⟩
      else if p = 3 then some ⟨30, 1⟩ else none,
    tail := some 3, size := 3 }

/-- A sample ring of one node at the address 7 holding 70. -/
def sample_sole : CList Int :=
  { nodes := fun p => if p = 7 then some ⟨70, 7⟩ else none, tail := some 7, size := 1 }

/-- The number of queued entries whose status is not DEAD. -/
def live_count (q : List Process) : Int := (q.countP fun p => decide (p.status ≠ DEAD) : Nat)

/-- Every termination reaped in one run of `sigchld_handler` is that of a queued entry
which is not DEAD when its turn comes. -/
def reap_ok : List Process → List (Int × Bool) → Prop
  | _, [] => True
  | q, (pid, ended) :: more =>
    if ended then (∃ p ∈ q, p.pid = pid ∧ p.status ≠ DEAD) ∧ reap_ok (kill_process q pid) more
    else reap_ok q more

/-- Every termination notice of the sequence is for the pid of an entry that is queued
and not DEAD when the notice arrives. -/
def notices_ok : Sched → List Input → Prop
  | _, [] => True
  | s, Input.alarm :: more => notices_ok (step s Input.alarm).1 more
  | s, Input.chld reaped :: more =>
    reap_ok s.pr_list reaped ∧ notices_ok (step s (Input.chld reaped)).1 more

/-- The invariant behind the active count: it counts the queued entries that are not
DEAD, pids are pairwise distinct, and every status is one of the three macros. -/
def ActiveInv (s : Sched) : Prop :=
  s.active_processes = live_count s.pr_list ∧ (s.pr_list.map pr_pid).Nodup ∧
    ∀ p ∈ s.pr_list, p.status = WAITING ∨ p.status = ALIVE ∨ p.status = DEAD

/-! ## The expiry step of the timer handler, described on the queue -/

/-- The status of the entry is one of the three macros of process.h. -/
def valid_status (p : Process) : Prop :=
  p.status = WAITING ∨ p.status = ALIVE ∨ p.status = DEAD

/-- Test for a DEAD entry. -/
def is_dead (p : Process) : Bool := decide (p.status = DEAD)

/-- The head as the timer handler puts it at the back of the queue: an ALIVE head has
used up its quantum and its tick counter is full again, another head is untouched. -/
def refilled (h : Process) : Process :=
  if h.status = ALIVE then { h with ticks := h.nticks } else h

/-- A queue whose head has been started or resumed. -/
def resumed : List Process → List Process
  | [] => []
  | x :: xs => pr_wake x :: xs

/-- The one notification for the head of a queue: SIGUSR1 for a WAITING head,
SIGCONT otherwise; nothing for the empty queue. -/
def resume_signal : List Process → List (Int × Signal)
  | [] => []
  | x :: _ => [(x.pid, if x.status = WAITING then Signal.SIGUSR1 else Signal.SIGCONT)]

instance (p : Process) : Decidable (valid_status p) := by
  unfold valid_status; infer_instance

/-- A queue whose ALIVE head is on its last tick, followed by a DEAD and a WAITING
entry. -/
def sample_expiry : List Process :=
  [⟨["a"], 31, 17, 1, 5, 0, 0, 0, 0⟩, ⟨["b"], 32, 18, 5, 5, 0, 0, 0, 0⟩,
   ⟨["c"], 33, 16, 5, 5, 0, 0, 0, 0⟩]

/-! ## uspsv3.c: `main` from the quantum to the timer, and a child up to `execvp` -/

/-- One call of `main`, of `print_error` or of a forked child that is visible from
outside the process. -/
inductive Act where
  /-- Text written to standard output by `p1putstr` or `p1putint`. -/
  | put (o : Out)
  /-- A call of `fork` that returned `pid > 0` to the control process. -/
  | fork (pid : Int)
  /-- The call `kill(pid, sig)`. -/
  | kill (pid : Int) (sig : Signal)
  /-- The call `free_pr(temp)`. -/
  | free_pr (temp : Process)
  /-- A call of `execvp` that succeeded: from here on the child is the target
  program. -/
  | execvp (args : List String)
  /-- The call `_exit(status)`. -/
  | exit (status : Int)
deriving DecidableEq, Repr

/-- A piece of `main` that has run: the calls it made, and the state it goes on with,
or `none` when the process has exited or has become another program. -/
structure Ran (σ : Type) where
  acts : List Act
  next : Option σ
deriving DecidableEq, Repr

/-- Function `cl_destroy(pr_list, free_pr)` of clist.c: remove the head and call the
destructor on it until the list is empty. -/
def cl_destroy : List Process → List Act
  | [] => []
  | item :: rest => Act.free_pr item :: cl_destroy rest

/-- Function `free_mem`; `none` stands for `pr_list == NULL`. -/
def free_mem (pr_list : Option (List Process)) : List Act :=
  match pr_list with
  | none => []
  | some cl => cl_destroy cl

/-- Function `print_error`: append a newline, write the message, free the queue and
`_exit(0)`. -/
def print_error (pr_list : Option (List Process)) (msg : String) : List Act :=
  Act.put (Out.str (msg ++ "\n")) :: (free_mem pr_list ++ [Act.exit 0])

/-- The child branch of the fork loop (lines 194-211) once SIGUSR1 has arrived:
`execvp`, and when it returns, the error message, `free(prs)` and `print_error`.
`pr_list` is the child's copy of the queue. -/
def child_branch (execvp_ok : List String → Bool) (pr_list : List Process)
    (args : List String) : List Act :=
  if execvp_ok args then [Act.execvp args]
  else print_error (some pr_list)
    (args.foldl (fun buffer arg => buffer ++ " " ++ arg) "ERROR: Failed to execute:")

/-- The fork loop of `main` (lines 192-221) from index `j` on.  `done` holds the
entries before `j`, `fork j` is what the call of `fork` for entry `j` returns in the
process that runs this code. -/
def fork_loop (execvp_ok : List String → Bool) (fork : Nat → Int) (nticks : Int) :
    List Process → Nat → List Process → Ran (List Process)
  | done, _, [] => { acts := [], next := some done }
  | done, j, p :: rest =>
    let pid := fork j
    if pid = 0 then
      { acts := child_branch execvp_ok (done ++ p :: rest) (pr_argv p), next := none }
    else if pid > 0 then
      let r := fork_loop execvp_ok fork nticks
        (done ++ [assign_ticks (assign_pid p pid) nticks]) (j + 1) rest
      { acts := Act.fork pid :: r.acts, next := r.next }
    else
      { acts := print_error (some (done ++ p :: rest))
          "ERROR: Previous call to fork() failed.",
        next := none }

/-- Lines 231-240 of `main` when `setitimer` fails: kill and free every queued child,
then `print_error`. -/
def timer_failed : List Process → List Act
  | [] => print_error (some []) "ERROR: Failed to create the quantum timer."
  | temp :: rest =>
    Act.kill (pr_pid temp) Signal.SIGKILL :: Act.free_pr temp :: timer_failed rest

/-- Test for a call of `kill`. -/
def Act.is_kill : Act → Bool
  | Act.kill _ _ => true
  | _ => false

/-- A workload of two programs. -/
def sample_workload : List Process := [malloc_pr ["ls"], malloc_pr ["date"]]

/-- A run in which the first `fork` returns 101 and every later one fails. -/
def sample_forks (j : Nat) : Int := if j = 0 then 101 else -1

/-- The structure `struct date`: three `unsigned short` fields. -/
structure Date where
  day : Nat
  month : Nat
  year : Nat
deriving DecidableEq, Repr

/-- Function `date_create` after `sscanf` has stored the three numbers (allocation
succeeding): `none` stands for NULL. -/
def date_create (day month year : Nat) : Option Date :=
  if day < 1 ∨ day > 31 then none
  else if month < 1 ∨ month > 12 then none
  else if year < 1 ∨ year > 9999 then none
  else some { day := day, month := month, year := year }

/-- Function `date_compare`: the fields are promoted to `int` before the subtraction. -/
def date_compare (date1 date2 : Date) : Int :=
  if date1.year ≠ date2.year then (date1.year : Int) - (date2.year : Int)
  else if date1.month ≠ date2.month then (date1.month : Int) - (date2.month : Int)
  else (date1.day : Int) - (date2.day : Int)

/-- In the words of the specification: `d1` is earlier than `d2` in the lexicographic
order on (year, month, day). -/
def date_before (d1 d2 : Date) : Prop :=
  d1.year < d2.year ∨
    (d1.year = d2.year ∧ (d1.month < d2.month ∨ (d1.month = d2.month ∧ d1.day < d2.day)))

instance (d1 d2 : Date) : Decidable (date_before d1 d2) := by
  unfold date_before; infer_instance

/-! ## uspsv4.c: `compact_num` and `compact_size` on character buffers -/

/-- The terminator of a C string. -/
def NUL : Char := Char.ofNat 0

/-- The blank character. -/
def SP : Char := Char.ofNat 32

/-- The C string that a buffer holds: its characters before the first NUL. -/
def c_string (buf : List Char) : List Char := buf.takeWhile (fun c => decide (c ≠ NUL))

/-- Modelled from the spec: function `p1strlen` of p1fxns is not part of these
sources; it is the length of a C string, the number of characters before the first
NUL. -/
def p1strlen (s : List Char) : Nat := (c_string s).length

/-- Function `compact_num` of uspsv4.c: the buffer after the call. -/
def compact_num (num : List Char) : List Char :=
  let len := p1strlen num
  if len ≥ 16 then (num.set (len - 15) 'Q').set (len - 14) NUL
  else if len ≥ 13 then (num.set (len - 12) 'T').set (len - 11) NUL
  else if len ≥ 10 then (num.set (len - 9) 'B').set (len - 8) NUL
  else if len ≥ 7 then (num.set (len - 6) 'M').set (len - 5) NUL
  else if len ≥ 4 then (num.set (len - 3) 'K').set (len - 2) NUL
  else num

/-- The assignment `buf[i] = c`; `none` when the index `i` lies outside the buffer. -/
def poke (buf : List Char) (i : Nat) (c : Char) : Option (List Char) :=
  if i < buf.length then some (buf.set i c) else none

/-- Function `compact_size` of uspsv4.c: the buffer after the call; `none` when one of
its assignments falls outside the buffer. -/
def compact_size (bytes : List Char) : Option (List Char) :=
  let len := p1strlen bytes
  if len ≥ 13 then
    (poke bytes (len - 12) SP).bind fun b1 => (poke b1 (len - 11) 'T').bind fun b2 =>
      (poke b2 (len - 10) 'b').bind fun b3 => poke b3 (len - 9) NUL
  else if len ≥ 10 then
    (poke bytes (len - 9) SP).bind fun b1 => (poke b1 (len - 8) 'G').bind fun b2 =>
      (poke b2 (len - 7) 'b').bind fun b3 => poke b3 (len - 6) NUL
  else if len ≥ 7 then
    (poke bytes (len - 6) SP).bind fun b1 => (poke b1 (len - 5) 'M').bind fun b2 =>
      (poke b2 (len - 4) 'b').bind fun b3 => poke b3 (len - 3) NUL
  else if len ≥ 4 then
    (poke bytes (len - 3) SP).bind fun b1 => (poke b1 (len - 2) 'K').bind fun b2 =>
      (poke b2 (len - 1) 'b').bind fun b3 => poke b3 (len - 0) NUL
  else some bytes

/-- The test `*s >= 48 && *s <= 57` for a decimal digit, as in `p1atol`. -/
def is_digit (c : Char) : Bool := decide (48 ≤ c.toNat ∧ c.toNat ≤ 57)

/-- The number that a string of decimal digits denotes, computed as `p1atol` does:
`ans = 10 * ans + (*s - 48)` from left to right (without the overflow of `long`). -/
def decimal_value (s : List Char) : Nat := s.foldl (fun ans c => 10 * ans + (c.toNat - 48)) 0

/-- In the words of the specification: `s` is the decimal representation of `n`, a
non-empty string of digits without leading zeros. -/
def IsDecimal (s : List Char) (n : Nat) : Prop :=
  s ≠ [] ∧ (∀ c ∈ s, is_digit c = true) ∧ (s.head? = some '0' → s = ['0']) ∧
    decimal_value s = n

instance (s : List Char) (n : Nat) : Decidable (IsDecimal s n) := by
  unfold IsDecimal; infer_instance

/-- In the words of the specification: the suffix for the power `1000 ^ k`. -/
def num_suffix (k : Nat) : Char :=
  match k with
  | 1 => 'K'
  | 2 => 'M'
  | 3 => 'B'
  | 4 => 'T'
  | _ => 'Q'

/-- In the words of the specification: the byte-size suffix for the power `1000 ^ k`. -/
def size_suffix (k : Nat) : List Char :=
  match k with
  | 1 => [SP, 'K', 'b']
  | 2 => [SP, 'M', 'b']
  | 3 => [SP, 'G', 'b']
  | _ => [SP, 'T', 'b']

/-- Successive assignments `buf[i] = c0; buf[i + 1] = c1; ...`. -/
def write_at : List Char → Nat → List Char → List Char
  | buf, _, [] => buf
  | buf, i, c :: cs => write_at (buf.set i c) (i + 1) cs

/-! ## tldlist.c -/

/-- Function `strcmp` of the C library: the strings are compared character by
character as unsigned values; only the sign of the result is specified, and -1, 0, 1
stand for a negative, zero and positive result. -/
def strcmp : List Char → List Char → Int
  | [], [] => 0
  | [], _ :: _ => -1
  | _ :: _, [] => 1
  | a :: s1, b :: s2 =>
    if a.toNat < b.toNat then -1 else if b.toNat < a.toNat then 1 else strcmp s1 s2

/-- A pointer to a `struct tldnode`: `null` is NULL, otherwise the node it points to
with its fields.  No node is shared between two places of a tree. -/
inductive TLDNode where
  | null
  | mk (left right : TLDNode) (tld : List Char) (height : Int) (count : Int)
deriving DecidableEq, Repr

/-- The structure `struct tldlist`. -/
structure TLDList where
  root : TLDNode
  begin : Date
  end_ : Date
  size : Int
  count : Int
deriving DecidableEq, Repr

/-- The structure `struct tlditerator`: `elements` holds what `inorder_traversal`
stored; the slots of the array behind them are not initialised. -/
structure TLDIterator where
  elements : List TLDNode
  next : Int
  size : Int
deriving DecidableEq, Repr

/-- Function `tldlist_create` for two dates (allocation succeeding): `none` stands
for NULL. -/
def tldlist_create (begin end_ : Date) : Option TLDList :=
  if date_compare begin end_ > 0 then none
  else some { root := TLDNode.null, begin := begin, end_ := end_, size := 0, count := 0 }

/-- Function `hostname_to_tld`: what follows the last dot (the whole name when there
is none) is copied into `dest` and put in lower case; `none` when the copy and its
terminator do not fit the `dest_size` characters of `dest`. -/
def hostname_to_tld (hostname : List Char) (dest_size : Nat) : Option (List Char) :=
  let res := (hostname.reverse.takeWhile (fun c => decide (c ≠ '.'))).reverse
  if res.length < dest_size then some (res.map Char.toLower) else none

/-- Function `tldnode_create` (allocation succeeding). -/
def tldnode_create (tld : List Char) : TLDNode := TLDNode.mk TLDNode.null TLDNode.null tld 0 1

/-- Function `tldlist_search`. -/
def tldlist_search (tld : List Char) : TLDNode → TLDNode
  | TLDNode.null => TLDNode.null
  | TLDNode.mk left right t h c =>
    let cmp := strcmp tld t
    if cmp < 0 then tldlist_search tld left
    else if cmp > 0 then tldlist_search tld right
    else TLDNode.mk left right t h c

/-- Function `maximum`. -/
def maximum (a b : Int) : Int := if a > b then a else b

/-- Function `height`. -/
def height : TLDNode → Int
  | TLDNode.null => -1
  | TLDNode.mk _ _ _ h _ => h

/-- Function `rotateWithLeftChild`; `none` when `k2` or `k2->left` is NULL and is
dereferenced. -/
def rotateWithLeftChild : TLDNode → Option TLDNode
  | TLDNode.mk (TLDNode.mk k1l k1r k1tld _ k1c) k2r k2tld _ k2c =>
    let k2 := TLDNode.mk k1r k2r k2tld (maximum (height k1r) (height k2r) + 1) k2c
    some (TLDNode.mk k1l k2 k1tld (maximum (height k1l) (height k2) + 1) k1c)
  | _ => none

/-- Function `rotateWithRightChild`; `none` when `k1` or `k1->right` is NULL and is
dereferenced. -/
def rotateWithRightChild : TLDNode → Option TLDNode
  | TLDNode.mk k1l (TLDNode.mk k2l k2r k2tld _ k2c) k1tld _ k1c =>
    let k1 := TLDNode.mk k1l k2l k1tld (maximum (height k1l) (height k2l) + 1) k1c
    some (TLDNode.mk k1 k2r k2tld (maximum (height k2r) (height k1) + 1) k2c)
  | _ => none

/-- Function `doubleWithLeftChild`. -/
def doubleWithLeftChild : TLDNode → Option TLDNode
  | TLDNode.null => none
  | TLDNode.mk left right tld h c =>
    match rotateWithRightChild left with
    | none => none
    | some left1 => rotateWithLeftChild (TLDNode.mk left1 right tld h c)

/-- Function `doubleWithRightChild`. -/
def doubleWithRightChild : TLDNode → Option TLDNode
  | TLDNode.null => none
  | TLDNode.mk left right tld h c =>
    match rotateWithLeftChild right with
    | none => none
    | some right1 => rotateWithRightChild (TLDNode.mk left right1 tld h c)

/-- The last statement of `tldlist_insert`:
`other->height = maximum(height(other->left), height(other->right)) + 1`. -/
def set_height : TLDNode → Option TLDNode
  | TLDNode.null => none
  | TLDNode.mk left right tld _ c =>
    some (TLDNode.mk left right tld (maximum (height left) (height right) + 1) c)

/-- The expression `node->tld`; `none` when `node` is NULL. -/
def node_tld : TLDNode → Option (List Char)
  | TLDNode.null => none
  | TLDNode.mk _ _ tld _ _ => some tld

/-- The block of `tldlist_insert` that follows an insertion into the left subtree of
`other`: rotate when the left subtree is two higher than the right one. -/
def rebalance_left (ntld : List Char) : TLDNode → Option TLDNode
  | TLDNode.null => none
  | TLDNode.mk left right tld h c =>
    if height left - height right = 2 then
      match node_tld left with
      | none => none
      | some ltld =>
        if strcmp ntld ltld < 0 then rotateWithLeftChild (TLDNode.mk left right tld h c)
        else doubleWithLeftChild (TLDNode.mk left right tld h c)
    else some (TLDNode.mk left right tld h c)

/-- The block of `tldlist_insert` that follows an insertion into the right subtree of
`other`. -/
def rebalance_right (ntld : List Char) : TLDNode → Option TLDNode
  | TLDNode.null => none
  | TLDNode.mk left right tld h c =>
    if height right - height left = 2 then
      match node_tld right with
      | none => none
      | some rtld =>
        if strcmp ntld rtld > 0 then rotateWithRightChild (TLDNode.mk left right tld h c)
        else doubleWithRightChild (TLDNode.mk left right tld h c)
    else some (TLDNode.mk left right tld h c)

/-- Function `tldlist_insert(node, other)`; `none` when a NULL pointer is
dereferenced. -/
def tldlist_insert (node : TLDNode) : TLDNode → Option TLDNode
  | TLDNode.null => set_height node
  | TLDNode.mk left right tld h c =>
    match node_tld node with
    | none => none
    | some ntld =>
      if strcmp ntld tld < 0 then
        match tldlist_insert node left with
        | none => none
        | some left1 =>
          match rebalance_left ntld (TLDNode.mk left1 right tld h c) with
          | none => none
          | some other => set_height other
      else if strcmp ntld tld > 0 then
        match tldlist_insert node right with
        | none => none
        | some right1 =>
          match rebalance_right ntld (TLDNode.mk left right1 tld h c) with
          | none => none
          | some other => set_height other
      else set_height (TLDNode.mk left right tld h c)

/-- The statement `res->count++` for `res = tldlist_search(tld, node)`: the node that
the search reaches has its count incremented in place. -/
def incr_count (tld : List Char) : TLDNode → TLDNode
  | TLDNode.null => TLDNode.null
  | TLDNode.mk left right t h c =>
    let cmp := strcmp tld t
    if cmp < 0 then TLDNode.mk (incr_count tld left) right t h c
    else if cmp > 0 then TLDNode.mk left (incr_count tld right) t h c
    else TLDNode.mk left right t h (c + 1)

/-- Function `tldlist_add` for a list, a hostname and a date that are not NULL
(allocation succeeding): the value returned and the list after the call; `none` when
the tld overflows `buffer[256]` or a NULL pointer is dereferenced. -/
def tldlist_add (tld : TLDList) (hostname : List Char) (d : Date) : Option (Int × TLDList) :=
  if date_compare d tld.begin < 0 ∨ date_compare d tld.end_ > 0 then some (0, tld)
  else
    match hostname_to_tld hostname 256 with
    | none => none
    | some buffer =>
      match tldlist_search buffer tld.root with
      | TLDNode.null =>
        match tldlist_insert (tldnode_create buffer) tld.root with
        | none => none
        | some root =>
          some (1, { tld with root := root, size := tld.size + 1, count := tld.count + 1 })
      | TLDNode.mk _ _ _ _ _ =>
        some (1, { tld with root := incr_count buffer tld.root, count := tld.count + 1 })

/-- Function `tldlist_count` for a list that is not NULL. -/
def tldlist_count (tld : TLDList) : Int := tld.count

/-- Function `inorder_traversal`: the node pointers in the order in which they are
stored into `iter->elements`. -/
def inorder_traversal : TLDNode → List TLDNode
  | TLDNode.null => []
  | TLDNode.mk left right tld h c =>
    inorder_traversal left ++ TLDNode.mk left right tld h c :: inorder_traversal right

/-- Function `tldlist_iter_create` for a list that is not NULL (allocation
succeeding); `none` when the traversal writes past the `size` slots of the array. -/
def tldlist_iter_create (tld : TLDList) : Option TLDIterator :=
  if ((inorder_traversal tld.root).length : Int) ≤ tld.size then
    some { elements := inorder_traversal tld.root, next := 0, size := tld.size }
  else none

/-- Function `tldlist_iter_next` for an iterator that is not NULL: the node returned
(`null` for NULL) and the iterator after the call; `none` when a slot outside the
array or one that was never written is read. -/
def tldlist_iter_next (iter : TLDIterator) : Option (TLDNode × TLDIterator) :=
  if iter.next ≠ iter.size then
    if iter.next < 0 then none
    else
      match iter.elements[iter.next.toNat]? with
      | none => none
      | some node => some (node, { iter with next := iter.next + 1 })
  else some (TLDNode.null, iter)

/-- Function `tldnode_tldname`; `none` stands for NULL. -/
def tldnode_tldname : TLDNode → Option (List Char)
  | TLDNode.null => none
  | TLDNode.mk _ _ tld _ _ => some tld

/-- Function `tldnode_count`. -/
def tldnode_count : TLDNode → Int
  | TLDNode.null => 0
  | TLDNode.mk _ _ _ _ c => c

/-- Successive calls of `tldlist_add`, one for each (hostname, date) pair. -/
def tldlist_add_all : TLDList → List (List Char × Date) → Option TLDList
  | tld, [] => some tld
  | tld, (hostname, d) :: more =>
    match tldlist_add tld hostname d with
    | none => none
    | some r => tldlist_add_all r.2 more

/-- The results of `n` successive calls of `tldlist_iter_next` and the iterator after
them. -/
def iter_next_times : Nat → TLDIterator → Option (List TLDNode × TLDIterator)
  | 0, iter => some ([], iter)
  | n + 1, iter =>
    match tldlist_iter_next iter with
    | none => none
    | some (node, iter1) =>
      match iter_next_times n iter1 with
      | none => none
      | some (nodes, iter2) => some (node :: nodes, iter2)

/-- The (tld, count) pairs of a tree from left to right. -/
def entries : TLDNode → List (List Char × Int)
  | TLDNode.null => []
  | TLDNode.mk left right tld _ c => entries left ++ (tld, c) :: entries right

/-- The tree is a search tree: from left to right the tlds strictly ascend in the
order of `strcmp`. -/
def Bst (t : TLDNode) : Prop := (entries t).Pairwise (fun a b => strcmp a.1 b.1 < 0)

/-- Every stored height is one more than the larger height of the two children, and
the heights of the two children of a node differ by at most one. -/
def Avl : TLDNode → Prop
  | TLDNode.null => True
  | TLDNode.mk left right _ h _ =>
    Avl left ∧ Avl right ∧ h = maximum (height left) (height right) + 1 ∧
      height left - height right ≤ 1 ∧ height right - height left ≤ 1

/-- The subtree into which the tld `k` was inserted is the higher child of the root
(or the root is the new leaf). -/
def Grew (k : List Char) : TLDNode → Prop
  | TLDNode.null => False
  | TLDNode.mk left right tld h _ =>
    (strcmp k tld < 0 ∧ height left = height right + 1) ∨
    (strcmp k tld > 0 ∧ height right = height left + 1) ∨
    (strcmp k tld = 0 ∧ h = 0)

/-- The invariant of a list: a balanced search tree whose number of nodes is `size`. -/
def ListInv (tld : TLDList) : Prop :=
  Avl tld.root ∧ Bst tld.root ∧ tld.size = (entries tld.root).length

/-- The empty list for the years 2000 to 2020. -/
def sample_tldlist : TLDList :=
  { root := TLDNode.null, begin := ⟨1, 1, 2000⟩, end_ := ⟨31, 12, 2020⟩, size := 0, count := 0 }

/-- Three log entries inside the date range, two of them for the same tld. -/
def sample_adds : List (List Char × Date) :=
  [("www.uoregon.EDU".toList, ⟨15, 6, 2010⟩), ("a.b.com".toList, ⟨1, 1, 2000⟩),
   ("cs.uoregon.edu".toList, ⟨31, 12, 2020⟩)]

/-- A queue whose ALIVE head has three ticks left, followed by a WAITING entry. -/
def sample_running : List Process :=
  [⟨["a"], 41, 17, 3, 5, 0, 0, 0, 0⟩, ⟨["b"], 42, 16, 5, 5, 0, 0, 0, 0⟩]

/-- The entry `a` of the queue after a call is the entry `b` of the queue before it:
same program, same pid, same quantum.  The status and the tick counter may differ. -/
def same_entry (a b : Process) : Prop :=
  a.argv = b.argv ∧ a.pid = b.pid ∧ a.nticks = b.nticks

/-- The `while` loop of `sigalrm_handler` run for at most `fuel` evaluations of its
condition `cl_head(pr_list, &temp)`: `none` when the loop would go on after them. -/
def reap_loop_fuel : Nat → List Process → Option (List Process × List Event)
  | 0, _ => none
  | _ + 1, [] => some ([], [])
  | fuel + 1, temp :: rest =>
    if pr_status temp = WAITING then
      some (pr_wake temp :: rest, [Event.signal (pr_wake temp) Signal.SIGUSR1])
    else if pr_status temp = ALIVE then
      some (temp :: rest, [Event.signal temp Signal.SIGCONT])
    else
      match reap_loop_fuel fuel rest with
      | none => none
      | some r => some (r.1, Event.freed temp :: r.2)

/-- A queue of three DEAD entries. -/
def sample_all_dead : List Process :=
  [⟨["a"], 51, 18, 5, 5, 0, 0, 0, 0⟩, ⟨["b"], 52, 18, 2, 5, 0, 0, 0, 0⟩,
   ⟨["c"], 53, 18, 5, 5, 0, 0, 0, 0⟩]

/-- Every entry of `q` has a status of process.h and a tick counter between 1 and the
length of its quantum. -/
def TickBound (q : List Process) : Prop :=
  ∀ p ∈ q, valid_status p ∧ 1 ≤ p.ticks ∧ p.ticks ≤ p.nticks

/-! ## uspsv4.c -/

/-- One observable call made by the timer handler of uspsv4.c: a call that the
handler of uspsv3.c makes as well, or the call `print(temp)`, which writes the monitor
row of `temp` and changes no field of it. -/
inductive Event4 where
  | base (e : Event)
  | print (temp : Process)
deriving DecidableEq, Repr

/-- The `while` loop of `sigalrm_handler` in uspsv4.c (lines 416-433). -/
def reap_loop_v4 : List Process → List Process × List Event4
  | [] => ([], [])
  | temp :: rest =>
    if pr_status temp = WAITING then
      (pr_wake temp :: rest, [Event4.base (Event.signal (pr_wake temp) Signal.SIGUSR1)])
    else if pr_status temp = ALIVE then
      (temp :: rest, [Event4.base (Event.signal temp Signal.SIGCONT)])
    else
      let r := reap_loop_v4 rest
      (r.1, Event4.base (Event.freed temp) :: r.2)

/-- Function `sigalrm_handler` of uspsv4.c: the new queue and the calls made. -/
def sigalrm_handler_v4 (pr_list : List Process) : List Process × List Event4 :=
  match pr_list with
  | [] => ([], [])
  | temp :: rest =>
    if pr_status temp = ALIVE then
      let d := decr_tick temp
      if d.1 ≠ 0 then (d.2 :: rest, [])
      else
        let r := reap_loop_v4 (cl_rotate (d.2 :: rest))
        (r.1, Event4.base (Event.signal d.2 Signal.SIGSTOP) :: Event4.print d.2 :: r.2)
    else reap_loop_v4 (cl_rotate (temp :: rest))

/-- Lines 155-174 of `main` in uspsv4.c, whose macros `MIN_QUANTUM`, `MAX_QUANTUM`
and `SLICE` have the values of those of uspsv3.c. -/
def compute_quantum_v4 (q : Int) : Quantum :=
  let quantum := q
  let r1 : Int × List Out :=
    if quantum < MIN_QUANTUM then
      (MIN_QUANTUM,
        [Out.str "The specified quantum is less than the minimum (",
         Out.int MIN_QUANTUM, Out.str "), setting to minimum.\n"])
    else (quantum, [])
  let r2 : Int × List Out :=
    if r1.1 > MAX_QUANTUM then
      (MAX_QUANTUM,
        r1.2 ++ [Out.str "The specified quantum is greater than the maximum (",
                 Out.int MAX_QUANTUM, Out.str "), setting to maximum.\n"])
    else r1
  let quantum := (Int.tdiv (r2.1 + 50) 100) * 100
  { quantum := quantum, nticks := Int.tdiv quantum SLICE, out := r2.2 }

/-- The call of uspsv3.c behind a call of uspsv4.c; `none` for `print`. -/
def Event4.v3 : Event4 → Option Event
  | Event4.base e => some e
  | Event4.print _ => none

/-- In the words of the specification: the calls of version 3 with a monitor row for
the head right after each SIGSTOP. -/
def with_monitor : List Event → List Event4
  | [] => []
  | Event.signal temp Signal.SIGSTOP :: more =>
    Event4.base (Event.signal temp Signal.SIGSTOP) :: Event4.print temp :: with_monitor more
  | e :: more => Event4.base e :: with_monitor more

/-- In the words of the specification: the true height of a subtree; an absent child
counts as -1, so a leaf has height 0. -/
def true_height : TLDNode → Int
  | TLDNode.null => -1
  | TLDNode.mk left right _ _ _ => max (true_height left) (true_height right) + 1

/-- The number of nodes of a tree. -/
def node_count : TLDNode → Nat
  | TLDNode.null => 0
  | TLDNode.mk left right _ _ _ => node_count left + 1 + node_count right

/-- The tlds of a tree from left to right. -/
def tld_names : TLDNode → List (List Char)
  | TLDNode.null => []
  | TLDNode.mk left right tld _ _ => tld_names left ++ tld :: tld_names right

/-- In the words of the specification: a binary search tree under `strcmp`: at every
node the tlds of the left subtree are smaller and those of the right subtree greater
than the tld of the node. -/
def SearchTree : TLDNode → Prop
  | TLDNode.null => True
  | TLDNode.mk left right tld _ _ =>
    SearchTree left ∧ SearchTree right ∧ (∀ x ∈ tld_names left, strcmp x tld < 0) ∧
      (∀ y ∈ tld_names right, strcmp tld y < 0)

/-- In the words of the specification: the height field of every node is the true
height of its subtree. -/
def HeightsTrue : TLDNode → Prop
  | TLDNode.null => True
  | TLDNode.mk left right tld h c =>
    HeightsTrue left ∧ HeightsTrue right ∧ h = true_height (TLDNode.mk left right tld h c)

/-- In the words of the specification: the true heights of the two subtrees of every
node differ by at most 1. -/
def Balanced : TLDNode → Prop
  | TLDNode.null => True
  | TLDNode.mk left right _ _ _ =>
    Balanced left ∧ Balanced right ∧ true_height left - true_height right ≤ 1 ∧
      true_height right - true_height left ≤ 1

/-- A call that changes a list: `cl_insert` of an item for which `malloc` returns the
address `node`, `cl_rotate`, or `cl_remove`. -/
inductive ListOp (α : Type) where
  | insert (item : α) (node : Nat)
  | rotate
  | remove

/-- One call on the list.  `malloc` never returns the address of a block that is
still allocated, so a run in which `node` is the address of a living node does not
exist (`none`), as does none in which a call dereferences a dangling pointer or the
insertion returns 0. -/
def Heap.apply_op {α : Type} (cl : CList α) : ListOp α → Option (CList α)
  | ListOp.insert item node =>
    if (cl.nodes node).isSome then none
    else
      match Heap.cl_insert cl item (some node) with
      | none => none
      | some r => if r.1 = 1 then some r.2 else none
  | ListOp.rotate => Heap.cl_rotate cl
  | ListOp.remove =>
    match Heap.cl_remove cl with
    | none => none
    | some r => some r.2.2

/-- A sequence of calls on the list, one after the other. -/
def Heap.apply_ops {α : Type} : CList α → List (ListOp α) → Option (CList α)
  | cl, [] => some cl
  | cl, op :: more =>
    match Heap.apply_op cl op with
    | none => none
    | some cl1 => Heap.apply_ops cl1 more

/-- Following the `next` link `k` times from the node at address `a`: the addresses
reached, in order. -/
def follow {α : Type} (nodes : Nat → Option (CNode α)) : Nat → Nat → Option (List Nat)
  | 0, _ => some []
  | k + 1, a =>
    match nodes a with
    | none => none
    | some n =>
      match follow nodes k n.next with
      | none => none
      | some rest => some (n.next :: rest)

/-- Five calls on a new list: three insertions at the addresses 1, 2, 3, a rotation
and a removal. -/
def sample_ops : List (ListOp Int) :=
  [ListOp.insert 10 1, ListOp.insert 20 2, ListOp.insert 30 3, ListOp.rotate, ListOp.remove]

/-- The date `d` is inside the range of the list: neither of the two tests
`date_compare(d, tld->begin) < 0` and `date_compare(d, tld->end) > 0` of `tldlist_add`
holds. -/
def date_in_range (tld : TLDList) (d : Date) : Prop :=
  ¬ (date_compare d tld.begin < 0 ∨ date_compare d tld.end_ > 0)

instance (tld : TLDList) (d : Date) : Decidable (date_in_range tld d) := by
  unfold date_in_range; infer_instance

/-- A hostname without a dot that is 256 characters long: with its terminator it does
not fit `buffer[256]`. -/
def sample_long_hostname : List Char := List.replicate 256 'a'

/-! # Theorems -/

/-- The spec's rounding picks a multiple of 100 that no other multiple beats. -/
theorem round_nearest_100_spec_closest (x m : Int) (hm : 100 ∣ m) :
    100 ∣ round_nearest_100_spec x ∧
    (x - round_nearest_100_spec x).natAbs ≤ (x - m).natAbs ∧
    ((x - round_nearest_100_spec x).natAbs = (x - m).natAbs → m ≤ round_nearest_100_spec x) := by
  obtain ⟨k, rfl⟩ := hm
  unfold round_nearest_100_spec
  simp only []
  split <;> omega

/-- The code's rounded quantum and tick count, in terms of the spec's functions. -/
theorem compute_quantum_eq (q : Int) :
    (compute_quantum q).quantum = round_nearest_100_spec (clamp_spec q 100 1000) ∧
    (compute_quantum q).nticks = round_nearest_100_spec (clamp_spec q 100 1000) / 20 := by
  have hc : 100 ≤ clamp_spec q 100 1000 ∧ clamp_spec q 100 1000 ≤ 1000 := by
    unfold clamp_spec; omega
  have hq : (compute_quantum q).quantum = Int.tdiv (clamp_spec q 100 1000 + 50) 100 * 100 := by
    unfold compute_quantum clamp_spec MIN_QUANTUM MAX_QUANTUM
    simp only []
    split_ifs <;> congr 2 <;> omega
  have hn : (compute_quantum q).nticks = Int.tdiv (compute_quantum q).quantum 20 := rfl
  have hr : round_nearest_100_spec (clamp_spec q 100 1000)
      = (clamp_spec q 100 1000 + 50) / 100 * 100 := by
    unfold round_nearest_100_spec
    simp only []
    split <;> omega
  have ht : Int.tdiv (clamp_spec q 100 1000 + 50) 100 = (clamp_spec q 100 1000 + 50) / 100 :=
    Int.tdiv_eq_ediv (by omega) (by norm_num)
  have hq2 : (compute_quantum q).quantum = round_nearest_100_spec (clamp_spec q 100 1000) := by
    rw [hq, hr, ht]
  refine ⟨hq2, ?_⟩
  rw [hn, hq2, hr]
  exact Int.tdiv_eq_ediv (by omega) (by norm_num)

/-- C9. Quantum-to-ticks conversion: for every integer `q` read from the configuration
string, the tick count handed to `assign_ticks` is
`round_nearest_100 (clamp q 100 1000) / 20`, the rounded value being the multiple of
100 closest to the clamped one (the upper multiple on a tie), and the division by
`SLICE = 20` is exact. -/
theorem quantum_to_ticks_conversion (q : Int) :
    (compute_quantum q).nticks = round_nearest_100_spec (clamp_spec q MIN_QUANTUM MAX_QUANTUM) / SLICE ∧
    round_nearest_100_spec (clamp_spec q MIN_QUANTUM MAX_QUANTUM) % SLICE = 0 ∧
    (compute_quantum q).nticks * SLICE = round_nearest_100_spec (clamp_spec q MIN_QUANTUM MAX_QUANTUM) ∧
    (MIN_QUANTUM ≤ clamp_spec q MIN_QUANTUM MAX_QUANTUM ∧
      clamp_spec q MIN_QUANTUM MAX_QUANTUM ≤ MAX_QUANTUM ∧
      (MIN_QUANTUM ≤ q → q ≤ MAX_QUANTUM → clamp_spec q MIN_QUANTUM MAX_QUANTUM = q)) ∧
    (100 ∣ round_nearest_100_spec (clamp_spec q MIN_QUANTUM MAX_QUANTUM) ∧
      ∀ m : Int, 100 ∣ m →
        (clamp_spec q MIN_QUANTUM MAX_QUANTUM
            - round_nearest_100_spec (clamp_spec q MIN_QUANTUM MAX_QUANTUM)).natAbs
          ≤ (clamp_spec q MIN_QUANTUM MAX_QUANTUM - m).natAbs ∧
        ((clamp_spec q MIN_QUANTUM MAX_QUANTUM
            - round_nearest_100_spec (clamp_spec q MIN_QUANTUM MAX_QUANTUM)).natAbs
          = (clamp_spec q MIN_QUANTUM MAX_QUANTUM - m).natAbs →
          m ≤ round_nearest_100_spec (clamp_spec q MIN_QUANTUM MAX_QUANTUM))) ∧
    round_nearest_100_spec 150 = 200 := by
  have h := compute_quantum_eq q
  have hd := (round_nearest_100_spec_closest (clamp_spec q 100 1000) 0 (by norm_num)).1
  have hc : 100 ≤ clamp_spec q 100 1000 ∧ clamp_spec q 100 1000 ≤ 1000 := by
    unfold clamp_spec; omega
  refine ⟨h.2, ?_, ?_, ⟨hc.1, hc.2, ?_⟩, ⟨hd, fun m hm => ?_⟩, by decide⟩
  · show round_nearest_100_spec (clamp_spec q 100 1000) % 20 = 0
    omega
  · show (compute_quantum q).nticks * 20 = round_nearest_100_spec (clamp_spec q 100 1000)
    rw [h.2]; omega
  · intro h1 h2
    have h1 : 100 ≤ q := h1
    have h2 : q ≤ 1000 := h2
    show clamp_spec q 100 1000 = q
    unfold clamp_spec; omega
  · exact (round_nearest_100_spec_closest (clamp_spec q 100 1000) m hm).2

/-- C10. Clamping with an observable warning: a requested quantum of 50 ms gives an
effective quantum of 100 ms, 5 ticks, and the less-than-the-minimum warning; for every
request a warning is written exactly when it is below 100 or above 1000, and the
effective quantum is then 100, respectively 1000. -/
theorem clamp_warning (q : Int) :
    compute_quantum 50 = { quantum := 100, nticks := 5, out := warn_min } ∧
    ((compute_quantum q).out ≠ [] ↔ (q < 100 ∨ q > 1000)) ∧
    (q < 100 → (compute_quantum q).out = warn_min ∧ (compute_quantum q).quantum = 100) ∧
    (q > 1000 → (compute_quantum q).out = warn_max ∧ (compute_quantum q).quantum = 1000) := by
  refine ⟨by decide, ?_, ?_, ?_⟩
  · unfold compute_quantum MIN_QUANTUM MAX_QUANTUM
    simp only []
    split_ifs <;> simp <;> omega
  · intro h
    unfold compute_quantum MIN_QUANTUM MAX_QUANTUM warn_min
    simp only []
    rw [if_pos h]
    simp
    decide
  · intro h
    unfold compute_quantum MIN_QUANTUM MAX_QUANTUM warn_max
    simp only []
    have h1 : ¬ q < 100 := by omega
    have h2 : q > 1000 := h
    simp only [if_neg h1, if_pos h2, List.nil_append]
    exact ⟨trivial, by decide⟩

/-! ## Basic facts about the queue operations -/

theorem cl_rotate_eq_rotate {α : Type} (cl : List α) : cl_rotate cl = cl.rotate 1 := by
  cases cl with
  | nil => rfl
  | cons x xs => simp [cl_rotate, List.rotate_cons_succ]

theorem cl_rotate_iterate {α : Type} (n : Nat) (cl : List α) :
    cl_rotate^[n] cl = cl.rotate n := by
  induction n generalizing cl with
  | zero => simp
  | succ n ih =>
    rw [Function.iterate_succ_apply, ih, cl_rotate_eq_rotate, List.rotate_rotate, Nat.add_comm]

theorem decr_tick_pid (pr : Process) : (decr_tick pr).2.pid = pr.pid := by
  unfold decr_tick; simp only []; split <;> rfl

theorem decr_tick_status (pr : Process) : (decr_tick pr).2.status = pr.status := by
  unfold decr_tick; simp only []; split <;> rfl

theorem decr_tick_nticks (pr : Process) : (decr_tick pr).2.nticks = pr.nticks := by
  unfold decr_tick; simp only []; split <;> rfl

theorem decr_tick_left (pr : Process) : (decr_tick pr).1 = pr.ticks - 1 := rfl

/-- After `decr_tick` the counter is `nticks` when it ran out and one less otherwise. -/
theorem decr_tick_ticks (pr : Process) :
    (decr_tick pr).2.ticks = if pr.ticks - 1 ≤ 0 then pr.nticks else pr.ticks - 1 := by
  unfold decr_tick; simp only []; split <;> rfl

/-- When the head is not ALIVE the handler goes straight to the rotation. -/
theorem sigalrm_handler_not_alive (q : List Process)
    (h : ∀ p, q.head? = some p → p.status ≠ ALIVE) :
    sigalrm_handler q = reap_loop (cl_rotate q) := by
  cases q with
  | nil => rfl
  | cons p rest =>
    have hp : ¬ pr_status p = ALIVE := h p rfl
    simp only [sigalrm_handler, if_neg hp]

/-- The loop starts a WAITING head at once. -/
theorem reap_loop_waiting (p : Process) (rest : List Process) (h : p.status = WAITING) :
    reap_loop (p :: rest) = (pr_wake p :: rest, [Event.signal (pr_wake p) Signal.SIGUSR1]) := by
  have hp : pr_status p = WAITING := h
  simp only [reap_loop, if_pos hp]

/-- The loop resumes an ALIVE head at once. -/
theorem reap_loop_alive (p : Process) (rest : List Process) (h : p.status = ALIVE) :
    reap_loop (p :: rest) = (p :: rest, [Event.signal p Signal.SIGCONT]) := by
  have hp : pr_status p = ALIVE := h
  have hw : ¬ pr_status p = WAITING := by rw [hp]; decide
  simp only [reap_loop, if_neg hw, if_pos hp]

/-- The loop removes and frees a head that is neither WAITING nor ALIVE. -/
theorem reap_loop_other (p : Process) (rest : List Process)
    (hw : p.status ≠ WAITING) (ha : p.status ≠ ALIVE) :
    reap_loop (p :: rest) = ((reap_loop rest).1, Event.freed p :: (reap_loop rest).2) := by
  have hw1 : ¬ pr_status p = WAITING := hw
  have ha1 : ¬ pr_status p = ALIVE := ha
  simp only [reap_loop, if_neg hw1, if_neg ha1]

/-- The start-up sequence on a workload of WAITING entries starts the first one. -/
theorem first_decision_eq (p1 : Process) (rest : List Process)
    (hw : ∀ p ∈ p1 :: rest, p.status = WAITING) :
    first_decision (p1 :: rest)
      = (pr_wake p1 :: rest, [Event.signal (pr_wake p1) Signal.SIGUSR1]) := by
  unfold first_decision
  have hn : (cl_size (p1 :: rest) - 1).toNat = rest.length := by
    simp [cl_size]
  rw [hn, cl_rotate_iterate, sigalrm_handler_not_alive, cl_rotate_eq_rotate,
    List.rotate_rotate]
  · have hl : rest.length + 1 = (p1 :: rest).length := rfl
    rw [hl, List.rotate_length]
    exact reap_loop_waiting p1 rest (hw p1 (List.mem_cons_self _ _))
  · intro p hp
    have hmem : p ∈ (p1 :: rest).rotate rest.length := List.mem_of_mem_head? hp
    rw [List.mem_rotate] at hmem
    rw [hw p hmem]
    decide

/-- C7. First scheduling decision: for a workload `p1 :: rest` of WAITING entries,
after the `size - 1` rotations and the manual call of the timer handler exactly one
signal has been sent, SIGUSR1 to the pid of `p1`; `p1` is at the head and ALIVE; the
queue reads `p1 .. pn` in the order of insertion; every other entry is untouched, so
still WAITING. -/
theorem first_decision_starts_first (p1 : Process) (rest : List Process)
    (hw : ∀ p ∈ p1 :: rest, p.status = WAITING) :
    first_decision (p1 :: rest)
      = (pr_wake p1 :: rest, [Event.signal (pr_wake p1) Signal.SIGUSR1]) ∧
    (first_decision (p1 :: rest)).2.filterMap Event.sent = [(p1.pid, Signal.SIGUSR1)] ∧
    (first_decision (p1 :: rest)).1.head? = some { p1 with status := ALIVE } ∧
    (first_decision (p1 :: rest)).1.map pr_pid = (p1 :: rest).map pr_pid ∧
    (first_decision (p1 :: rest)).1.tail = rest ∧
    (∀ p ∈ (first_decision (p1 :: rest)).1.tail, p.status = WAITING) := by
  rw [first_decision_eq p1 rest hw]
  refine ⟨rfl, rfl, rfl, rfl, rfl, ?_⟩
  intro p hp
  exact hw p (List.mem_cons_of_mem _ hp)

/-- C7 at a concrete workload of three WAITING entries. -/
theorem first_decision_starts_first_witness :
    first_decision [⟨["a"], 11, 16, 5, 5, 0, 0, 0, 0⟩, ⟨["b"], 12, 16, 5, 5, 0, 0, 0, 0⟩,
        ⟨["c"], 13, 16, 5, 5, 0, 0, 0, 0⟩]
      = ([⟨["a"], 11, 17, 5, 5, 0, 0, 0, 0⟩, ⟨["b"], 12, 16, 5, 5, 0, 0, 0, 0⟩,
          ⟨["c"], 13, 16, 5, 5, 0, 0, 0, 0⟩],
         [Event.signal ⟨["a"], 11, 17, 5, 5, 0, 0, 0, 0⟩ Signal.SIGUSR1]) :=
  (first_decision_starts_first ⟨["a"], 11, 16, 5, 5, 0, 0, 0, 0⟩
    [⟨["b"], 12, 16, 5, 5, 0, 0, 0, 0⟩, ⟨["c"], 13, 16, 5, 5, 0, 0, 0, 0⟩]
    (by decide)).1

/-! ## What the timer handler records -/

/-- Every event of the loop is a start or resume of a WAITING or ALIVE entry of the
queue, recorded with status ALIVE, or the release of an entry that is neither. -/
theorem reap_loop_events (q : List Process) (ev : Event) (h : ev ∈ (reap_loop q).2) :
    (∃ t sig, ev = Event.signal t sig ∧ t.status = ALIVE ∧
        (sig = Signal.SIGUSR1 ∨ sig = Signal.SIGCONT) ∧
        ∃ e ∈ q, e.pid = t.pid ∧ (e.status = WAITING ∨ e.status = ALIVE)) ∨
    (∃ t, ev = Event.freed t ∧ t ∈ q ∧ t.status ≠ WAITING ∧ t.status ≠ ALIVE) := by
  induction q with
  | nil => simp [reap_loop] at h
  | cons p rest ih =>
    by_cases hw : p.status = WAITING
    · rw [reap_loop_waiting p rest hw] at h
      simp only [List.mem_singleton] at h
      exact Or.inl ⟨pr_wake p, Signal.SIGUSR1, h, rfl, Or.inl rfl, p,
        List.mem_cons_self _ _, rfl, Or.inl hw⟩
    · by_cases ha : p.status = ALIVE
      · rw [reap_loop_alive p rest ha] at h
        simp only [List.mem_singleton] at h
        exact Or.inl ⟨p, Signal.SIGCONT, h, ha, Or.inr rfl, p,
          List.mem_cons_self _ _, rfl, Or.inr ha⟩
      · rw [reap_loop_other p rest hw ha] at h
        rcases List.mem_cons.mp h with h1 | h1
        · exact Or.inr ⟨p, h1, List.mem_cons_self _ _, hw, ha⟩
        · rcases ih h1 with ⟨t, sig, he, hs, hsig, e, hem, hpid, hst⟩ | ⟨t, he, hm, h2, h3⟩
          · exact Or.inl ⟨t, sig, he, hs, hsig, e, List.mem_cons_of_mem _ hem, hpid, hst⟩
          · exact Or.inr ⟨t, he, List.mem_cons_of_mem _ hm, h2, h3⟩

/-- Every event of the timer handler is a signal to a WAITING or ALIVE entry of the
queue, recorded with status ALIVE, or the release of an entry that is neither. -/
theorem sigalrm_handler_events (q : List Process) (ev : Event)
    (h : ev ∈ (sigalrm_handler q).2) :
    (∃ t sig, ev = Event.signal t sig ∧ t.status = ALIVE ∧
        (sig = Signal.SIGSTOP ∨ sig = Signal.SIGUSR1 ∨ sig = Signal.SIGCONT) ∧
        ∃ e ∈ q, e.pid = t.pid ∧ (e.status = WAITING ∨ e.status = ALIVE)) ∨
    (∃ t, ev = Event.freed t ∧ t ∈ q ∧ t.status ≠ WAITING ∧ t.status ≠ ALIVE) := by
  cases q with
  | nil => simp [sigalrm_handler] at h
  | cons p rest =>
    by_cases ha : p.status = ALIVE
    · have hp : pr_status p = ALIVE := ha
      by_cases hl : (decr_tick p).1 ≠ 0
      · simp [sigalrm_handler, hp, hl] at h
      · simp only [sigalrm_handler, if_pos hp, if_neg hl] at h
        rcases List.mem_cons.mp h with h1 | h1
        · refine Or.inl ⟨(decr_tick p).2, Signal.SIGSTOP, h1, ?_, Or.inl rfl, p,
            List.mem_cons_self _ _, (decr_tick_pid p).symm, Or.inr ha⟩
          rw [decr_tick_status, ha]
        · rcases reap_loop_events _ ev h1 with
            ⟨t, sig, he, hs, hsig, e, hem, hpid, hst⟩ | ⟨t, he, hm, h2, h3⟩
          · refine Or.inl ⟨t, sig, he, hs, Or.inr hsig, ?_⟩
            simp only [cl_rotate, List.mem_append, List.mem_singleton] at hem
            rcases hem with hem | hem
            · exact ⟨e, List.mem_cons_of_mem _ hem, hpid, hst⟩
            · refine ⟨p, List.mem_cons_self _ _, ?_, Or.inr ha⟩
              rw [← hpid, hem, decr_tick_pid]
          · refine Or.inr ⟨t, he, ?_, h2, h3⟩
            simp only [cl_rotate, List.mem_append, List.mem_singleton] at hm
            rcases hm with hm | hm
            · exact List.mem_cons_of_mem _ hm
            · exfalso
              apply h3
              rw [hm, decr_tick_status, ha]
    · rw [sigalrm_handler_not_alive _ (by intro x hx; cases hx; exact ha)] at h
      rcases reap_loop_events _ ev h with
        ⟨t, sig, he, hs, hsig, e, hem, hpid, hst⟩ | ⟨t, he, hm, h2, h3⟩
      · refine Or.inl ⟨t, sig, he, hs, Or.inr hsig, e, ?_, hpid, hst⟩
        simp only [cl_rotate, List.mem_append, List.mem_singleton] at hem
        rcases hem with hem | hem
        · exact List.mem_cons_of_mem _ hem
        · rw [hem]; exact List.mem_cons_self _ _
      · refine Or.inr ⟨t, he, ?_, h2, h3⟩
        simp only [cl_rotate, List.mem_append, List.mem_singleton] at hm
        rcases hm with hm | hm
        · exact List.mem_cons_of_mem _ hm
        · rw [hm]; exact List.mem_cons_self _ _

/-- Entries of a queue with pairwise distinct pids are told apart by their pid. -/
theorem eq_of_pid_eq {q : List Process} (hnd : (q.map pr_pid).Nodup) {a b : Process}
    (ha : a ∈ q) (hb : b ∈ q) (h : a.pid = b.pid) : a = b :=
  List.inj_on_of_nodup_map hnd ha hb h

/-- C5. A dead process is never signalled: whenever the timer handler, on any queue,
sends a signal to some pid, the signal is SIGSTOP, SIGUSR1 or SIGCONT, the entry it is
addressed through is not DEAD at the time of sending, that entry comes from a queued
entry which was WAITING or ALIVE when the handler was invoked, and (pids being
pairwise distinct) no queued entry with that pid is DEAD. -/
theorem no_signal_to_dead (q : List Process) (pid : Int) (sig : Signal)
    (h : (pid, sig) ∈ (sigalrm_handler q).2.filterMap Event.sent) :
    (sig = Signal.SIGSTOP ∨ sig = Signal.SIGUSR1 ∨ sig = Signal.SIGCONT) ∧
    (∃ temp, Event.signal temp sig ∈ (sigalrm_handler q).2 ∧ pr_pid temp = pid ∧
      temp.status ≠ DEAD) ∧
    (∃ e ∈ q, e.pid = pid ∧ e.status ≠ DEAD) ∧
    ((q.map pr_pid).Nodup → ∀ e ∈ q, e.pid = pid → e.status ≠ DEAD) := by
  obtain ⟨ev, hev, hsent⟩ := List.mem_filterMap.mp h
  rcases sigalrm_handler_events q ev hev with
    ⟨t, sg, he, hs, hsig, e, hem, hpid, hst⟩ | ⟨t, he, _, _, _⟩
  · subst he
    simp only [Event.sent, Option.some.injEq, Prod.mk.injEq] at hsent
    obtain ⟨h1, h2⟩ := hsent
    subst h2
    have hne : e.status ≠ DEAD := by
      rcases hst with hst | hst <;> rw [hst] <;> decide
    refine ⟨hsig, ⟨t, hev, h1, by rw [hs]; decide⟩, ⟨e, hem, ?_, hne⟩, ?_⟩
    · rw [hpid]; exact h1
    · intro hnd e2 he2 hp2
      have : e2 = e := eq_of_pid_eq hnd he2 hem (by rw [hp2, hpid]; exact h1.symm)
      rw [this]; exact hne
  · subst he
    simp [Event.sent] at hsent

/-- C5 at a queue whose head has used up its quantum and is followed by a DEAD entry. -/
theorem no_signal_to_dead_witness :
    (21, Signal.SIGSTOP) ∈ (sigalrm_handler [⟨["a"], 21, 17, 1, 5, 0, 0, 0, 0⟩,
        ⟨["b"], 22, 18, 5, 5, 0, 0, 0, 0⟩, ⟨["c"], 23, 16, 5, 5, 0, 0, 0, 0⟩]).2.filterMap
          Event.sent ∧
    ∀ e ∈ [(⟨["a"], 21, 17, 1, 5, 0, 0, 0, 0⟩ : Process),
        ⟨["b"], 22, 18, 5, 5, 0, 0, 0, 0⟩, ⟨["c"], 23, 16, 5, 5, 0, 0, 0, 0⟩],
      e.pid = 21 → e.status ≠ DEAD :=
  ⟨by decide, (no_signal_to_dead _ 21 Signal.SIGSTOP (by decide)).2.2.2 (by decide)⟩

/-! ## The at-most-one-runnable invariant -/

theorem last_signal_append_signal (log : List Event) (t : Process) (sig : Signal) (pid : Int) :
    last_signal (log ++ [Event.signal t sig]) pid
      = if t.pid = pid then some sig else last_signal log pid := by
  unfold last_signal
  by_cases h : t.pid = pid
  · simp [List.filterMap_append, Event.to_child, pr_pid, h]
  · simp [List.filterMap_append, Event.to_child, pr_pid, h]

theorem last_signal_append_freed (log : List Event) (t : Process) (pid : Int) :
    last_signal (log ++ [Event.freed t]) pid = last_signal log pid := by
  unfold last_signal
  simp [List.filterMap_append, Event.to_child]

theorem last_signal_append_wake (log : List Event) (p pid : Int) :
    last_signal (log ++ [Event.wake_parent p]) pid = last_signal log pid := by
  unfold last_signal
  simp [List.filterMap_append, Event.to_child]

theorem runnable_congr {log1 log2 : List Event} {p q : Process}
    (hs : p.status = DEAD ↔ q.status = DEAD)
    (h : last_signal log1 p.pid = last_signal log2 q.pid) :
    runnable log1 p ↔ runnable log2 q := by
  unfold runnable
  rw [h]
  exact and_congr_left fun _ => not_congr hs

theorem kill_process_eq (q : List Process) (pid : Int) : kill_process q pid = kill_scan pid q := by
  cases q with
  | nil => rfl
  | cons p rest =>
    have h : ¬ ((rest.length : Int) + 1 = 0) := by omega
    simp only [kill_process, cl_toArray, cl_size, List.length_cons, Nat.cast_add, Nat.cast_one,
      if_neg h]

theorem kill_scan_pids (pid : Int) (q : List Process) :
    (kill_scan pid q).map pr_pid = q.map pr_pid := by
  induction q with
  | nil => rfl
  | cons p rest ih =>
    simp only [kill_scan]
    split
    · rfl
    · simp only [List.map_cons, ih]

theorem kill_scan_quiet (log : List Event) (pid : Int) (q : List Process) (h : quiet log q) :
    quiet log (kill_scan pid q) := by
  induction q with
  | nil => exact h
  | cons p rest ih =>
    simp only [kill_scan]
    split
    · intro x hx
      rcases List.mem_cons.mp hx with hx | hx
      · rw [hx]; intro hr; exact hr.1 rfl
      · exact h x (List.mem_cons_of_mem _ hx)
    · intro x hx
      rcases List.mem_cons.mp hx with hx | hx
      · rw [hx]; exact h p (List.mem_cons_self _ _)
      · exact ih (fun y hy => h y (List.mem_cons_of_mem _ hy)) x hx

theorem kill_scan_one (log : List Event) (pid : Int) (q : List Process)
    (h : OneRunnable log q) : OneRunnable log (kill_scan pid q) := by
  obtain ⟨hnd, hq, hh⟩ := h
  refine ⟨by rw [kill_scan_pids]; exact hnd, ?_, ?_⟩
  · cases q with
    | nil => exact hq
    | cons p rest =>
      simp only [kill_scan]
      split
      · exact hq
      · exact kill_scan_quiet log pid rest hq
  · cases q with
    | nil => intro p hp; simp [kill_scan] at hp
    | cons p rest =>
      simp only [kill_scan]
      split
      · intro x hx hr
        simp only [List.head?_cons, Option.some.injEq] at hx
        rw [← hx] at hr
        exact absurd rfl hr.1
      · intro x hx hr
        exact hh x hx hr

theorem OneRunnable_append_wake (log : List Event) (q : List Process) (p : Int)
    (h : OneRunnable log q) : OneRunnable (log ++ [Event.wake_parent p]) q := by
  obtain ⟨hnd, hq, hh⟩ := h
  refine ⟨hnd, ?_, ?_⟩
  · intro x hx hr
    exact hq x hx ((runnable_congr Iff.rfl (last_signal_append_wake log p x.pid)).mp hr)
  · intro x hx hr
    exact hh x hx ((runnable_congr Iff.rfl (last_signal_append_wake log p x.pid)).mp hr)

theorem sigchld_handler_one (reaped : List (Int × Bool)) (s : Sched) (log : List Event)
    (h : OneRunnable log s.pr_list) :
    OneRunnable (log ++ (sigchld_handler s reaped).2) (sigchld_handler s reaped).1.pr_list := by
  induction reaped generalizing s log with
  | nil => simpa [sigchld_handler] using h
  | cons r more ih =>
    obtain ⟨pid, ended⟩ := r
    cases ended with
    | false => simpa [sigchld_handler] using ih s log h
    | true =>
      simp only [sigchld_handler, if_true]
      have h1 : OneRunnable (log ++ [Event.wake_parent s.parent_pid])
          (kill_process s.pr_list pid) := by
        rw [kill_process_eq]
        exact OneRunnable_append_wake _ _ _ (kill_scan_one log pid _ h)
      have := ih { s with pr_list := kill_process s.pr_list pid,
                          active_processes := s.active_processes - 1 } _ h1
      simpa using this

theorem reap_loop_one (q : List Process) (log : List Event)
    (hnd : (q.map pr_pid).Nodup) (hq : quiet log q) :
    OneRunnable (log ++ (reap_loop q).2) (reap_loop q).1 := by
  induction q generalizing log with
  | nil => exact ⟨List.nodup_nil, fun _ h => by simp [reap_loop] at h,
      fun _ h => by simp [reap_loop] at h⟩
  | cons p rest ih =>
    have hnot : ∀ x ∈ rest, ¬ p.pid = x.pid := by
      intro x hx he
      have h1 := (List.nodup_cons.mp hnd).1
      exact h1 (by rw [show pr_pid p = pr_pid x from he]; exact List.mem_map_of_mem _ hx)
    by_cases hw : p.status = WAITING
    · rw [reap_loop_waiting p rest hw]
      refine ⟨hnd, ?_, fun x hx _ => ?_⟩
      · intro x hx hr
        apply hq x (List.mem_cons_of_mem _ hx)
        refine (runnable_congr Iff.rfl ?_).mp hr
        rw [last_signal_append_signal]
        exact if_neg (hnot x hx)
      · simp only [List.head?_cons, Option.some.injEq] at hx
        rw [← hx]; rfl
    · by_cases ha : p.status = ALIVE
      · rw [reap_loop_alive p rest ha]
        refine ⟨hnd, ?_, fun x hx _ => ?_⟩
        · intro x hx hr
          apply hq x (List.mem_cons_of_mem _ hx)
          refine (runnable_congr Iff.rfl ?_).mp hr
          rw [last_signal_append_signal]
          exact if_neg (hnot x hx)
        · simp only [List.head?_cons, Option.some.injEq] at hx
          rw [← hx]; exact ha
      · rw [reap_loop_other p rest hw ha]
        have h1 : quiet (log ++ [Event.freed p]) rest := by
          intro x hx hr
          apply hq x (List.mem_cons_of_mem _ hx)
          exact (runnable_congr Iff.rfl (last_signal_append_freed log p x.pid)).mp hr
        have := ih (log ++ [Event.freed p]) (List.nodup_cons.mp hnd).2 h1
        simpa using this

theorem nodup_pids_rotate (p : Process) (rest : List Process) (p2 : Process)
    (hp : p2.pid = p.pid) (hnd : ((p :: rest).map pr_pid).Nodup) :
    ((rest ++ [p2]).map pr_pid).Nodup := by
  have h1 : (rest ++ [p2]).map pr_pid = rest.map pr_pid ++ [pr_pid p] := by
    simp [pr_pid, hp]
  rw [h1]
  exact (List.perm_append_singleton _ _).nodup_iff.mpr hnd

theorem sigalrm_handler_one (q : List Process) (log : List Event) (h : OneRunnable log q) :
    OneRunnable (log ++ (sigalrm_handler q).2) (sigalrm_handler q).1 := by
  obtain ⟨hnd, hq, hh⟩ := h
  cases q with
  | nil =>
    simp only [sigalrm_handler, List.append_nil]
    exact ⟨hnd, hq, hh⟩
  | cons p rest =>
    have hnot : ∀ x ∈ rest, ¬ p.pid = x.pid := by
      intro x hx he
      have h1 := (List.nodup_cons.mp hnd).1
      exact h1 (by rw [show pr_pid p = pr_pid x from he]; exact List.mem_map_of_mem _ hx)
    by_cases ha : p.status = ALIVE
    · have hp : pr_status p = ALIVE := ha
      by_cases hl : (decr_tick p).1 ≠ 0
      · simp only [sigalrm_handler, if_pos hp, if_pos hl, List.append_nil]
        refine ⟨?_, hq, fun x hx _ => ?_⟩
        · simpa [pr_pid, decr_tick_pid] using hnd
        · simp only [List.head?_cons, Option.some.injEq] at hx
          rw [← hx, decr_tick_status, ha]
      · simp only [sigalrm_handler, if_pos hp, if_neg hl]
        have hq2 : quiet (log ++ [Event.signal (decr_tick p).2 Signal.SIGSTOP])
            (cl_rotate ((decr_tick p).2 :: rest)) := by
          intro x hx hr
          simp only [cl_rotate, List.mem_append, List.mem_singleton] at hx
          rcases hx with hx | hx
          · apply hq x hx
            refine (runnable_congr Iff.rfl ?_).mp hr
            rw [last_signal_append_signal, decr_tick_pid]
            exact if_neg (hnot x hx)
          · have hr2 := hr.2
            rw [last_signal_append_signal, hx, if_pos rfl] at hr2
            rcases hr2 with hr2 | hr2 <;> cases hr2
        have hnd2 : ((cl_rotate ((decr_tick p).2 :: rest)).map pr_pid).Nodup :=
          nodup_pids_rotate p rest _ (decr_tick_pid p) hnd
        have := reap_loop_one _ _ hnd2 hq2
        simpa using this
    · rw [sigalrm_handler_not_alive _ (by intro x hx; cases hx; exact ha)]
      apply reap_loop_one
      · exact nodup_pids_rotate p rest p rfl hnd
      · intro x hx hr
        simp only [cl_rotate, List.mem_append, List.mem_singleton] at hx
        rcases hx with hx | hx
        · exact hq x hx hr
        · rw [hx] at hr
          exact ha (hh p rfl hr)

theorem run_one (ins : List Input) (s : Sched) (log : List Event)
    (h : OneRunnable log s.pr_list) :
    OneRunnable (run s log ins).2 (run s log ins).1.pr_list := by
  induction ins generalizing s log with
  | nil => exact h
  | cons i more ih =>
    simp only [run]
    apply ih
    cases i with
    | alarm => exact sigalrm_handler_one _ _ h
    | chld reaped => exact sigchld_handler_one reaped s log h

/-- The rotations `main` makes before the first call keep the launch state. -/
theorem LaunchState_rotate (q : List Process) (n : Nat) (h : LaunchState q) :
    LaunchState (cl_rotate^[n] q) := by
  rw [cl_rotate_iterate]
  refine ⟨fun p hp => h.1 p (List.mem_rotate.mp hp), ?_⟩
  rw [List.map_rotate]
  exact List.nodup_rotate.mpr h.2

theorem LaunchState_one (q : List Process) (h : LaunchState q) : OneRunnable [] q := by
  refine ⟨h.2, ?_, ?_⟩
  · intro x _ hr
    rcases hr.2 with h1 | h1 <;> simp [last_signal] at h1
  · intro x _ hr
    rcases hr.2 with h1 | h1 <;> simp [last_signal] at h1

/-- C1. At-most-one-runnable invariant: starting from the launch state `q0` (rotated
any number `n` of times, as `main` does before the first call) with nothing sent yet,
after every finite sequence of timer-handler invocations and termination notices at
most one queued process is runnable (not DEAD and last told SIGUSR1 or
SIGCONT by the timer handler), and a runnable process is the head of the queue. -/
theorem at_most_one_runnable (q0 : List Process) (n : Nat) (s : Sched) (ins : List Input)
    (hl : LaunchState q0) (hs : s.pr_list = cl_rotate^[n] q0) :
    ((run s [] ins).1.pr_list.filter (fun p => decide (runnable (run s [] ins).2 p))).length ≤ 1 ∧
    (∀ p ∈ (run s [] ins).1.pr_list, runnable (run s [] ins).2 p →
      (run s [] ins).1.pr_list.head? = some p) ∧
    (∀ p ∈ (run s [] ins).1.pr_list, ∀ p2 ∈ (run s [] ins).1.pr_list,
      runnable (run s [] ins).2 p → runnable (run s [] ins).2 p2 → p = p2) := by
  have hl2 : LaunchState s.pr_list := by rw [hs]; exact LaunchState_rotate q0 n hl
  obtain ⟨_, hq, _⟩ := run_one ins s [] (LaunchState_one _ hl2)
  generalize (run s [] ins).2 = log at hq ⊢
  generalize (run s [] ins).1.pr_list = q at hq ⊢
  have hhead : ∀ p ∈ q, runnable log p → q.head? = some p := by
    intro p hp hr
    cases q with
    | nil => simp at hp
    | cons x rest =>
      rcases List.mem_cons.mp hp with h1 | h1
      · rw [h1]; rfl
      · exact absurd hr (hq p h1)
  refine ⟨?_, hhead, ?_⟩
  · cases q with
    | nil => simp
    | cons x rest =>
      have : rest.filter (fun p => decide (runnable log p)) = [] := by
        rw [List.filter_eq_nil_iff]
        intro a ha
        simpa using hq a ha
      rw [List.filter_cons]
      split <;> simp [this]
  · intro p hp p2 hp2 hr hr2
    have h1 := hhead p hp hr
    have h2 := hhead p2 hp2 hr2
    rw [h1] at h2
    exact Option.some.inj h2

/-! ## Monotonicity of the status -/

theorem status_move_trans {k : Bool} {a b c : Int}
    (h1 : status_move k a b) (h2 : status_move k b c) : status_move k a c := by
  unfold status_move at *
  unfold WAITING ALIVE DEAD at *
  rcases h1 with h1 | ⟨h1, h1b⟩ | ⟨h1, h1b⟩ <;> rcases h2 with h2 | ⟨h2, h2b⟩ | ⟨h2, h2b⟩ <;>
    first
      | (left; omega)
      | (right; left; exact ⟨by omega, by omega⟩)
      | (right; right; exact ⟨by assumption, by omega⟩)

theorem evolves_refl (k : Bool) (q : List Process) : evolves k q q :=
  fun e he => ⟨e, he, rfl, Or.inl rfl⟩

theorem evolves_trans {k : Bool} {q1 q2 q3 : List Process}
    (h1 : evolves k q1 q2) (h2 : evolves k q2 q3) : evolves k q1 q3 := by
  intro e3 he3
  obtain ⟨e2, he2, hp2, hm2⟩ := h2 e3 he3
  obtain ⟨e1, he1, hp1, hm1⟩ := h1 e2 he2
  exact ⟨e1, he1, hp1.trans hp2, status_move_trans hm1 hm2⟩

theorem evolves_mono {q1 q2 : List Process} (k : Bool) (h : evolves false q1 q2) :
    evolves k q1 q2 := by
  intro e2 he2
  obtain ⟨e1, he1, hp, hm⟩ := h e2 he2
  refine ⟨e1, he1, hp, ?_⟩
  rcases hm with hm | hm | ⟨hm, _⟩
  · exact Or.inl hm
  · exact Or.inr (Or.inl hm)
  · cases hm

theorem reap_loop_evolves (q : List Process) : evolves false q (reap_loop q).1 := by
  induction q with
  | nil => intro e he; simp [reap_loop] at he
  | cons p rest ih =>
    by_cases hw : p.status = WAITING
    · rw [reap_loop_waiting p rest hw]
      intro e he
      rcases List.mem_cons.mp he with he | he
      · exact ⟨p, List.mem_cons_self _ _, by rw [he]; rfl, Or.inr (Or.inl ⟨hw, by rw [he]; rfl⟩)⟩
      · exact ⟨e, List.mem_cons_of_mem _ he, rfl, Or.inl rfl⟩
    · by_cases ha : p.status = ALIVE
      · rw [reap_loop_alive p rest ha]
        exact evolves_refl _ _
      · rw [reap_loop_other p rest hw ha]
        intro e he
        obtain ⟨e1, he1, hp, hm⟩ := ih e he
        exact ⟨e1, List.mem_cons_of_mem _ he1, hp, hm⟩

theorem sigalrm_handler_evolves (q : List Process) : evolves false q (sigalrm_handler q).1 := by
  cases q with
  | nil => intro e he; simp [sigalrm_handler] at he
  | cons p rest =>
    have hrot : ∀ p2 : Process, p2.pid = p.pid → p2.status = p.status →
        evolves false (p :: rest) (cl_rotate (p2 :: rest)) := by
      intro p2 hpid hst e he
      simp only [cl_rotate, List.mem_append, List.mem_singleton] at he
      rcases he with he | he
      · exact ⟨e, List.mem_cons_of_mem _ he, rfl, Or.inl rfl⟩
      · exact ⟨p, List.mem_cons_self _ _, by rw [he, hpid], Or.inl (by rw [he, hst])⟩
    by_cases ha : p.status = ALIVE
    · have hp : pr_status p = ALIVE := ha
      by_cases hl : (decr_tick p).1 ≠ 0
      · simp only [sigalrm_handler, if_pos hp, if_pos hl]
        intro e he
        rcases List.mem_cons.mp he with he | he
        · exact ⟨p, List.mem_cons_self _ _, by rw [he, decr_tick_pid],
            Or.inl (by rw [he, decr_tick_status])⟩
        · exact ⟨e, List.mem_cons_of_mem _ he, rfl, Or.inl rfl⟩
      · simp only [sigalrm_handler, if_pos hp, if_neg hl]
        exact evolves_trans (hrot _ (decr_tick_pid p) (decr_tick_status p))
          (reap_loop_evolves _)
    · rw [sigalrm_handler_not_alive _ (by intro x hx; cases hx; exact ha)]
      exact evolves_trans (hrot p rfl rfl) (reap_loop_evolves _)

theorem kill_scan_evolves (pid : Int) (q : List Process) : evolves true q (kill_scan pid q) := by
  induction q with
  | nil => intro e he; simp [kill_scan] at he
  | cons p rest ih =>
    simp only [kill_scan]
    split
    · intro e he
      rcases List.mem_cons.mp he with he | he
      · exact ⟨p, List.mem_cons_self _ _, by rw [he]; rfl, Or.inr (Or.inr ⟨rfl, by rw [he]; rfl⟩)⟩
      · exact ⟨e, List.mem_cons_of_mem _ he, rfl, Or.inl rfl⟩
    · intro e he
      rcases List.mem_cons.mp he with he | he
      · exact ⟨p, List.mem_cons_self _ _, by rw [he], Or.inl (by rw [he])⟩
      · obtain ⟨e1, he1, hp, hm⟩ := ih e he
        exact ⟨e1, List.mem_cons_of_mem _ he1, hp, hm⟩

theorem sigchld_handler_evolves (reaped : List (Int × Bool)) (s : Sched) :
    evolves true s.pr_list (sigchld_handler s reaped).1.pr_list := by
  induction reaped generalizing s with
  | nil => exact evolves_refl _ _
  | cons r more ih =>
    obtain ⟨pid, ended⟩ := r
    cases ended with
    | false => simpa [sigchld_handler] using ih s
    | true =>
      simp only [sigchld_handler, if_true]
      have h1 : evolves true s.pr_list (kill_process s.pr_list pid) := by
        rw [kill_process_eq]; exact kill_scan_evolves pid _
      exact evolves_trans h1 (ih _)

theorem run_evolves (k : Bool) (ins : List Input) (s : Sched) (log : List Event)
    (hk : k = false → ∀ i ∈ ins, i = Input.alarm) :
    evolves k s.pr_list (run s log ins).1.pr_list := by
  induction ins generalizing s log with
  | nil => exact evolves_refl _ _
  | cons i more ih =>
    simp only [run]
    have h2 := ih (step s i).1 (log ++ (step s i).2)
      (fun hf j hj => hk hf j (List.mem_cons_of_mem _ hj))
    refine evolves_trans ?_ h2
    cases i with
    | alarm => exact evolves_mono k (sigalrm_handler_evolves _)
    | chld reaped =>
      cases k with
      | true => exact sigchld_handler_evolves reaped s
      | false => exact absurd (hk rfl _ (List.mem_cons_self _ _)) (by simp)

/-- C8. The process state machine is monotonic: along every sequence of timer-handler
invocations and termination notices, an entry's status only moves forward in the order
WAITING < ALIVE < DEAD; an ALIVE entry never becomes WAITING again and a DEAD entry
stays DEAD; and along timer-handler invocations alone (stop/resume cycles) an ALIVE
entry stays ALIVE and no entry becomes DEAD, so only a termination notice produces
DEAD. -/
theorem status_monotonic (s : Sched) (log : List Event) (ins : List Input)
    (e1 e2 : Process)
    (hnd : (s.pr_list.map pr_pid).Nodup)
    (hv : ∀ p ∈ s.pr_list, p.status = WAITING ∨ p.status = ALIVE ∨ p.status = DEAD)
    (h1 : e1 ∈ s.pr_list) (h2 : e2 ∈ (run s log ins).1.pr_list) (hp : e1.pid = e2.pid) :
    (WAITING < ALIVE ∧ ALIVE < DEAD) ∧
    e1.status ≤ e2.status ∧
    (e2.status = WAITING ∨ e2.status = ALIVE ∨ e2.status = DEAD) ∧
    (e1.status = ALIVE → e2.status ≠ WAITING) ∧
    (e1.status = DEAD → e2.status = DEAD) ∧
    ((∀ i ∈ ins, i = Input.alarm) →
      (e1.status = ALIVE → e2.status = ALIVE) ∧ (e2.status = DEAD → e1.status = DEAD)) := by
  have origin : ∀ k : Bool, (k = false → ∀ i ∈ ins, i = Input.alarm) →
      status_move k e1.status e2.status := by
    intro k hk
    obtain ⟨e, he, hpe, hm⟩ := run_evolves k ins s log hk e2 h2
    have : e = e1 := eq_of_pid_eq hnd he h1 (hpe.trans hp.symm)
    rw [this] at hm
    exact hm
  have hm := origin true (fun h => by cases h)
  have hv1 := hv e1 h1
  unfold status_move at hm
  unfold WAITING ALIVE DEAD at *
  refine ⟨by decide, ?_, ?_, ?_, ?_, ?_⟩
  · omega
  · omega
  · omega
  · omega
  · intro hal
    have hm2 := origin false (fun _ => hal)
    unfold status_move WAITING ALIVE DEAD at hm2
    simp only [Bool.false_eq_true, false_and, or_false] at hm2
    omega

/-- C1 at a sample run: start, one tick, quantum expiry, the second worker dies. -/
theorem at_most_one_runnable_witness :
    LaunchState sample_launch.pr_list ∧
    ((run sample_launch [] [Input.alarm, Input.alarm, Input.alarm, Input.notice 12]).1.pr_list.filter
      (fun p => decide (runnable
        (run sample_launch [] [Input.alarm, Input.alarm, Input.alarm, Input.notice 12]).2 p))).length
      ≤ 1 :=
  ⟨by decide,
   (at_most_one_runnable sample_launch.pr_list 0 sample_launch
      [Input.alarm, Input.alarm, Input.alarm, Input.notice 12] (by decide) rfl).1⟩

/-- C8 at a sample run: the second worker is started, then its termination is noticed. -/
theorem status_monotonic_witness :
    (⟨["b"], 12, 16, 2, 2, 0, 0, 0, 0⟩ : Process) ∈ sample_launch.pr_list ∧
    (⟨["b"], 12, 18, 2, 2, 0, 0, 0, 0⟩ : Process) ∈
      (run sample_launch [] [Input.alarm, Input.alarm, Input.alarm, Input.notice 12]).1.pr_list ∧
    (⟨["b"], 12, 16, 2, 2, 0, 0, 0, 0⟩ : Process).status
      ≤ (⟨["b"], 12, 18, 2, 2, 0, 0, 0, 0⟩ : Process).status :=
  ⟨by decide, by decide,
   (status_monotonic sample_launch [] [Input.alarm, Input.alarm, Input.alarm, Input.notice 12]
      ⟨["b"], 12, 16, 2, 2, 0, 0, 0, 0⟩ ⟨["b"], 12, 18, 2, 2, 0, 0, 0, 0⟩
      (by decide) (by decide) (by decide) (by decide) rfl).2.1⟩

/-! ## One quantum lasts exactly `nticks` timer periods -/

theorem decr_tick_of_ge_two (p : Process) (h : 2 ≤ p.ticks) :
    decr_tick p = (p.ticks - 1, { p with ticks := p.ticks - 1 }) := by
  have h1 : ¬ (p.ticks - 1 ≤ 0) := by omega
  simp only [decr_tick, if_neg h1]

theorem decr_tick_of_one (p : Process) (h : p.ticks = 1) :
    decr_tick p = (0, { p with ticks := p.nticks }) := by
  have h1 : p.ticks - 1 ≤ 0 := by omega
  simp only [decr_tick, if_pos h1, h]
  rfl

/-- While at least two ticks are left, a firing only decrements the head's counter. -/
theorem sigalrm_handler_silent (p : Process) (rest : List Process)
    (ha : p.status = ALIVE) (h : 2 ≤ p.ticks) :
    sigalrm_handler (p :: rest) = ({ p with ticks := p.ticks - 1 } :: rest, []) := by
  have hp : pr_status p = ALIVE := ha
  have hl : (decr_tick p).1 ≠ 0 := by rw [decr_tick_left]; omega
  simp only [sigalrm_handler, if_pos hp, if_pos hl]
  rw [decr_tick_of_ge_two p h]

/-- On the last tick the head is stopped with a refilled counter and the queue turns. -/
theorem sigalrm_handler_expire (p : Process) (rest : List Process)
    (ha : p.status = ALIVE) (h : p.ticks = 1) :
    sigalrm_handler (p :: rest)
      = ((reap_loop (rest ++ [{ p with ticks := p.nticks }])).1,
         Event.signal { p with ticks := p.nticks } Signal.SIGSTOP
           :: (reap_loop (rest ++ [{ p with ticks := p.nticks }])).2) := by
  have hp : pr_status p = ALIVE := ha
  have hl : ¬ (decr_tick p).1 ≠ 0 := by rw [decr_tick_left]; omega
  simp only [sigalrm_handler, if_pos hp, if_neg hl]
  rw [decr_tick_of_one p h]
  rfl

/-- A start or resume sent by the loop goes to the new head, whose counter is full. -/
theorem reap_loop_grant (q : List Process) (p : Process) (sig : Signal)
    (hf : Full q) (hn : ∀ e ∈ q, 1 ≤ e.nticks)
    (h : Event.signal p sig ∈ (reap_loop q).2) :
    ∃ rest, (reap_loop q).1 = p :: rest ∧ p.status = ALIVE ∧ p.ticks = p.nticks ∧
      1 ≤ p.nticks := by
  induction q with
  | nil => simp [reap_loop] at h
  | cons x rest ih =>
    have hx := hf x (List.mem_cons_self _ _)
    have hnx := hn x (List.mem_cons_self _ _)
    by_cases hw : x.status = WAITING
    · rw [reap_loop_waiting x rest hw] at h ⊢
      simp only [List.mem_singleton, Event.signal.injEq] at h
      rw [h.1]
      exact ⟨rest, rfl, rfl, hx (Or.inl hw), hnx⟩
    · by_cases ha : x.status = ALIVE
      · rw [reap_loop_alive x rest ha] at h ⊢
        simp only [List.mem_singleton, Event.signal.injEq] at h
        rw [h.1]
        exact ⟨rest, rfl, ha, hx (Or.inr ha), hnx⟩
      · rw [reap_loop_other x rest hw ha] at h ⊢
        rcases List.mem_cons.mp h with h | h
        · cases h
        · exact ih (fun e he => hf e (List.mem_cons_of_mem _ he))
            (fun e he => hn e (List.mem_cons_of_mem _ he)) h

theorem reap_loop_full (q : List Process) (hf : Full q) : Full (reap_loop q).1 := by
  induction q with
  | nil => exact hf
  | cons x rest ih =>
    have hrest : Full rest := fun e he => hf e (List.mem_cons_of_mem _ he)
    by_cases hw : x.status = WAITING
    · rw [reap_loop_waiting x rest hw]
      intro e he hs
      rcases List.mem_cons.mp he with he | he
      · rw [he]; exact hf x (List.mem_cons_self _ _) (Or.inl hw)
      · exact hrest e he hs
    · by_cases ha : x.status = ALIVE
      · rw [reap_loop_alive x rest ha]; exact hf
      · rw [reap_loop_other x rest hw ha]; exact ih hrest

theorem reap_loop_nticks (q : List Process) (hn : ∀ e ∈ q, 1 ≤ e.nticks) :
    ∀ e ∈ (reap_loop q).1, 1 ≤ e.nticks := by
  induction q with
  | nil => exact hn
  | cons x rest ih =>
    have hrest : ∀ e ∈ rest, 1 ≤ e.nticks := fun e he => hn e (List.mem_cons_of_mem _ he)
    by_cases hw : x.status = WAITING
    · rw [reap_loop_waiting x rest hw]
      intro e he
      rcases List.mem_cons.mp he with he | he
      · rw [he]; exact hn x (List.mem_cons_self _ _)
      · exact hrest e he
    · by_cases ha : x.status = ALIVE
      · rw [reap_loop_alive x rest ha]; exact hn
      · rw [reap_loop_other x rest hw ha]; exact ih hrest

theorem TickInv_of_Full (q : List Process) (hn : ∀ e ∈ q, 1 ≤ e.nticks) (hf : Full q) :
    TickInv q :=
  ⟨hn, fun e he => hf e (List.mem_of_mem_tail he),
    fun p hp hw => hf p (List.mem_of_mem_head? hp) (Or.inl hw)⟩

/-- The queue the handler hands to its loop, in the two cases where it gets there. -/
theorem TickInv_rotated (p : Process) (rest : List Process) (h : TickInv (p :: rest))
    (p2 : Process) (hn2 : p2.nticks = p.nticks)
    (hf2 : (p2.status = WAITING ∨ p2.status = ALIVE) → p2.ticks = p2.nticks) :
    Full (rest ++ [p2]) ∧ ∀ e ∈ rest ++ [p2], 1 ≤ e.nticks := by
  obtain ⟨hn, hf, _⟩ := h
  constructor
  · intro e he hs
    simp only [List.mem_append, List.mem_singleton] at he
    rcases he with he | he
    · exact hf e he hs
    · rw [he] at hs ⊢; exact hf2 hs
  · intro e he
    simp only [List.mem_append, List.mem_singleton] at he
    rcases he with he | he
    · exact hn e (List.mem_cons_of_mem _ he)
    · rw [he, hn2]; exact hn p (List.mem_cons_self _ _)

theorem sigalrm_handler_TickInv (q : List Process) (h : TickInv q) :
    TickInv (sigalrm_handler q).1 := by
  cases q with
  | nil => exact h
  | cons p rest =>
    by_cases ha : p.status = ALIVE
    · have hp : pr_status p = ALIVE := ha
      by_cases hl : (decr_tick p).1 ≠ 0
      · simp only [sigalrm_handler, if_pos hp, if_pos hl]
        obtain ⟨hn, hf, _⟩ := h
        refine ⟨?_, hf, ?_⟩
        · intro e he
          rcases List.mem_cons.mp he with he | he
          · rw [he, decr_tick_nticks]; exact hn p (List.mem_cons_self _ _)
          · exact hn e (List.mem_cons_of_mem _ he)
        · intro x hx hw
          simp only [List.head?_cons, Option.some.injEq] at hx
          rw [← hx, decr_tick_status, ha] at hw
          exact absurd hw (by decide)
      · simp only [sigalrm_handler, if_pos hp, if_neg hl]
        have h1 : p.ticks - 1 ≤ 0 := by
          have := decr_tick_left p
          have h0 : (decr_tick p).1 = 0 := not_not.mp hl
          omega
        obtain ⟨hF, hN⟩ := TickInv_rotated p rest h (decr_tick p).2 (decr_tick_nticks p)
          (fun _ => by rw [decr_tick_ticks, if_pos h1, decr_tick_nticks])
        exact TickInv_of_Full _ (reap_loop_nticks _ hN) (reap_loop_full _ hF)
    · rw [sigalrm_handler_not_alive _ (by intro x hx; cases hx; exact ha)]
      obtain ⟨hF, hN⟩ := TickInv_rotated p rest h p rfl
        (fun hs => by
          rcases hs with hs | hs
          · exact h.2.2 p rfl hs
          · exact absurd hs ha)
      exact TickInv_of_Full _ (reap_loop_nticks _ hN) (reap_loop_full _ hF)

/-- A start or resume sent by the timer handler goes to the new head, whose counter
is full. -/
theorem sigalrm_handler_grant (q : List Process) (p : Process) (sig : Signal)
    (h : TickInv q) (hs : sig = Signal.SIGUSR1 ∨ sig = Signal.SIGCONT)
    (hg : Event.signal p sig ∈ (sigalrm_handler q).2) :
    ∃ rest, (sigalrm_handler q).1 = p :: rest ∧ p.status = ALIVE ∧ p.ticks = p.nticks ∧
      1 ≤ p.nticks := by
  cases q with
  | nil => simp [sigalrm_handler] at hg
  | cons x rest =>
    by_cases ha : x.status = ALIVE
    · have hp : pr_status x = ALIVE := ha
      by_cases hl : (decr_tick x).1 ≠ 0
      · simp [sigalrm_handler, hp, hl] at hg
      · simp only [sigalrm_handler, if_pos hp, if_neg hl] at hg ⊢
        have h1 : x.ticks - 1 ≤ 0 := by
          have := decr_tick_left x
          have h0 : (decr_tick x).1 = 0 := not_not.mp hl
          omega
        obtain ⟨hF, hN⟩ := TickInv_rotated x rest h (decr_tick x).2 (decr_tick_nticks x)
          (fun _ => by rw [decr_tick_ticks, if_pos h1, decr_tick_nticks])
        rcases List.mem_cons.mp hg with hg | hg
        · simp only [Event.signal.injEq] at hg
          rcases hs with hs | hs <;> rw [hs] at hg <;> exact absurd hg.2 (by decide)
        · exact reap_loop_grant _ p sig hF hN hg
    · rw [sigalrm_handler_not_alive _ (by intro y hy; cases hy; exact ha)] at hg ⊢
      obtain ⟨hF, hN⟩ := TickInv_rotated x rest h x rfl
        (fun hs => by
          rcases hs with hs | hs
          · exact h.2.2 x rfl hs
          · exact absurd hs ha)
      exact reap_loop_grant _ p sig hF hN hg

theorem kill_scan_TickInv (pid : Int) (q : List Process) (h : TickInv q) :
    TickInv (kill_scan pid q) := by
  have full_scan : ∀ l : List Process, Full l → Full (kill_scan pid l) := by
    intro l
    induction l with
    | nil => exact fun hl => hl
    | cons x rest ih =>
      intro hl
      simp only [kill_scan]
      split
      · intro e he hs
        rcases List.mem_cons.mp he with he | he
        · rw [he] at hs
          have hd : (pr_kill x).status = DEAD := rfl
          rw [hd] at hs
          rcases hs with hs | hs <;> exact absurd hs (by decide)
        · exact hl e (List.mem_cons_of_mem _ he) hs
      · intro e he hs
        rcases List.mem_cons.mp he with he | he
        · rw [he] at hs ⊢; exact hl x (List.mem_cons_self _ _) hs
        · exact ih (fun y hy => hl y (List.mem_cons_of_mem _ hy)) e he hs
  have nticks_scan : ∀ l : List Process, (∀ e ∈ l, 1 ≤ e.nticks) →
      ∀ e ∈ kill_scan pid l, 1 ≤ e.nticks := by
    intro l
    induction l with
    | nil => exact fun hl => hl
    | cons x rest ih =>
      intro hl
      simp only [kill_scan]
      split
      · intro e he
        rcases List.mem_cons.mp he with he | he
        · rw [he]; exact hl x (List.mem_cons_self _ _)
        · exact hl e (List.mem_cons_of_mem _ he)
      · intro e he
        rcases List.mem_cons.mp he with he | he
        · rw [he]; exact hl x (List.mem_cons_self _ _)
        · exact ih (fun y hy => hl y (List.mem_cons_of_mem _ hy)) e he
  obtain ⟨hn, hf, hh⟩ := h
  refine ⟨nticks_scan q hn, ?_, ?_⟩
  · cases q with
    | nil => exact hf
    | cons x rest =>
      simp only [kill_scan]
      split
      · exact hf
      · exact full_scan rest hf
  · cases q with
    | nil => intro p hp; simp [kill_scan] at hp
    | cons x rest =>
      simp only [kill_scan]
      split
      · intro p hp hw
        simp only [List.head?_cons, Option.some.injEq] at hp
        rw [← hp] at hw
        have hd : (pr_kill x).status = DEAD := rfl
        rw [hd] at hw
        exact absurd hw (by decide)
      · intro p hp hw
        exact hh p hp hw

theorem sigchld_handler_TickInv (reaped : List (Int × Bool)) (s : Sched)
    (h : TickInv s.pr_list) : TickInv (sigchld_handler s reaped).1.pr_list := by
  induction reaped generalizing s with
  | nil => exact h
  | cons r more ih =>
    obtain ⟨pid, ended⟩ := r
    cases ended with
    | false => simpa [sigchld_handler] using ih s h
    | true =>
      simp only [sigchld_handler, if_true]
      apply ih
      show TickInv (kill_process s.pr_list pid)
      rw [kill_process_eq]
      exact kill_scan_TickInv pid _ h

theorem run_TickInv (ins : List Input) (s : Sched) (log : List Event)
    (h : TickInv s.pr_list) : TickInv (run s log ins).1.pr_list := by
  induction ins generalizing s log with
  | nil => exact h
  | cons i more ih =>
    simp only [run]
    apply ih
    cases i with
    | alarm => exact sigalrm_handler_TickInv _ h
    | chld reaped => exact sigchld_handler_TickInv reaped s h

theorem LaunchState_TickInv (q : List Process) (h : LaunchState q) : TickInv q :=
  TickInv_of_Full q (fun e he => (h.1 e he).2.2) (fun e he _ => (h.1 e he).2.1)

/-- A termination handler that does not reap the head's pid leaves the head as it is. -/
theorem sigchld_handler_head (reaped : List (Int × Bool)) (s : Sched) (p : Process)
    (rest : List Process) (hq : s.pr_list = p :: rest) (hr : (p.pid, true) ∉ reaped) :
    ∃ rest2, (sigchld_handler s reaped).1.pr_list = p :: rest2 := by
  induction reaped generalizing s rest with
  | nil => exact ⟨rest, hq⟩
  | cons r more ih =>
    obtain ⟨pid, ended⟩ := r
    have hmore : (p.pid, true) ∉ more := fun hm => hr (List.mem_cons_of_mem _ hm)
    cases ended with
    | false => simpa [sigchld_handler] using ih s rest hq hmore
    | true =>
      simp only [sigchld_handler, if_true]
      have hne : ¬ pr_pid p = pid := by
        intro he
        apply hr
        rw [show p.pid = pid from he]
        exact List.mem_cons_self _ _
      refine ih _ (kill_scan pid rest) ?_ hmore
      show kill_process s.pr_list pid = p :: kill_scan pid rest
      rw [kill_process_eq, hq]
      simp only [kill_scan, if_neg hne]

/-- While the head does not die and fewer firings have passed than it has ticks left,
it stays at the head and only its counter moves, by one per firing. -/
theorem run_grant (mid : List Input) (s : Sched) (log : List Event) (p : Process)
    (rest : List Process) (hq : s.pr_list = p :: rest) (ha : p.status = ALIVE)
    (hmid : ∀ i ∈ mid, ¬ i.reaps p.pid) (hk : (alarms mid : Int) < p.ticks) :
    ∃ rest2, (run s log mid).1.pr_list = { p with ticks := p.ticks - alarms mid } :: rest2 := by
  induction mid generalizing s log p rest with
  | nil => exact ⟨rest, by simpa [run, alarms] using hq⟩
  | cons i more ih =>
    have hmore : ∀ j ∈ more, ¬ j.reaps p.pid := fun j hj => hmid j (List.mem_cons_of_mem _ hj)
    simp only [run]
    cases i with
    | alarm =>
      have hc : alarms (Input.alarm :: more) = alarms more + 1 := by
        simp [alarms]
      rw [hc] at hk ⊢
      push_cast at hk ⊢
      have h2 : 2 ≤ p.ticks := by omega
      have hstep : (step s Input.alarm).1.pr_list = { p with ticks := p.ticks - 1 } :: rest := by
        simp only [step, hq, sigalrm_handler_silent p rest ha h2]
      obtain ⟨rest2, h3⟩ := ih (step s Input.alarm).1 (log ++ (step s Input.alarm).2)
        { p with ticks := p.ticks - 1 } rest hstep ha hmore (by simp only []; omega)
      refine ⟨rest2, ?_⟩
      rw [h3]
      simp only [List.cons.injEq, and_true]
      congr 1
      omega
    | chld reaped =>
      have hc : alarms (Input.chld reaped :: more) = alarms more := by
        simp [alarms]
      rw [hc] at hk ⊢
      have hr : (p.pid, true) ∉ reaped := hmid (Input.chld reaped) (List.mem_cons_self _ _)
      obtain ⟨rest1, h1⟩ := sigchld_handler_head reaped s p rest hq hr
      exact ih (step s (Input.chld reaped)).1 (log ++ (step s (Input.chld reaped)).2)
        p rest1 h1 ha hmore hk

/-- C3. Renewal invariant: in any state reached from the launch state `q0` (rotated any
number `n` of times, as `main` does before the first call), when the timer
handler sends SIGUSR1 or SIGCONT to a process whose quantum is `nticks = T` ticks,
then `T >= 1`, and as long as that process does not die, whatever termination notices
of other processes come in between: it stays at the head, each of the next `T - 1`
handler invocations sends nothing and changes nothing in the queue but the head's
tick counter, and the `T`-th invocation sends it SIGSTOP. -/
theorem renewal_invariant (q0 : List Process) (n : Nat) (s : Sched) (log : List Event)
    (pre mid : List Input) (p : Process) (sig : Signal)
    (hl : LaunchState q0) (hq : s.pr_list = cl_rotate^[n] q0)
    (hs : sig = Signal.SIGUSR1 ∨ sig = Signal.SIGCONT)
    (hg : Event.signal p sig ∈ (sigalrm_handler (run s log pre).1.pr_list).2)
    (hmid : ∀ i ∈ mid, ¬ i.reaps p.pid)
    (hk : (alarms mid : Int) < p.nticks) :
    1 ≤ p.nticks ∧ p.ticks = p.nticks ∧
    ∃ rest, (run (step (run s log pre).1 Input.alarm).1 [] mid).1.pr_list
        = { p with ticks := p.nticks - alarms mid } :: rest ∧
      ((alarms mid : Int) + 1 < p.nticks →
        sigalrm_handler ({ p with ticks := p.nticks - alarms mid } :: rest)
          = ({ p with ticks := p.nticks - alarms mid - 1 } :: rest, [])) ∧
      ((alarms mid : Int) + 1 = p.nticks →
        ∃ more, (sigalrm_handler ({ p with ticks := p.nticks - alarms mid } :: rest)).2
          = Event.signal p Signal.SIGSTOP :: more) := by
  have hl2 : LaunchState s.pr_list := by rw [hq]; exact LaunchState_rotate q0 n hl
  have hinv := run_TickInv pre s log (LaunchState_TickInv _ hl2)
  obtain ⟨rest0, hq0, ha, hfull, hn⟩ := sigalrm_handler_grant _ p sig hinv hs hg
  have hstep : (step (run s log pre).1 Input.alarm).1.pr_list = p :: rest0 := hq0
  obtain ⟨rest, hrun⟩ := run_grant mid _ [] p rest0 hstep ha hmid (by rw [hfull]; exact hk)
  rw [hfull] at hrun
  refine ⟨hn, hfull, rest, hrun, ?_, ?_⟩
  · intro h2
    exact sigalrm_handler_silent _ rest ha (by simp only []; omega)
  · intro h2
    have h3 := sigalrm_handler_expire { p with ticks := p.nticks - alarms mid } rest ha
      (by simp only []; omega)
    have hp : ({ p with ticks := p.nticks } : Process) = p := by
      cases p; simp only [Process.mk.injEq, and_true, true_and] at hfull ⊢; exact hfull.symm
    simp only [hp] at h3
    exact ⟨_, congrArg Prod.snd h3⟩

/-- C3 at the sample launch state: the first call starts the second worker, whose
quantum of two ticks ends at the second firing. -/
theorem renewal_invariant_witness :
    LaunchState sample_launch.pr_list ∧
    Event.signal ⟨["b"], 12, 17, 2, 2, 0, 0, 0, 0⟩ Signal.SIGUSR1
      ∈ (sigalrm_handler (run sample_launch [] []).1.pr_list).2 ∧
    (∃ rest, (run (step (run sample_launch [] []).1 Input.alarm).1 [] [Input.alarm]).1.pr_list
        = ⟨["b"], 12, 17, 1, 2, 0, 0, 0, 0⟩ :: rest) :=
  ⟨by decide, by decide,
   by
     obtain ⟨rest, h, _⟩ := (renewal_invariant sample_launch.pr_list 0 sample_launch [] []
       [Input.alarm] ⟨["b"], 12, 17, 2, 2, 0, 0, 0, 0⟩ Signal.SIGUSR1 (by decide) rfl
       (Or.inl rfl) (by decide) (by decide) (by decide)).2.2
     exact ⟨rest, h⟩⟩

/-! ## Round robin among processes that never die -/

theorem succ_div_mod_lt (T m : Nat) (h : m % T + 1 < T) :
    (m + 1) / T = m / T ∧ (m + 1) % T = m % T + 1 ∧ ¬ T ∣ m + 1 := by
  have hT : 0 < T := by omega
  have h0 := Nat.div_add_mod m T
  have h1 : (m + 1) / T = m / T ∧ (m + 1) % T = m % T + 1 := by
    rw [Nat.div_mod_unique hT]
    refine ⟨?_, h⟩
    generalize T * (m / T) = c at h0
    omega
  refine ⟨h1.1, h1.2, ?_⟩
  rw [Nat.dvd_iff_mod_eq_zero, h1.2]
  omega

theorem succ_div_mod_eq (T m : Nat) (hT : 0 < T) (h : m % T + 1 = T) :
    (m + 1) / T = m / T + 1 ∧ (m + 1) % T = 0 ∧ T ∣ m + 1 := by
  have h0 := Nat.div_add_mod m T
  have h1 : (m + 1) / T = m / T + 1 ∧ (m + 1) % T = 0 := by
    rw [Nat.div_mod_unique hT]
    refine ⟨?_, hT⟩
    rw [Nat.mul_succ]
    generalize T * (m / T) = c at h0
    omega
  refine ⟨h1.1, h1.2, ?_⟩
  rw [Nat.dvd_iff_mod_eq_zero, h1.2]

/-- The head of a rotated list. -/
theorem head?_rotate_getD (L : List Int) (k : Nat) (hL : L ≠ []) :
    (L.rotate k).head? = some (L.getD (k % L.length) 0) := by
  have hlen : 0 < L.length := List.length_pos.mpr hL
  have hk : k % L.length < L.length := Nat.mod_lt _ hlen
  rw [← List.rotate_mod, List.head?_rotate hk, List.getD_eq_getElem?_getD,
    List.getElem?_eq_getElem hk]
  rfl

theorem stop_pids_append (l1 l2 : List Event) :
    stop_pids (l1 ++ l2) = stop_pids l1 ++ stop_pids l2 := by
  simp [stop_pids, List.filterMap_append]

theorem grant_pids_append (l1 l2 : List Event) :
    grant_pids (l1 ++ l2) = grant_pids l1 ++ grant_pids l2 := by
  simp [grant_pids, List.filterMap_append]

/-- On a non-empty queue of live entries the loop starts or resumes the head at once. -/
theorem reap_loop_live (T : Nat) (q : List Process) (hq : q ≠ []) (hl : Live T q) :
    ∃ g rest, (reap_loop q).1 = g :: rest ∧ g.status = ALIVE ∧ g.ticks = T ∧ g.nticks = T ∧
      Live T rest ∧ (g :: rest).map pr_pid = q.map pr_pid ∧
      stop_pids (reap_loop q).2 = [] ∧ grant_pids (reap_loop q).2 = [g.pid] := by
  cases q with
  | nil => exact absurd rfl hq
  | cons x xs =>
    obtain ⟨hst, ht, hn⟩ := hl x (List.mem_cons_self _ _)
    have hxs : Live T xs := fun e he => hl e (List.mem_cons_of_mem _ he)
    rcases hst with hw | ha
    · rw [reap_loop_waiting x xs hw]
      exact ⟨pr_wake x, xs, rfl, rfl, ht, hn, hxs, rfl, rfl, rfl⟩
    · rw [reap_loop_alive x xs ha]
      exact ⟨x, xs, rfl, ha, ht, hn, hxs, rfl, rfl, rfl⟩

theorem turn_pid_head (P : List Process) (k : Nat) (hP : P ≠ []) (x : Int) (xs : List Int)
    (h : x :: xs = (P.map pr_pid).rotate k) : x = turn_pid P k := by
  have h1 := head?_rotate_getD (P.map pr_pid) k (by simpa using hP)
  rw [← h, List.length_map] at h1
  exact Option.some.inj h1

/-- One timer firing in the round-robin regime. -/
theorem turn_step (P : List Process) (T m : Nat) (q : List Process) (log : List Event)
    (hP : P ≠ []) (hT : 1 ≤ T) (h : Turn P T m q log) :
    Turn P T (m + 1) (sigalrm_handler q).1 (log ++ (sigalrm_handler q).2) ∧
    stop_pids (sigalrm_handler q).2 = (if T ∣ m + 1 then [turn_pid P (m / T)] else []) ∧
    grant_pids (sigalrm_handler q).2
      = (if T ∣ m + 1 then [turn_pid P (m / T + 1)] else []) := by
  obtain ⟨h0, rest, hq, ha, hn, ht, hl, hp, hs, hg⟩ := h
  subst hq
  have hlt : m % T < T := Nat.mod_lt _ hT
  by_cases hc : m % T + 1 < T
  · obtain ⟨d1, d2, d3⟩ := succ_div_mod_lt T m hc
    have h2 : 2 ≤ h0.ticks := by rw [ht]; omega
    rw [sigalrm_handler_silent h0 rest ha h2, if_neg d3, if_neg d3]
    refine ⟨⟨{ h0 with ticks := h0.ticks - 1 }, rest, rfl, ha, hn, ?_, hl, ?_, ?_, ?_⟩, rfl, rfl⟩
    · show h0.ticks - 1 = (T : Int) - (((m + 1) % T : Nat) : Int)
      rw [d2, ht]; push_cast; ring
    · rw [d1]; exact hp
    · rw [d1, List.append_nil]; exact hs
    · rw [d1, List.append_nil]; exact hg
  · have he : m % T + 1 = T := by omega
    obtain ⟨d1, d2, d3⟩ := succ_div_mod_eq T m hT he
    have h1 : h0.ticks = 1 := by rw [ht]; omega
    rw [sigalrm_handler_expire h0 rest ha h1, if_pos d3, if_pos d3]
    have hlive : Live T (rest ++ [{ h0 with ticks := h0.nticks }]) := by
      intro e hmem
      simp only [List.mem_append, List.mem_singleton] at hmem
      rcases hmem with hmem | hmem
      · exact hl e hmem
      · rw [hmem]; exact ⟨Or.inr ha, hn, hn⟩
    obtain ⟨g, rest2, e1, ga, gt, gn, gl, gp, gs, gg⟩ :=
      reap_loop_live T _ (by simp) hlive
    have hpids : (g :: rest2).map pr_pid = (P.map pr_pid).rotate (m / T + 1) := by
      rw [gp, ← List.rotate_rotate, ← hp]
      simp [List.rotate_cons_succ, pr_pid]
    have hh0 : h0.pid = turn_pid P (m / T) :=
      turn_pid_head P (m / T) hP h0.pid (rest.map pr_pid) hp
    have hg0 : g.pid = turn_pid P (m / T + 1) :=
      turn_pid_head P (m / T + 1) hP g.pid (rest2.map pr_pid) hpids
    have hstop : stop_pids (Event.signal { h0 with ticks := h0.nticks } Signal.SIGSTOP
        :: (reap_loop (rest ++ [{ h0 with ticks := h0.nticks }])).2) = [turn_pid P (m / T)] := by
      have : stop_pids (Event.signal { h0 with ticks := h0.nticks } Signal.SIGSTOP
          :: (reap_loop (rest ++ [{ h0 with ticks := h0.nticks }])).2)
          = h0.pid :: stop_pids (reap_loop (rest ++ [{ h0 with ticks := h0.nticks }])).2 := rfl
      rw [this, gs, hh0]
    have hgrant : grant_pids (Event.signal { h0 with ticks := h0.nticks } Signal.SIGSTOP
        :: (reap_loop (rest ++ [{ h0 with ticks := h0.nticks }])).2)
        = [turn_pid P (m / T + 1)] := by
      have : grant_pids (Event.signal { h0 with ticks := h0.nticks } Signal.SIGSTOP
          :: (reap_loop (rest ++ [{ h0 with ticks := h0.nticks }])).2)
          = grant_pids (reap_loop (rest ++ [{ h0 with ticks := h0.nticks }])).2 := rfl
      rw [this, gg, hg0]
    refine ⟨⟨g, rest2, e1, ga, gn, ?_, gl, ?_, ?_, ?_⟩, hstop, hgrant⟩
    · rw [gt, d2]; simp
    · show (reap_loop (rest ++ [{ h0 with ticks := h0.nticks }])).1.map pr_pid = _
      rw [e1, d1]; exact hpids
    · show stop_pids (log ++ _) = _
      rw [stop_pids_append, hstop, hs, d1, List.range_succ, List.map_append]
      rfl
    · show grant_pids (log ++ _) = _
      rw [grant_pids_append, hgrant, hg, d1, List.range_succ (m / T + 1), List.map_append]
      rfl

theorem run_snoc (ins : List Input) (i : Input) (s : Sched) (log : List Event) :
    run s log (ins ++ [i])
      = ((step (run s log ins).1 i).1, (run s log ins).2 ++ (step (run s log ins).1 i).2) := by
  induction ins generalizing s log with
  | nil => rfl
  | cons j more ih =>
    show run (step s j).1 (log ++ (step s j).2) (more ++ [i]) = _
    rw [ih]
    rfl

theorem turn_start (p1 : Process) (rest : List Process) (T : Nat)
    (hall : ∀ p ∈ p1 :: rest, p.status = WAITING ∧ p.ticks = T ∧ p.nticks = T) :
    Turn (p1 :: rest) T 0 (first_decision (p1 :: rest)).1 (first_decision (p1 :: rest)).2 := by
  rw [first_decision_eq p1 rest (fun p hp => (hall p hp).1)]
  obtain ⟨_, h1t, h1n⟩ := hall p1 (List.mem_cons_self _ _)
  refine ⟨pr_wake p1, rest, rfl, rfl, h1n, ?_, ?_, ?_, ?_, ?_⟩
  · show p1.ticks = _
    rw [h1t]; simp
  · intro e he
    obtain ⟨a, b, c⟩ := hall e (List.mem_cons_of_mem _ he)
    exact ⟨Or.inl a, b, c⟩
  · simp [pr_wake, pr_pid]
  · simp [stop_pids]
  · rw [Nat.zero_div]
    show [p1.pid] = List.map (turn_pid (p1 :: rest)) (List.range 1)
    simp [turn_pid, pr_pid, List.range_succ]

/-- The state `m` timer firings after the start-up. -/
theorem turn_run (P : List Process) (T : Nat) (s : Sched) (m : Nat)
    (hP : P ≠ []) (hT : 1 ≤ T)
    (hall : ∀ p ∈ P, p.status = WAITING ∧ p.ticks = T ∧ p.nticks = T)
    (hs : s.pr_list = (first_decision P).1) :
    Turn P T m (run s (first_decision P).2 (List.replicate m Input.alarm)).1.pr_list
      (run s (first_decision P).2 (List.replicate m Input.alarm)).2 := by
  induction m with
  | zero =>
    cases P with
    | nil => exact absurd rfl hP
    | cons p1 rest =>
      simp only [List.replicate_zero, run, hs]
      exact turn_start p1 rest T hall
  | succ m ih =>
    rw [List.replicate_succ', run_snoc]
    exact (turn_step P T m _ _ hP hT ih).1

theorem turn_pid_mem (P : List Process) (j : Nat) (hP : P ≠ []) :
    ∃ p, P[j % P.length]? = some p ∧ turn_pid P j = p.pid := by
  have hlen : 0 < P.length := List.length_pos.mpr hP
  have hj : j % P.length < P.length := Nat.mod_lt _ hlen
  refine ⟨P[j % P.length], List.getElem?_eq_getElem hj, ?_⟩
  unfold turn_pid
  rw [List.getD_eq_getElem _ _ (by simpa using hj)]
  simp [pr_pid]

/-- C2. Round-robin preemption order: for a workload `P` of `N >= 1` WAITING
processes, each with a quantum of `T >= 1` ticks, none of which dies, after the
start-up sequence the `(m+1)`-th timer firing sends a SIGSTOP exactly when `T`
divides `m + 1`, and then a single one; the `j`-th SIGSTOP is sent during firing
`j * T`, not before, and goes to `P[(j - 1) mod N]` (counting from 0), so that the
stops so far always read `P[0], P[1], .., P[N-1], P[0], ..` in order. -/
theorem round_robin_preemption_order (P : List Process) (T : Nat) (s : Sched) (m j : Nat)
    (hP : P ≠ []) (hT : 1 ≤ T)
    (hall : ∀ p ∈ P, p.status = WAITING ∧ p.ticks = T ∧ p.nticks = T)
    (hs : s.pr_list = (first_decision P).1) (hj : 1 ≤ j) :
    stop_pids (run s (first_decision P).2 (List.replicate m Input.alarm)).2
      = (List.range (m / T)).map (turn_pid P) ∧
    stop_pids (sigalrm_handler
        (run s (first_decision P).2 (List.replicate m Input.alarm)).1.pr_list).2
      = (if T ∣ m + 1 then [turn_pid P ((m + 1) / T - 1)] else []) ∧
    (stop_pids (run s (first_decision P).2 (List.replicate (j * T - 1) Input.alarm)).2).length
      = j - 1 ∧
    stop_pids (sigalrm_handler
        (run s (first_decision P).2 (List.replicate (j * T - 1) Input.alarm)).1.pr_list).2
      = [turn_pid P (j - 1)] ∧
    (∃ p, P[(j - 1) % P.length]? = some p ∧ turn_pid P (j - 1) = p.pid) := by
  have hdiv : (j * T - 1) / T = j - 1 ∧ (j * T - 1) % T = T - 1 := by
    rw [Nat.div_mod_unique hT]
    refine ⟨?_, by omega⟩
    obtain ⟨i, rfl⟩ : ∃ i, j = i + 1 := ⟨j - 1, by omega⟩
    rw [Nat.add_sub_cancel, Nat.add_mul, Nat.mul_comm T i]
    generalize i * T = c
    omega
  have hsucc : j * T - 1 + 1 = j * T := by
    have : 1 ≤ j * T := Nat.mul_pos (by omega) (by omega)
    omega
  have hm := turn_run P T s m hP hT hall hs
  have hjT := turn_run P T s (j * T - 1) hP hT hall hs
  have stepm := (turn_step P T m _ _ hP hT hm).2.1
  have stepj := (turn_step P T (j * T - 1) _ _ hP hT hjT).2.1
  obtain ⟨_, _, _, _, _, _, _, _, hstops, _⟩ := hm
  obtain ⟨_, _, _, _, _, _, _, _, hstopsj, _⟩ := hjT
  refine ⟨hstops, ?_, ?_, ?_, turn_pid_mem P (j - 1) hP⟩
  · rw [stepm]
    by_cases hd : T ∣ m + 1
    · rw [if_pos hd, if_pos hd]
      have hlt : m % T < T := Nat.mod_lt _ hT
      by_cases hc : m % T + 1 < T
      · exact absurd hd (succ_div_mod_lt T m hc).2.2
      · rw [(succ_div_mod_eq T m hT (by omega)).1, Nat.add_sub_cancel]
    · rw [if_neg hd, if_neg hd]
  · rw [hstopsj, List.length_map, List.length_range, hdiv.1]
  · rw [stepj, hsucc, if_pos (Dvd.intro_left j rfl), hdiv.1]

/-- C2 at the sample workload of three processes with a quantum of two ticks: the
second SIGSTOP is sent during the fourth firing, to the second process. -/
theorem round_robin_preemption_order_witness :
    stop_pids (sigalrm_handler
        (run (started sample_three) (first_decision sample_three).2
          (List.replicate (2 * 2 - 1) Input.alarm)).1.pr_list).2
      = [turn_pid sample_three (2 - 1)] ∧ turn_pid sample_three (2 - 1) = 12 :=
  ⟨(round_robin_preemption_order sample_three 2 (started sample_three) 0 2
      (by decide) (by decide) (by decide) rfl (by decide)).2.2.2.1, by decide⟩

/-! ## Fairness -/

/-- Among the first `k * N` naturals exactly `k` are congruent to `i` modulo `N`. -/
theorem countP_mod_range (N i : Nat) (hi : i < N) (k : Nat) :
    List.countP (fun j => decide (j % N = i)) (List.range (k * N)) = k := by
  induction k with
  | zero => simp
  | succ k ih =>
    rw [Nat.succ_mul, List.range_add, List.countP_append, ih, List.countP_map]
    have h1 : List.countP ((fun j => decide (j % N = i)) ∘ fun x => k * N + x) (List.range N)
        = List.countP (fun x => x == i) (List.range N) := by
      apply List.countP_congr
      intro x hx
      have hx2 : x < N := List.mem_range.mp hx
      simp only [Function.comp_apply, decide_eq_true_eq, beq_iff_eq]
      rw [Nat.mul_add_mod', Nat.mod_eq_of_lt hx2]
    rw [h1, ← List.count_eq_countP,
      List.count_eq_one_of_mem (List.nodup_range N) (List.mem_range.mpr hi)]

/-- With pairwise distinct pids, `turn_pid` tells the processes of the workload apart. -/
theorem turn_pid_eq_iff (P : List Process) (hnd : (P.map pr_pid).Nodup) (i j : Nat)
    (hi : i < P.length) : turn_pid P j = turn_pid P i ↔ j % P.length = i := by
  have hj : j % P.length < P.length := Nat.mod_lt _ (by omega)
  unfold turn_pid
  rw [Nat.mod_eq_of_lt hi, List.getD_eq_getElem _ _ (by simpa using hj),
    List.getD_eq_getElem _ _ (by simpa using hi)]
  exact hnd.getElem_inj_iff

/-- The number of quanta granted to `P[i]` by a round of `n + 1` grants in order. -/
theorem count_turn_pid (P : List Process) (hnd : (P.map pr_pid).Nodup) (i : Nat)
    (hi : i < P.length) (n : Nat) :
    ((List.range n).map (turn_pid P)).count (turn_pid P i)
      = List.countP (fun j => decide (j % P.length = i)) (List.range n) := by
  rw [List.count_eq_countP, List.countP_map]
  apply List.countP_congr
  intro x _
  simp only [Function.comp_apply, beq_iff_eq, decide_eq_true_eq]
  exact turn_pid_eq_iff P hnd i x hi

/-- C4 (as stated) fails: a single process with a quantum of five ticks (100 ms) has
been granted 3 quanta after 10 = k * N invocations of the timer handler following the
start-up call, not 10 give or take one. -/
theorem fairness_as_stated_fails :
    ¬ (∀ (P : List Process) (T k : Nat) (s : Sched),
        P ≠ [] → 1 ≤ T →
        (∀ p ∈ P, p.status = WAITING ∧ p.ticks = T ∧ p.nticks = T) →
        (P.map pr_pid).Nodup →
        s.pr_list = (first_decision P).1 →
        ∀ p ∈ P,
          (k : Int) - 1 ≤ grants (run s (first_decision P).2
              (List.replicate (k * P.length) Input.alarm)).2 p.pid ∧
          (grants (run s (first_decision P).2
              (List.replicate (k * P.length) Input.alarm)).2 p.pid : Int) ≤ k + 1) := by
  intro h
  have h1 := (h sample_one 5 10 (started sample_one) (by decide) (by decide) (by decide)
    (by decide) rfl ⟨["a"], 31, 16, 5, 5, 0, 0, 0, 0⟩ (by decide)).1
  have h2 : grants (run (started sample_one) (first_decision sample_one).2
      (List.replicate (10 * sample_one.length) Input.alarm)).2 31 = 3 := by decide
  have h3 : (⟨["a"], 31, 16, 5, 5, 0, 0, 0, 0⟩ : Process).pid = 31 := rfl
  rw [h3, h2] at h1
  exact absurd h1 (by decide)

/-- C4 (amended). Round-robin fairness: with `N >= 1` processes of pairwise distinct
pids that never exit, each with a quantum of `T >= 1` ticks, after the timer handler
has been invoked `k * N * T` times following the start-up call, the first process has
been granted exactly `k + 1` quanta (its start-up grant included) and every other
process exactly `k`. -/
theorem round_robin_fairness (P : List Process) (T k : Nat) (s : Sched) (i : Nat)
    (hP : P ≠ []) (hT : 1 ≤ T)
    (hall : ∀ p ∈ P, p.status = WAITING ∧ p.ticks = T ∧ p.nticks = T)
    (hnd : (P.map pr_pid).Nodup)
    (hs : s.pr_list = (first_decision P).1) (hi : i < P.length) :
    grants (run s (first_decision P).2 (List.replicate (k * P.length * T) Input.alarm)).2
        (turn_pid P i) = (if i = 0 then k + 1 else k) ∧
    (∃ p, P[i]? = some p ∧ turn_pid P i = p.pid) := by
  constructor
  · obtain ⟨_, _, _, _, _, _, _, _, _, hg⟩ :=
      turn_run P T s (k * P.length * T) hP hT hall hs
    unfold grants
    rw [hg, Nat.mul_div_cancel _ hT, count_turn_pid P hnd i hi, List.range_succ,
      List.countP_append, countP_mod_range P.length i hi k]
    simp only [List.countP_cons, List.countP_nil, Nat.mul_mod_left, Nat.zero_add]
    by_cases h0 : i = 0
    · simp [h0]
    · have : ¬ (0 = i) := fun h => h0 h.symm
      simp [h0, this]
  · obtain ⟨p, hp, hpid⟩ := turn_pid_mem P i hP
    rw [Nat.mod_eq_of_lt hi] at hp
    exact ⟨p, hp, hpid⟩

/-- C4 (amended) at the sample workload of three processes with a quantum of two
ticks: after 2 * 3 * 2 firings the first process has had 3 quanta. -/
theorem round_robin_fairness_witness :
    grants (run (started sample_three) (first_decision sample_three).2
        (List.replicate (2 * sample_three.length * 2) Input.alarm)).2
      (turn_pid sample_three 0) = (if 0 = 0 then 2 + 1 else 2) ∧
    turn_pid sample_three 0 = 11 :=
  ⟨(round_robin_fairness sample_three 2 2 (started sample_three) 0
      (by decide) (by decide) (by decide) (by decide) rfl (by decide)).1, by decide⟩

/-! ## The lazy-reap scenario -/

/-- A run of firings shorter than what the running head has left only counts down. -/
theorem run_silent (k : Nat) (x : Process) (rest : List Process) (a pp : Int)
    (log : List Event) (ha : x.status = ALIVE) (hk : (k : Int) + 1 ≤ x.ticks) :
    run ⟨x :: rest, a, pp⟩ log (List.replicate k Input.alarm)
      = (⟨{ x with ticks := x.ticks - k } :: rest, a, pp⟩, log) := by
  induction k generalizing x with
  | zero => simp [run]
  | succ k ih =>
    have h2 : 2 ≤ x.ticks := by push_cast at hk; omega
    rw [List.replicate_succ]
    simp only [run, step, sigalrm_handler_silent x rest ha h2, List.append_nil]
    have hk2 : (k : Int) + 1 ≤ ({ x with ticks := x.ticks - 1 } : Process).ticks := by
      show (k : Int) + 1 ≤ x.ticks - 1
      push_cast at hk
      omega
    rw [ih { x with ticks := x.ticks - 1 } ha hk2]
    simp only [Prod.mk.injEq, Sched.mk.injEq, List.cons.injEq, and_true, true_and]
    congr 1
    push_cast
    omega

/-- On a queue holding one running process every firing leaves that process queued and
running, and signals nobody else. -/
theorem sigalrm_handler_single (x : Process) (ha : x.status = ALIVE) :
    ∃ y, (sigalrm_handler [x]).1 = [y] ∧ y.status = ALIVE ∧ y.pid = x.pid ∧
      ∀ ev ∈ (sigalrm_handler [x]).2, ∃ t sig, ev = Event.signal t sig ∧ t.pid = x.pid := by
  have hp : pr_status x = ALIVE := ha
  have hd : (decr_tick x).2.status = ALIVE := by rw [decr_tick_status, ha]
  by_cases hl : (decr_tick x).1 ≠ 0
  · refine ⟨(decr_tick x).2, ?_, hd, decr_tick_pid x, ?_⟩
    · simp only [sigalrm_handler, if_pos hp, if_pos hl]
    · simp only [sigalrm_handler, if_pos hp, if_pos hl]
      intro ev hev
      cases hev
  · refine ⟨(decr_tick x).2, ?_, hd, decr_tick_pid x, ?_⟩
    · simp only [sigalrm_handler, if_pos hp, if_neg hl, cl_rotate, List.nil_append]
      rw [reap_loop_alive _ _ hd]
    · simp only [sigalrm_handler, if_pos hp, if_neg hl, cl_rotate, List.nil_append]
      rw [reap_loop_alive _ _ hd]
      intro ev hev
      simp only [List.mem_cons, List.mem_singleton, List.not_mem_nil, or_false] at hev
      rcases hev with hev | hev
      · exact ⟨_, _, hev, decr_tick_pid x⟩
      · exact ⟨_, _, hev, decr_tick_pid x⟩

theorem run_single (n : Nat) (x : Process) (a pp : Int) (log : List Event)
    (ha : x.status = ALIVE)
    (hlog : ∀ ev ∈ log, ∃ t sig, ev = Event.signal t sig ∧ t.pid = x.pid) :
    ∃ y, (run ⟨[x], a, pp⟩ log (List.replicate n Input.alarm)).1 = ⟨[y], a, pp⟩ ∧
      y.status = ALIVE ∧ y.pid = x.pid ∧
      ∀ ev ∈ (run ⟨[x], a, pp⟩ log (List.replicate n Input.alarm)).2,
        ∃ t sig, ev = Event.signal t sig ∧ t.pid = x.pid := by
  induction n generalizing x log with
  | zero => exact ⟨x, rfl, ha, rfl, hlog⟩
  | succ n ih =>
    obtain ⟨y, hy, hya, hyp, hev⟩ := sigalrm_handler_single x ha
    rw [List.replicate_succ]
    simp only [run, step, hy]
    have hlog2 : ∀ ev ∈ log ++ (sigalrm_handler [x]).2,
        ∃ t sig, ev = Event.signal t sig ∧ t.pid = y.pid := by
      intro ev hmem
      rw [hyp]
      rcases List.mem_append.mp hmem with h | h
      · exact hlog ev h
      · exact hev ev h
    obtain ⟨z, hz, hza, hzp, hzev⟩ := ih y _ hya hlog2
    refine ⟨z, hz, hza, hzp.trans hyp, ?_⟩
    intro ev hmem
    rw [← hyp]
    exact hzev ev hmem

/-- C6. Lazy-reap scenario, for a queue `[P1, P2]` with `P1` at the head (ALIVE in the
scenario; its status before the notice plays no part), `P2` WAITING or ALIVE with a
full quantum of `T >= 1` ticks, and two active processes:
(a) the termination notice of `P1` marks it DEAD and leaves both entries queued in
order; (b) the next firing sends nothing to `P1`, rotates, and starts or resumes `P2`
with `P1` queued behind it; (c) the next `T - 1` firings send nothing, and the `T`-th
stops `P2`, frees `P1` and resumes `P2`, leaving the queue `[P2]`; (d) every later
firing leaves `P2` alone in the queue and signals only `P2`; (e) the loop's exit
condition is false in all these states and becomes true when the termination of `P2`
is noticed. -/
theorem lazy_reap_scenario (P1 P2 : Process) (T n : Nat) (ppid : Int)
    (h2 : P2.status = WAITING ∨ P2.status = ALIVE)
    (hT : 1 ≤ T) (ht : P2.ticks = T) (hn : P2.nticks = T) :
    step ⟨[P1, P2], 2, ppid⟩ (Input.notice P1.pid)
      = (⟨[pr_kill P1, P2], 1, ppid⟩, [Event.wake_parent ppid]) ∧
    step ⟨[pr_kill P1, P2], 1, ppid⟩ Input.alarm
      = (⟨[pr_wake P2, pr_kill P1], 1, ppid⟩,
         [Event.signal (pr_wake P2)
            (if P2.status = WAITING then Signal.SIGUSR1 else Signal.SIGCONT)]) ∧
    run ⟨[pr_wake P2, pr_kill P1], 1, ppid⟩ [] (List.replicate (T - 1) Input.alarm)
      = (⟨[{ pr_wake P2 with ticks := 1 }, pr_kill P1], 1, ppid⟩, []) ∧
    step ⟨[{ pr_wake P2 with ticks := 1 }, pr_kill P1], 1, ppid⟩ Input.alarm
      = (⟨[pr_wake P2], 1, ppid⟩,
         [Event.signal (pr_wake P2) Signal.SIGSTOP, Event.freed (pr_kill P1),
          Event.signal (pr_wake P2) Signal.SIGCONT]) ∧
    (∃ y, (run ⟨[pr_wake P2], 1, ppid⟩ [] (List.replicate n Input.alarm)).1 = ⟨[y], 1, ppid⟩ ∧
      y.status = ALIVE ∧ y.pid = P2.pid ∧
      (∀ ev ∈ (run ⟨[pr_wake P2], 1, ppid⟩ [] (List.replicate n Input.alarm)).2,
        ∃ t sig, ev = Event.signal t sig ∧ t.pid = P2.pid) ∧
      loop_exits ⟨[y], 1, ppid⟩ = false ∧
      (step ⟨[y], 1, ppid⟩ (Input.notice P2.pid)).1 = ⟨[pr_kill y], 0, ppid⟩ ∧
      loop_exits (step ⟨[y], 1, ppid⟩ (Input.notice P2.pid)).1 = true) ∧
    (loop_exits ⟨[P1, P2], 2, ppid⟩ = false ∧ loop_exits ⟨[pr_kill P1, P2], 1, ppid⟩ = false ∧
      loop_exits ⟨[pr_wake P2, pr_kill P1], 1, ppid⟩ = false ∧
      loop_exits ⟨[{ pr_wake P2 with ticks := 1 }, pr_kill P1], 1, ppid⟩ = false) := by
  have hk1 : (pr_kill P1).status ≠ WAITING := by
    show DEAD ≠ WAITING; decide
  have hk2 : (pr_kill P1).status ≠ ALIVE := by
    show DEAD ≠ ALIVE; decide
  have hwa : (pr_wake P2).status = ALIVE := rfl
  refine ⟨?_, ?_, ?_, ?_, ?_, ⟨rfl, rfl, rfl, rfl⟩⟩
  · have hp : pr_pid P1 = P1.pid := rfl
    simp [step, Input.notice, sigchld_handler, kill_process_eq, kill_scan, hp]
  · simp only [step]
    rw [sigalrm_handler_not_alive _ (by intro x hx; cases hx; exact hk2)]
    simp only [cl_rotate, List.cons_append, List.nil_append]
    rcases h2 with hw | ha
    · rw [reap_loop_waiting P2 _ hw, if_pos hw]
    · have hne : ¬ P2.status = WAITING := by rw [ha]; decide
      have hP2 : pr_wake P2 = P2 := by
        cases P2; simp only [pr_wake, Process.mk.injEq, and_true, true_and] at ha ⊢
        exact ha.symm
      rw [reap_loop_alive P2 _ ha, if_neg hne, hP2]
  · have hk : ((T - 1 : Nat) : Int) + 1 ≤ (pr_wake P2).ticks := by
      show ((T - 1 : Nat) : Int) + 1 ≤ P2.ticks
      rw [ht]; omega
    rw [run_silent (T - 1) (pr_wake P2) [pr_kill P1] 1 ppid [] hwa hk]
    simp only [Prod.mk.injEq, Sched.mk.injEq, List.cons.injEq, and_true, true_and]
    have : (pr_wake P2).ticks - ((T - 1 : Nat) : Int) = 1 := by
      show P2.ticks - ((T - 1 : Nat) : Int) = 1
      rw [ht]; omega
    rw [this]
  · have hfull : ({ pr_wake P2 with ticks := (pr_wake P2).nticks } : Process) = pr_wake P2 := by
      cases P2
      simp only [pr_wake, Process.mk.injEq, and_true, true_and] at ht hn ⊢
      rw [hn, ht]
    have h3 := sigalrm_handler_expire ({ pr_wake P2 with ticks := 1 } : Process) [pr_kill P1]
      hwa rfl
    simp only [hfull, List.cons_append, List.nil_append] at h3
    rw [reap_loop_other _ _ hk1 hk2, reap_loop_alive _ _ hwa] at h3
    show (Sched.mk (sigalrm_handler _).1 1 ppid, (sigalrm_handler _).2) = _
    rw [h3]
  · obtain ⟨y, hy, hya, hyp, hev⟩ := run_single n (pr_wake P2) 1 ppid [] hwa
      (by intro ev h; cases h)
    refine ⟨y, hy, hya, hyp, hev, rfl, ?_, ?_⟩
    · have hp : pr_pid y = P2.pid := hyp
      simp [step, Input.notice, sigchld_handler, kill_process_eq, kill_scan, hp]
    · have hp : pr_pid y = P2.pid := hyp
      simp [step, Input.notice, sigchld_handler, kill_process_eq, kill_scan, hp, loop_exits]

/-- C6 at two sample workers with a quantum of two ticks. -/
theorem lazy_reap_scenario_witness :
    step ⟨[⟨["a"], 11, 17, 1, 2, 0, 0, 0, 0⟩, ⟨["b"], 12, 16, 2, 2, 0, 0, 0, 0⟩], 2, 10⟩
        (Input.notice 11)
      = (⟨[⟨["a"], 11, 18, 1, 2, 0, 0, 0, 0⟩, ⟨["b"], 12, 16, 2, 2, 0, 0, 0, 0⟩], 1, 10⟩,
         [Event.wake_parent 10]) :=
  (lazy_reap_scenario ⟨["a"], 11, 17, 1, 2, 0, 0, 0, 0⟩ ⟨["b"], 12, 16, 2, 2, 0, 0, 0, 0⟩ 2 3 10
    (by decide) (by decide) (by decide) (by decide)).1

/-- C11. Contract of `decr_tick`: for every process with tick counter `t` and quantum
length `n` it returns `t - 1`; afterwards the stored counter is `n` if `t - 1 <= 0` and
`t - 1` otherwise; pid, status, nticks and argv (and every other field) are unchanged. -/
theorem decr_tick_contract (pr : Process) :
    (decr_tick pr).1 = pr.ticks - 1 ∧
    (decr_tick pr).2.ticks = (if pr.ticks - 1 ≤ 0 then pr.nticks else pr.ticks - 1) ∧
    (decr_tick pr).2.pid = pr.pid ∧
    (decr_tick pr).2.status = pr.status ∧
    (decr_tick pr).2.nticks = pr.nticks ∧
    (decr_tick pr).2.argv = pr.argv ∧
    (decr_tick pr).2
      = { pr with ticks := if pr.ticks - 1 ≤ 0 then pr.nticks else pr.ticks - 1 } := by
  refine ⟨rfl, decr_tick_ticks pr, decr_tick_pid pr, decr_tick_status pr, decr_tick_nticks pr,
    ?_, ?_⟩
  · unfold decr_tick; simp only []; split <;> rfl
  · unfold decr_tick; simp only []; split <;> rfl

theorem decr_tick_times_add (a b : Nat) (pr : Process) :
    decr_tick_times (a + b) pr
      = ((decr_tick_times a pr).1 ++ (decr_tick_times b (decr_tick_times a pr).2).1,
         (decr_tick_times b (decr_tick_times a pr).2).2) := by
  induction a generalizing pr with
  | zero => simp [decr_tick_times]
  | succ a ih =>
    rw [Nat.succ_add]
    simp only [decr_tick_times, ih, List.cons_append]

theorem decr_tick_times_succ (k : Nat) (pr : Process) :
    decr_tick_times (k + 1) pr
      = ((decr_tick_times k pr).1 ++ [(decr_tick (decr_tick_times k pr).2).1],
         (decr_tick (decr_tick_times k pr).2).2) := by
  rw [decr_tick_times_add]
  rfl

/-- Fewer calls than ticks left only count down. -/
theorem decr_tick_times_countdown (k : Nat) (pr : Process) (h : (k : Int) < pr.ticks) :
    decr_tick_times k pr
      = ((List.range k).map (fun (i : Nat) => pr.ticks - 1 - (i : Int)),
         { pr with ticks := pr.ticks - k }) := by
  induction k with
  | zero => simp [decr_tick_times]
  | succ k ih =>
    have hk : (k : Int) < pr.ticks := by push_cast at h; omega
    have h2 : 2 ≤ ({ pr with ticks := pr.ticks - (k : Int) } : Process).ticks := by
      show 2 ≤ pr.ticks - (k : Int)
      push_cast at h; omega
    rw [decr_tick_times_succ, ih hk, decr_tick_of_ge_two _ h2, List.range_succ, List.map_append]
    refine Prod.ext ?_ ?_
    · simp only [List.map_cons, List.map_nil, List.append_cancel_left_eq, List.cons.injEq,
        and_true]
      omega
    · simp only [Process.mk.injEq, true_and, and_true]
      push_cast
      omega

/-- One full quantum of calls. -/
theorem decr_tick_times_cycle (T : Nat) (pr : Process) (hT : 1 ≤ T)
    (hn : pr.nticks = T) (ht : pr.ticks = T) :
    decr_tick_times T pr
      = ((List.range T).map (fun (i : Nat) => (T : Int) - 1 - (i : Int)), pr) := by
  obtain ⟨k, rfl⟩ : ∃ k, T = k + 1 := ⟨T - 1, by omega⟩
  have hk : (k : Int) < pr.ticks := by rw [ht]; push_cast; omega
  have h1 : ({ pr with ticks := pr.ticks - (k : Int) } : Process).ticks = 1 := by
    show pr.ticks - (k : Int) = 1
    rw [ht]; push_cast; omega
  rw [decr_tick_times_succ, decr_tick_times_countdown k pr hk, decr_tick_of_one _ h1,
    List.range_succ, List.map_append, ht]
  refine Prod.ext ?_ ?_
  · simp only [List.map_cons, List.map_nil, List.append_cancel_left_eq, List.cons.injEq,
      and_true]
    push_cast
    omega
  · cases pr
    simp only [Process.mk.injEq, true_and, and_true] at hn ht ⊢
    rw [hn, ht]

theorem decr_tick_times_cycles (T c : Nat) (pr : Process) (hT : 1 ≤ T)
    (hn : pr.nticks = T) (ht : pr.ticks = T) :
    (decr_tick_times (c * T) pr).2 = pr := by
  induction c with
  | zero => simp [decr_tick_times]
  | succ c ih =>
    rw [Nat.succ_mul, decr_tick_times_add, ih, decr_tick_times_cycle T pr hT hn ht]

/-- C12. Tick-cycle idempotence: for a process with `nticks = T >= 1` whose counter is
`T`, the `i`-th of `T` calls of `decr_tick` (counting from 0) returns `T - 1 - i`, so the
first `T - 1` calls return the non-zero values `T-1, .., 1` and the `T`-th returns 0;
afterwards the process is as before, counter `T` included, and so it is after any
number `c` of completed cycles. -/
theorem tick_cycle_idempotent (T c : Nat) (pr : Process) (hT : 1 ≤ T)
    (hn : pr.nticks = T) (ht : pr.ticks = T) :
    (decr_tick_times T pr).2 = pr ∧
    (decr_tick_times T pr).2.ticks = T ∧
    (decr_tick_times T pr).1 = (List.range T).map (fun (i : Nat) => (T : Int) - 1 - (i : Int)) ∧
    (decr_tick_times T pr).1
      = (decr_tick_times (T - 1) pr).1 ++ [0] ∧
    (∀ v ∈ (decr_tick_times (T - 1) pr).1, 1 ≤ v ∧ v ≤ (T : Int) - 1) ∧
    (decr_tick_times (c * T) pr).2 = pr ∧
    (decr_tick_times T (decr_tick_times (c * T) pr).2).2.ticks = T := by
  have hcyc := decr_tick_times_cycle T pr hT hn ht
  have hk : ((T - 1 : Nat) : Int) < pr.ticks := by rw [ht]; omega
  have hcd := decr_tick_times_countdown (T - 1) pr hk
  refine ⟨by rw [hcyc], by rw [hcyc]; exact ht, by rw [hcyc], ?_, ?_, ?_, ?_⟩
  · rw [hcyc, hcd, ht]
    obtain ⟨k, rfl⟩ : ∃ k, T = k + 1 := ⟨T - 1, by omega⟩
    simp only [Nat.add_sub_cancel, List.range_succ, List.map_append, List.map_cons,
      List.map_nil, List.append_cancel_left_eq, List.cons.injEq, and_true]
    push_cast
    omega
  · rw [hcd]
    intro v hv
    simp only [List.mem_map, List.mem_range] at hv
    obtain ⟨i, hi, rfl⟩ := hv
    rw [ht]
    omega
  · exact decr_tick_times_cycles T c pr hT hn ht
  · rw [decr_tick_times_cycles T c pr hT hn ht, hcyc]; exact ht

/-- C12 at a process with a quantum of five ticks. -/
theorem tick_cycle_idempotent_witness :
    decr_tick_times 5 ⟨["a"], 11, 17, 5, 5, 0, 0, 0, 0⟩
      = ([4, 3, 2, 1, 0], ⟨["a"], 11, 17, 5, 5, 0, 0, 0, 0⟩) ∧
    (decr_tick_times 5 ⟨["a"], 11, 17, 5, 5, 0, 0, 0, 0⟩).2
      = ⟨["a"], 11, 17, 5, 5, 0, 0, 0, 0⟩ :=
  ⟨by decide, (tick_cycle_idempotent 5 3 ⟨["a"], 11, 17, 5, 5, 0, 0, 0, 0⟩ (by decide)
    (by decide) (by decide)).1⟩

/-! ## The ring in memory -/

theorem first_addr_append {α : Type} (r1 r2 : List (Nat × α)) (d : Nat) :
    first_addr (r1 ++ r2) d = first_addr r1 (first_addr r2 d) := by
  cases r1 with
  | nil => rfl
  | cons e r => cases e; rfl

theorem first_addr_of_ne_nil {α : Type} (ring : List (Nat × α)) (h : ring ≠ []) (d e : Nat) :
    first_addr ring d = first_addr ring e := by
  cases ring with
  | nil => exact absurd rfl h
  | cons p r => cases p; rfl

theorem Linked_append {α : Type} (nodes : Nat → Option (CNode α)) (r1 r2 : List (Nat × α))
    (back : Nat) :
    Linked nodes (r1 ++ r2) back ↔ Linked nodes r1 (first_addr r2 back) ∧ Linked nodes r2 back := by
  induction r1 with
  | nil => simp [Linked]
  | cons e r ih =>
    obtain ⟨a, x⟩ := e
    show (nodes a = some ⟨x, first_addr (r ++ r2) back⟩ ∧ Linked nodes (r ++ r2) back) ↔
      (nodes a = some ⟨x, first_addr r (first_addr r2 back)⟩ ∧ Linked nodes r (first_addr r2 back))
        ∧ Linked nodes r2 back
    rw [ih, first_addr_append, and_assoc]

theorem Linked_congr {α : Type} (nodes1 nodes2 : Nat → Option (CNode α))
    (ring : List (Nat × α)) (back : Nat)
    (h : ∀ a ∈ ring.map Prod.fst, nodes2 a = nodes1 a) (hl : Linked nodes1 ring back) :
    Linked nodes2 ring back := by
  induction ring with
  | nil => trivial
  | cons e r ih =>
    obtain ⟨a, x⟩ := e
    refine ⟨?_, ih (fun b hb => h b (List.mem_cons_of_mem _ hb)) hl.2⟩
    rw [h a (List.mem_cons_self _ _)]
    exact hl.1

/-- Every node of a linked chain lives in memory. -/
theorem Linked_mem {α : Type} (nodes : Nat → Option (CNode α)) (ring : List (Nat × α))
    (back : Nat) (hl : Linked nodes ring back) (a : Nat) (ha : a ∈ ring.map Prod.fst) :
    nodes a ≠ none := by
  induction ring with
  | nil => simp at ha
  | cons e r ih =>
    obtain ⟨b, x⟩ := e
    rcases List.mem_cons.mp ha with h | h
    · rw [h, hl.1]; simp
    · exact ih hl.2 h

/-- The loop of `cl_toArray` reads the items of a linked chain in order. -/
theorem walk_Linked {α : Type} (nodes : Nat → Option (CNode α)) (ring : List (Nat × α))
    (back : Nat) (hl : Linked nodes ring back) :
    Heap.walk nodes ring.length (first_addr ring back) = some (ring.map Prod.snd) := by
  induction ring with
  | nil => rfl
  | cons e r ih =>
    obtain ⟨a, x⟩ := e
    show (nodes a).bind (fun n => (Heap.walk nodes r.length n.next).bind
      fun rest => some (n.item :: rest)) = some (x :: r.map Prod.snd)
    rw [hl.1]
    show (Heap.walk nodes r.length (first_addr r back)).bind
      (fun rest => some (x :: rest)) = some (x :: r.map Prod.snd)
    rw [ih hl.2]
    rfl

/-- The tail pointer of a non-empty ring and the node it points to. -/
theorem IsRing_tail {α : Type} (cl : CList α) (front : List (Nat × α)) (t : Nat) (y : α)
    (h : IsRing cl (front ++ [(t, y)])) :
    cl.tail = some t ∧ cl.nodes t = some ⟨y, first_addr (front ++ [(t, y)]) 0⟩ ∧
    Linked cl.nodes front t ∧ t ∉ front.map Prod.fst ∧ (front.map Prod.fst).Nodup ∧
    cl.size = front.length + 1 := by
  obtain ⟨hs, hnd, ht, hl, _⟩ := h
  rw [Linked_append] at hl
  simp only [List.map_append, List.map_cons, List.map_nil] at hnd ht
  rw [List.getLast?_append] at ht
  have hnd2 := List.nodup_append.mp hnd
  refine ⟨by simpa using ht, hl.2.1, hl.1, ?_, hnd2.1, by simpa using hs⟩
  intro hmem
  exact hnd2.2.2 hmem (List.mem_singleton_self t) 

theorem exists_front_last {α : Type} (e : Nat × α) (rest : List (Nat × α)) :
    ∃ front t y, e :: rest = front ++ [(t, y)] := by
  rcases List.eq_nil_or_concat (e :: rest) with h | ⟨front, ⟨t, y⟩, h⟩
  · cases h
  · exact ⟨front, t, y, by rw [h, List.concat_eq_append]⟩

/-- What `cl_rotate` does to a non-empty ring. -/
theorem IsRing_rotate {α : Type} (cl : CList α) (a : Nat) (x : α) (rest : List (Nat × α))
    (h : IsRing cl ((a, x) :: rest)) :
    Heap.cl_rotate cl = some { cl with tail := some a } ∧
    IsRing { cl with tail := some a } (rest ++ [(a, x)]) := by
  obtain ⟨front, t, y, hfl⟩ := exists_front_last (a, x) rest
  have ht := IsRing_tail cl front t y (hfl ▸ h)
  rw [← hfl] at ht
  obtain ⟨htail, hnode, _, _, _, hsize⟩ := ht
  obtain ⟨hs, hnd, _, hl, hleak⟩ := h
  constructor
  · have hne : cl.size ≠ 0 := by rw [hsize]; omega
    simp only [Heap.cl_rotate, if_pos hne, htail, hnode, Option.bind_eq_bind, Option.some_bind,
      first_addr]
  · refine ⟨?_, ?_, ?_, ?_, ?_⟩
    · simpa using hs
    · have : (rest ++ [(a, x)]).map Prod.fst = rest.map Prod.fst ++ [a] := by simp
      rw [this]
      exact (List.perm_append_singleton a _).nodup_iff.mpr (by simpa using hnd)
    · simp
    · rw [Linked_append]
      refine ⟨hl.2, ?_, trivial⟩
      rw [first_addr_append]
      exact hl.1
    · intro b hb
      apply hleak
      simpa [or_comm] using hb

/-- What `cl_insert` does to a ring when `malloc` succeeds with a fresh block. -/
theorem IsRing_insert {α : Type} (cl : CList α) (ring : List (Nat × α)) (x : α) (node : Nat)
    (h : IsRing cl ring) (hfresh : cl.nodes node = none) :
    ∃ cl2, Heap.cl_insert cl x (some node) = some (1, cl2) ∧
      IsRing cl2 (ring ++ [(node, x)]) ∧ cl2.size = cl.size + 1 := by
  have hnotin : node ∉ ring.map Prod.fst := fun hm => Linked_mem _ _ _ h.2.2.2.1 node hm hfresh
  rcases List.eq_nil_or_concat ring with hnil | ⟨front, ⟨t, y⟩, hfl⟩
  · subst hnil
    obtain ⟨hs, _, _, _, hleak⟩ := h
    have hs0 : cl.size = 0 := by simpa using hs
    refine ⟨{ nodes := Function.update cl.nodes node (some ⟨x, node⟩), tail := some node,
              size := cl.size + 1 }, ?_, ?_, rfl⟩
    · simp only [Heap.cl_insert, if_pos hs0, Option.bind_eq_bind, Option.some_bind,
        Function.update_same]
    · refine ⟨by simp [hs0], by simp, by simp, ?_, ?_⟩
      · exact ⟨by simp [first_addr], trivial⟩
      · intro b hb
        have hne : b ≠ node := by simpa using hb
        show Function.update cl.nodes node (some ⟨x, node⟩) b = none
        rw [Function.update_noteq hne]
        exact hleak b (by simp)
  · rw [List.concat_eq_append] at hfl
    subst hfl
    obtain ⟨htail, hnode, hlf, htf, _, hsize⟩ := IsRing_tail cl front t y h
    obtain ⟨hs, hnd, _, _, hleak⟩ := h
    have hne : cl.size ≠ 0 := by rw [hsize]; omega
    have hnt : t ≠ node := by
      intro he
      apply hnotin
      rw [← he]
      simp
    have hnf : ∀ b ∈ front.map Prod.fst, b ≠ node := by
      intro b hb he
      apply hnotin
      rw [← he]
      simp only [List.map_append, List.mem_append]
      exact Or.inl hb
    have htf2 : ∀ b ∈ front.map Prod.fst, b ≠ t := by
      intro b hb he
      exact htf (he ▸ hb)
    refine ⟨{ nodes := Function.update (Function.update cl.nodes node
                (some ⟨x, first_addr (front ++ [(t, y)]) 0⟩)) t (some ⟨y, node⟩),
              tail := some node, size := cl.size + 1 }, ?_, ?_, rfl⟩
    · simp only [Heap.cl_insert, if_neg hne, htail, hnode, Option.bind_eq_bind, Option.some_bind,
        Function.update_noteq hnt, Function.update_same]
    · refine ⟨?_, ?_, by simp, ?_, ?_⟩
      · show cl.size + 1 = _
        rw [hsize]
        simp only [List.length_append, List.length_singleton]
        push_cast
        ring
      · have : (front ++ [(t, y)] ++ [(node, x)]).map Prod.fst
            = (front ++ [(t, y)]).map Prod.fst ++ [node] := by simp
        rw [this]
        exact List.Nodup.append hnd (List.nodup_singleton _)
          (by
            intro b hb hb2
            rw [List.mem_singleton] at hb2
            exact hnotin (hb2 ▸ hb))
      · rw [Linked_append, Linked_append]
        refine ⟨⟨?_, ?_, trivial⟩, ?_, trivial⟩
        · apply Linked_congr cl.nodes _ front _ _ hlf
          intro b hb
          show Function.update (Function.update cl.nodes node _) t _ b = cl.nodes b
          rw [Function.update_noteq (htf2 b hb), Function.update_noteq (hnf b hb)]
        · show Function.update (Function.update cl.nodes node _) t _ t = _
          rw [Function.update_same]
          rfl
        · have hfa : first_addr (front ++ [(t, y)] ++ [(node, x)]) 0
              = first_addr (front ++ [(t, y)]) 0 := by
            rw [first_addr_append]
            exact first_addr_of_ne_nil _ (by simp) _ _
          show Function.update (Function.update cl.nodes node _) t _ node
            = some ⟨x, first_addr (front ++ [(t, y)] ++ [(node, x)]) 0⟩
          rw [Function.update_noteq hnt.symm, Function.update_same, hfa]
      · intro b hb
        have hb1 : b ≠ node := by
          intro he; apply hb; rw [he]; simp
        have hb2 : b ≠ t := by
          intro he; apply hb; rw [he]; simp
        show Function.update (Function.update cl.nodes node _) t _ b = none
        rw [Function.update_noteq hb2, Function.update_noteq hb1]
        apply hleak
        intro hm
        apply hb
        simp only [List.map_append, List.mem_append] at hm ⊢
        exact Or.inl hm

/-- What `cl_head` returns on a non-empty ring. -/
theorem IsRing_head {α : Type} (cl : CList α) (a : Nat) (x : α) (rest : List (Nat × α))
    (h : IsRing cl ((a, x) :: rest)) : Heap.cl_head cl = some (1, some x) := by
  obtain ⟨front, t, y, hfl⟩ := exists_front_last (a, x) rest
  have ht := IsRing_tail cl front t y (hfl ▸ h)
  rw [← hfl] at ht
  obtain ⟨htail, hnode, _, _, _, hsize⟩ := ht
  have hne : ¬ cl.size = 0 := by rw [hsize]; omega
  have ha := h.2.2.2.1.1
  simp only [Heap.cl_head, if_neg hne, htail, hnode, Option.bind_eq_bind, Option.some_bind,
    first_addr, ha]

/-- What `cl_remove` does to a non-empty ring. -/
theorem IsRing_remove {α : Type} (cl : CList α) (a : Nat) (x : α) (rest : List (Nat × α))
    (h : IsRing cl ((a, x) :: rest)) :
    ∃ cl2, Heap.cl_remove cl = some (1, some x, cl2) ∧ IsRing cl2 rest ∧
      cl2.size = cl.size - 1 ∧ cl2.nodes a = none ∧ (rest = [] → cl2 = Heap.cl_create) := by
  rcases List.eq_nil_or_concat rest with hnil | ⟨front, ⟨t, y⟩, hfl⟩
  · subst hnil
    obtain ⟨htail, hnode, _, _, _, hsize⟩ := IsRing_tail cl [] a x h
    obtain ⟨_, _, _, _, hleak⟩ := h
    have hne : ¬ cl.size = 0 := by rw [hsize]; simp
    have h1 : cl.size = 1 := by rw [hsize]; simp
    have hnodes : Function.update cl.nodes a none = fun _ => none := by
      funext b
      by_cases hb : b = a
      · rw [hb, Function.update_same]
      · rw [Function.update_noteq hb]
        exact hleak b (by simpa using hb)
    refine ⟨{ nodes := Function.update cl.nodes a none, tail := none, size := cl.size - 1 },
      ?_, ?_, rfl, ?_, ?_⟩
    · simp only [Heap.cl_remove, if_neg hne, htail, hnode, Option.bind_eq_bind,
        Option.some_bind, first_addr, List.nil_append, if_pos h1]
    · refine ⟨by simp [h1], by simp, by simp, trivial, ?_⟩
      intro b _
      show Function.update cl.nodes a none b = none
      rw [hnodes]
    · show Function.update cl.nodes a none a = none
      rw [Function.update_same]
    · intro _
      show ({ nodes := Function.update cl.nodes a none, tail := none, size := cl.size - 1 }
        : CList α) = { nodes := fun _ => none, tail := none, size := 0 }
      rw [hnodes, h1]
      rfl
  · rw [List.concat_eq_append] at hfl
    subst hfl
    have h2 : IsRing cl (((a, x) :: front) ++ [(t, y)]) := h
    obtain ⟨htail, hnode, hlf, htf, hndf, hsize⟩ := IsRing_tail cl ((a, x) :: front) t y h2
    obtain ⟨_, hnd, _, _, hleak⟩ := h
    have hne : ¬ cl.size = 0 := by rw [hsize]; omega
    have hn1 : ¬ cl.size = 1 := by
      rw [hsize]; simp only [List.length_cons]; push_cast; omega
    have hta : t ≠ a := by
      intro he; apply htf; rw [he]; simp
    have hfa : ∀ b ∈ front.map Prod.fst, b ≠ a := by
      intro b hb he
      have := (List.nodup_cons.mp hndf).1
      exact this (he ▸ hb)
    have hft : ∀ b ∈ front.map Prod.fst, b ≠ t := by
      intro b hb he
      apply htf
      rw [← he]
      exact List.mem_cons_of_mem _ hb
    refine ⟨{ nodes := Function.update (Function.update cl.nodes t
                (some ⟨y, first_addr front t⟩)) a none,
              tail := some t, size := cl.size - 1 }, ?_, ?_, rfl, ?_, ?_⟩
    · have ha := hlf.1
      simp only [Heap.cl_remove, if_neg hne, htail, hnode, Option.bind_eq_bind,
        Option.some_bind, first_addr, List.cons_append, ha, if_neg hn1]
    · refine ⟨?_, ?_, by simp, ?_, ?_⟩
      · show cl.size - 1 = _
        rw [hsize]
        simp only [List.length_cons, List.length_append, List.length_singleton,
          List.length_nil]
        push_cast
        ring
      · exact (List.nodup_cons.mp hnd).2
      · rw [Linked_append]
        refine ⟨?_, ?_, trivial⟩
        · apply Linked_congr cl.nodes _ front _ _ hlf.2
          intro b hb
          show Function.update (Function.update cl.nodes t _) a none b = cl.nodes b
          rw [Function.update_noteq (hfa b hb), Function.update_noteq (hft b hb)]
        · show Function.update (Function.update cl.nodes t _) a none t
            = some ⟨y, first_addr (front ++ [(t, y)]) 0⟩
          rw [Function.update_noteq hta, Function.update_same, first_addr_append]
          rfl
      · intro b hb
        show Function.update (Function.update cl.nodes t _) a none b = none
        by_cases hba : b = a
        · rw [hba, Function.update_same]
        · have hbt : b ≠ t := by
            intro he; apply hb; rw [he]; simp
          rw [Function.update_noteq hba, Function.update_noteq hbt]
          apply hleak
          intro hm
          rcases List.mem_cons.mp hm with hm | hm
          · exact hba hm
          · exact hb hm
    · show Function.update (Function.update cl.nodes t _) a none a = none
      rw [Function.update_same]
    · intro he
      simp at he

/-- What `cl_toArray` returns on a non-empty ring. -/
theorem IsRing_toArray {α : Type} (cl : CList α) (ring : List (Nat × α)) (h : IsRing cl ring)
    (hne : ring ≠ []) :
    Heap.cl_toArray cl = some (some (ring.map Prod.snd, (ring.length : Int))) := by
  rcases List.eq_nil_or_concat ring with hnil | ⟨front, ⟨t, y⟩, hfl⟩
  · exact absurd hnil hne
  · rw [List.concat_eq_append] at hfl
    obtain ⟨htail, hnode, _, _, _, hsize⟩ := IsRing_tail cl front t y (hfl ▸ h)
    rw [← hfl] at hnode
    obtain ⟨hs, _, _, hl, _⟩ := h
    have hn0 : ¬ cl.size = 0 := by rw [hsize]; omega
    have hnat : cl.size.toNat = ring.length := by rw [hs]; simp
    unfold Heap.cl_toArray
    rw [if_neg hn0]
    simp only [htail, hnode, Option.bind_eq_bind, Option.some_bind, hnat]
    have hw := walk_Linked _ _ _ hl
    rw [first_addr_of_ne_nil ring hne _ 0] at hw
    rw [hw, hs]
    rfl

theorem IsRing_create {α : Type} : IsRing (Heap.cl_create : CList α) [] :=
  ⟨rfl, List.nodup_nil, rfl, trivial, fun _ _ => rfl⟩

/-- The only well-formed empty list is the one `cl_create` makes. -/
theorem IsRing_nil {α : Type} (cl : CList α) (h : IsRing cl []) : cl = Heap.cl_create := by
  obtain ⟨hs, _, ht, _, hleak⟩ := h
  cases cl with
  | mk nodes tail size =>
    have h1 : nodes = fun _ => none := funext fun a => hleak a (by simp)
    have h2 : tail = none := ht
    have h3 : size = 0 := by simpa using hs
    rw [h1, h2, h3]
    rfl

theorem cl_rotate_empty {α : Type} (cl : CList α) (h : cl.size = 0) :
    Heap.cl_rotate cl = some cl := by
  simp [Heap.cl_rotate, h]

/-- The state after `k` rotations. -/
theorem rotate_times_ring {α : Type} (k : Nat) (cl : CList α) (ring : List (Nat × α))
    (h : IsRing cl ring) :
    ∃ c, Heap.rotate_times k cl = some c ∧ IsRing c (ring.rotate k) ∧ c.nodes = cl.nodes ∧
      c.size = cl.size := by
  induction k generalizing cl ring with
  | zero => exact ⟨cl, rfl, by simpa using h, rfl, rfl⟩
  | succ k ih =>
    cases ring with
    | nil =>
      have hs : cl.size = 0 := by simpa using h.1
      obtain ⟨c, h1, h2, h3, h4⟩ := ih cl [] h
      refine ⟨c, ?_, by simpa using h2, h3, h4⟩
      simp only [Heap.rotate_times, cl_rotate_empty cl hs, Option.some_bind, h1]
    | cons e rest =>
      obtain ⟨a, x⟩ := e
      obtain ⟨hr, hring⟩ := IsRing_rotate cl a x rest h
      obtain ⟨c, h1, h2, h3, h4⟩ := ih _ _ hring
      refine ⟨c, ?_, ?_, h3, h4⟩
      · simp only [Heap.rotate_times, hr, Option.some_bind, h1]
      · rw [List.rotate_cons_succ]; exact h2

/-- Inserting items with fresh, pairwise distinct addresses appends them in order. -/
theorem insert_all_ring {α : Type} (ins : List (Nat × α)) (cl : CList α)
    (ring : List (Nat × α)) (h : IsRing cl ring)
    (hnd : ((ring ++ ins).map Prod.fst).Nodup) :
    ∃ c, Heap.insert_all cl ins = some c ∧ IsRing c (ring ++ ins) := by
  induction ins generalizing cl ring with
  | nil => exact ⟨cl, rfl, by simpa using h⟩
  | cons e more ih =>
    obtain ⟨node, x⟩ := e
    have hfresh : cl.nodes node = none := by
      apply h.2.2.2.2
      intro hm
      simp only [List.map_append, List.map_cons] at hnd
      have := (List.nodup_append.mp hnd).2.2
      exact this hm (List.mem_cons_self _ _)
    obtain ⟨c1, hc1, hr1, _⟩ := IsRing_insert cl ring x node h hfresh
    have hnd2 : (((ring ++ [(node, x)]) ++ more).map Prod.fst).Nodup := by
      simpa using hnd
    obtain ⟨c, hc, hr⟩ := ih c1 _ hr1 hnd2
    refine ⟨c, ?_, by simpa using hr⟩
    simp only [Heap.insert_all, hc1, Option.some_bind, hc]

theorem sample_ring_ok : IsRing sample_ring [(1, 10), (2, 20), (3, 30)] := by
  refine ⟨rfl, by decide, rfl, ⟨rfl, rfl, rfl, trivial⟩, ?_⟩
  intro a ha
  simp only [List.map_cons, List.map_nil, List.mem_cons, List.mem_singleton, List.not_mem_nil,
    or_false, not_or] at ha
  simp [sample_ring, ha.1, ha.2.1, ha.2.2]

theorem sample_sole_ok : IsRing sample_sole [(7, 70)] := by
  refine ⟨rfl, by decide, rfl, ⟨rfl, trivial⟩, ?_⟩
  intro a ha
  simp only [List.map_cons, List.map_nil, List.mem_singleton] at ha
  simp [sample_sole, ha]

/-- C13. Rotation has period size: for every well-formed circular list, the empty one
included, calling `cl_rotate` `cl_size` times gives back the very same list (same
nodes, same tail pointer, same size), hence the same head and the same head-to-tail
order; after `k` calls the ring is the original one turned by `k` places. -/
theorem rotation_period {α : Type} (cl : CList α) (ring : List (Nat × α)) (k : Nat)
    (h : IsRing cl ring) :
    Heap.rotate_times (Heap.cl_size cl).toNat cl = some cl ∧
    (∃ c, Heap.rotate_times k cl = some c ∧ IsRing c (ring.rotate k) ∧
      Heap.cl_size c = Heap.cl_size cl) ∧
    (cl_rotate^[ring.length]) (ring.map Prod.snd) = ring.map Prod.snd := by
  refine ⟨?_, ?_, ?_⟩
  · have hn : (Heap.cl_size cl).toNat = ring.length := by
      show cl.size.toNat = _
      rw [h.1]; simp
    obtain ⟨c, h1, h2, h3, h4⟩ := rotate_times_ring ring.length cl ring h
    rw [hn, h1]
    rw [List.rotate_length] at h2
    have ht : c.tail = cl.tail := by rw [h2.2.2.1, h.2.2.1]
    cases c
    cases cl
    simp only at h3 h4 ht
    rw [h3, h4, ht]
  · obtain ⟨c, h1, h2, _, h4⟩ := rotate_times_ring k cl ring h
    exact ⟨c, h1, h2, h4⟩
  · rw [cl_rotate_iterate]
    have : ring.length = (ring.map Prod.snd).length := by simp
    rw [this, List.rotate_length]

/-- C13 at the sample ring of three nodes. -/
theorem rotation_period_witness :
    IsRing sample_ring [(1, 10), (2, 20), (3, 30)] ∧
    Heap.rotate_times (Heap.cl_size sample_ring).toNat sample_ring = some sample_ring :=
  ⟨sample_ring_ok, (rotation_period sample_ring _ 1 sample_ring_ok).1⟩

/-- C14. `cl_rotate` moves the head to the back: on a well-formed list whose nodes are
`ring` it succeeds, changes no node and not the size, and leaves the ring
`cl_rotate ring`, so contents `[x1, x2, .., xn]` become `[x2, .., xn, x1]`; on the empty
list it does nothing. -/
theorem cl_rotate_moves_head {α : Type} (cl : CList α) (ring : List (Nat × α))
    (h : IsRing cl ring) :
    ∃ c, Heap.cl_rotate cl = some c ∧ IsRing c (cl_rotate ring) ∧
      Heap.cl_size c = Heap.cl_size cl ∧ c.nodes = cl.nodes ∧
      (ring = [] → c = cl) ∧
      (∀ x xs, ring.map Prod.snd = x :: xs → (cl_rotate ring).map Prod.snd = xs ++ [x]) ∧
      (cl_rotate ring).map Prod.snd = cl_rotate (ring.map Prod.snd) := by
  cases ring with
  | nil =>
    have hs : cl.size = 0 := by simpa using h.1
    exact ⟨cl, cl_rotate_empty cl hs, h, rfl, rfl, fun _ => rfl, fun x xs hx => by simp at hx,
      rfl⟩
  | cons e rest =>
    obtain ⟨a, x⟩ := e
    obtain ⟨hr, hring⟩ := IsRing_rotate cl a x rest h
    refine ⟨_, hr, hring, rfl, rfl, fun hn => by simp at hn, ?_, by simp [cl_rotate]⟩
    intro y ys hy
    simp only [List.map_cons, List.cons.injEq] at hy
    simp [cl_rotate, hy.1, hy.2]

/-- C14 at the sample ring of three nodes. -/
theorem cl_rotate_moves_head_witness :
    IsRing sample_ring [(1, 10), (2, 20), (3, 30)] ∧
    ∃ c, Heap.cl_rotate sample_ring = some c ∧ IsRing c [(2, 20), (3, 30), (1, 10)] :=
  ⟨sample_ring_ok,
   let ⟨c, h1, h2, _⟩ := cl_rotate_moves_head sample_ring _ sample_ring_ok
   ⟨c, h1, h2⟩⟩

/-- C15. `cl_insert` appends at the tail: on a well-formed list whose nodes are `ring`,
when `malloc` returns a fresh block `node` the call returns 1 and leaves the
well-formed ring `ring ++ [(node, x)]`, so contents `L` become `L ++ [x]`, the size
grows by one and, if the list was not empty, `cl_head` returns what it returned
before; when `malloc` fails the call returns 0 and the list is unchanged. -/
theorem cl_insert_appends {α : Type} (cl : CList α) (ring : List (Nat × α)) (x : α)
    (node : Nat) (h : IsRing cl ring) (hfresh : cl.nodes node = none) :
    (∃ c, Heap.cl_insert cl x (some node) = some (1, c) ∧
      IsRing c (cl_insert ring (node, x)) ∧
      (cl_insert ring (node, x)).map Prod.snd = ring.map Prod.snd ++ [x] ∧
      Heap.cl_size c = Heap.cl_size cl + 1 ∧
      (ring ≠ [] → Heap.cl_head c = Heap.cl_head cl)) ∧
    Heap.cl_insert cl x none = some (0, cl) := by
  refine ⟨?_, rfl⟩
  obtain ⟨c, h1, h2, h3⟩ := IsRing_insert cl ring x node h hfresh
  refine ⟨c, h1, h2, by simp [cl_insert], h3, ?_⟩
  intro hne
  cases ring with
  | nil => exact absurd rfl hne
  | cons e rest =>
    obtain ⟨a, y⟩ := e
    rw [IsRing_head cl a y rest h, IsRing_head c a y (rest ++ [(node, x)]) h2]

/-- C15 at the sample ring of three nodes and a fresh block at address 4. -/
theorem cl_insert_appends_witness :
    IsRing sample_ring [(1, 10), (2, 20), (3, 30)] ∧ sample_ring.nodes 4 = none ∧
    ∃ c, Heap.cl_insert sample_ring 40 (some 4) = some (1, c) ∧
      IsRing c [(1, 10), (2, 20), (3, 30), (4, 40)] :=
  ⟨sample_ring_ok, rfl,
   let ⟨c, h1, h2, _⟩ := (cl_insert_appends sample_ring _ 40 4 sample_ring_ok rfl).1
   ⟨c, h1, h2⟩⟩

/-- C16. `cl_remove` removes the head and fails exactly on the empty list: on a
well-formed list it returns 0 and changes nothing when the list is empty; otherwise it
returns 1, stores the item of the head node in `*head`, frees that node, and leaves the
well-formed ring of the other nodes in their order, the size being one less. -/
theorem cl_remove_head {α : Type} (cl : CList α) (ring : List (Nat × α))
    (h : IsRing cl ring) :
    (ring = [] → Heap.cl_remove cl = some (0, none, cl)) ∧
    (∀ a x rest, ring = (a, x) :: rest →
      ∃ c, Heap.cl_remove cl = some (1, some x, c) ∧ IsRing c rest ∧
        Heap.cl_size c = Heap.cl_size cl - 1 ∧ c.nodes a = none ∧
        cl_remove ring = some ((a, x), rest) ∧
        rest.map Prod.snd = (ring.map Prod.snd).tail) ∧
    ((∃ v c, Heap.cl_remove cl = some (0, v, c)) ↔ ring = []) := by
  have hempty : ring = [] → Heap.cl_remove cl = some (0, none, cl) := by
    intro hn
    have hs : cl.size = 0 := by rw [h.1, hn]; rfl
    simp [Heap.cl_remove, hs]
  refine ⟨hempty, ?_, ?_⟩
  · intro a x rest hr
    subst hr
    obtain ⟨c, h1, h2, h3, h4, _⟩ := IsRing_remove cl a x rest h
    exact ⟨c, h1, h2, h3, h4, rfl, rfl⟩
  · constructor
    · rintro ⟨v, c, hv⟩
      cases ring with
      | nil => rfl
      | cons e rest =>
        obtain ⟨a, x⟩ := e
        obtain ⟨c2, h1, _⟩ := IsRing_remove cl a x rest h
        rw [h1] at hv
        simp at hv
    · intro hn
      exact ⟨none, cl, hempty hn⟩

/-- C16 at the sample ring of three nodes. -/
theorem cl_remove_head_witness :
    IsRing sample_ring [(1, 10), (2, 20), (3, 30)] ∧
    ∃ c, Heap.cl_remove sample_ring = some (1, some 10, c) ∧ IsRing c [(2, 20), (3, 30)] :=
  ⟨sample_ring_ok,
   let ⟨c, h1, h2, _⟩ := (cl_remove_head sample_ring _ sample_ring_ok).2.1 1 10 _ rfl
   ⟨c, h1, h2⟩⟩

/-- C17. Removing the sole element resets the ring to the empty state: on a well-formed
one-element list `cl_remove` returns 1 with the item and leaves exactly the state that
`cl_create` makes (no node, `tail` NULL, `size` 0); in that state `cl_isEmpty` returns
true, `cl_head` and `cl_remove` return 0, `cl_rotate` changes nothing, and `cl_insert`
of `y` makes the one-element list `[y]` with `y` as head. -/
theorem remove_sole_resets {α : Type} (cl : CList α) (a : Nat) (x y : α) (node : Nat)
    (h : IsRing cl [(a, x)]) :
    Heap.cl_remove cl = some (1, some x, Heap.cl_create) ∧
    (Heap.cl_create : CList α).tail = none ∧ (Heap.cl_create : CList α).size = 0 ∧
    Heap.cl_isEmpty (Heap.cl_create : CList α) = true ∧
    Heap.cl_head (Heap.cl_create : CList α) = some (0, none) ∧
    Heap.cl_remove (Heap.cl_create : CList α) = some (0, none, Heap.cl_create) ∧
    Heap.cl_rotate (Heap.cl_create : CList α) = some Heap.cl_create ∧
    (∃ c, Heap.cl_insert Heap.cl_create y (some node) = some (1, c) ∧
      IsRing c [(node, y)] ∧ Heap.cl_head c = some (1, some y)) := by
  obtain ⟨c, h1, _, _, _, h5⟩ := IsRing_remove cl a x [] h
  rw [h5 rfl] at h1
  refine ⟨h1, rfl, rfl, rfl, rfl, rfl, rfl, ?_⟩
  obtain ⟨c2, hc, hr, _⟩ := IsRing_insert Heap.cl_create [] y node IsRing_create rfl
  exact ⟨c2, hc, hr, IsRing_head c2 node y [] hr⟩

/-- C17 at the sample ring of one node. -/
theorem remove_sole_resets_witness :
    IsRing sample_sole [(7, 70)] ∧
    Heap.cl_remove sample_sole = some (1, some 70, Heap.cl_create) :=
  ⟨sample_sole_ok, (remove_sole_resets sample_sole 7 70 80 8 sample_sole_ok).1⟩

/-- C18. `cl_toArray` snapshots the list in head-to-tail order: on a well-formed
non-empty list with contents `[x1..xn]` it returns the array `[x1..xn]`, so that
`a[i] = x(i+1)`, and stores `n` in `*len` (it writes nothing to the list); on the empty
list it returns `NULL`; and after inserting items into the empty list, each in a fresh
block, the array holds them in insertion order. -/
theorem cl_toArray_snapshot {α : Type} (cl : CList α) (ring ins : List (Nat × α))
    (h : IsRing cl ring) (hins : (ins.map Prod.fst).Nodup) :
    (ring ≠ [] →
      Heap.cl_toArray cl = some (some (ring.map Prod.snd, (ring.length : Int))) ∧
      cl_toArray (ring.map Prod.snd) = some (ring.map Prod.snd) ∧
      ∀ i, i < ring.length → (ring.map Prod.snd)[i]? = (ring[i]?).map Prod.snd) ∧
    (ring = [] → Heap.cl_toArray cl = some none) ∧
    (ins ≠ [] → ∃ c, Heap.insert_all Heap.cl_create ins = some c ∧
      Heap.cl_toArray c = some (some (ins.map Prod.snd, (ins.length : Int)))) := by
  refine ⟨?_, ?_, ?_⟩
  · intro hne
    refine ⟨IsRing_toArray cl ring h hne, ?_, fun i _ => by simp⟩
    have : ¬ cl_size (ring.map Prod.snd) = 0 := by
      simp [cl_size, hne]
    simp only [cl_toArray, if_neg this]
  · intro hn
    have hs : cl.size = 0 := by rw [h.1, hn]; rfl
    simp [Heap.cl_toArray, hs]
  · intro hne
    obtain ⟨c, hc, hr⟩ := insert_all_ring ins Heap.cl_create [] IsRing_create
      (by simpa using hins)
    refine ⟨c, hc, ?_⟩
    rw [List.nil_append] at hr
    exact IsRing_toArray c ins hr hne

/-- C18 at the sample ring of three nodes. -/
theorem cl_toArray_snapshot_witness :
    IsRing sample_ring [(1, 10), (2, 20), (3, 30)] ∧
    Heap.cl_toArray sample_ring = some (some ([10, 20, 30], 3)) :=
  ⟨sample_ring_ok,
   ((cl_toArray_snapshot sample_ring _ [(5, 50)] sample_ring_ok (by decide)).1
      (by decide)).1⟩

/-! ## Termination notices and the active count -/

/-- C19. A termination notice is a pure mark: `kill_process` sets the status of the
first queued entry with the given pid to DEAD and changes nothing else (same size,
same order, same pids, tick counters, quantum lengths and arguments, every other
entry untouched); with no such entry the queue is unchanged; `pr_kill` writes the
status only; and `sigchld_handler` lowers `active_processes` by exactly one for each
reaped child that exited or was killed, whatever the queue holds. -/
theorem kill_process_marks (q : List Process) (pid : Int) (s : Sched)
    (reaped : List (Int × Bool)) :
    ((∀ p ∈ q, p.pid ≠ pid) → kill_process q pid = q) ∧
    (∀ pre p post, q = pre ++ p :: post → (∀ e ∈ pre, e.pid ≠ pid) → p.pid = pid →
      kill_process q pid = pre ++ { p with status := DEAD } :: post) ∧
    (kill_process q pid).length = q.length ∧
    (kill_process q pid).map pr_pid = q.map pr_pid ∧
    (kill_process q pid).map (fun p => (p.ticks, p.nticks, p.argv))
      = q.map (fun p => (p.ticks, p.nticks, p.argv)) ∧
    (sigchld_handler s reaped).1.active_processes
      = s.active_processes - ((reaped.filter fun r => r.2).length : Int) ∧
    ((∀ r ∈ reaped, r.2 = true) →
      (sigchld_handler s reaped).1.active_processes = s.active_processes - reaped.length) := by
  have hcount : ∀ (r : List (Int × Bool)) (t : Sched),
      (sigchld_handler t r).1.active_processes
        = t.active_processes - ((r.filter fun e => e.2).length : Int) := by
    intro r
    induction r with
    | nil => intro t; simp [sigchld_handler]
    | cons e more ih =>
      intro t
      obtain ⟨p, ended⟩ := e
      cases ended with
      | false => simpa [sigchld_handler] using ih t
      | true =>
        simp only [sigchld_handler, if_true, ih, List.filter_cons_of_pos, List.length_cons]
        push_cast
        ring
  refine ⟨?_, ?_, ?_, ?_, ?_, hcount reaped s, ?_⟩
  · intro h
    rw [kill_process_eq]
    induction q with
    | nil => rfl
    | cons p rest ih =>
      have hp : ¬ pr_pid p = pid := h p (List.mem_cons_self _ _)
      simp only [kill_scan, if_neg hp]
      rw [ih (fun e he => h e (List.mem_cons_of_mem _ he))]
  · intro pre p post hq hpre hp
    rw [kill_process_eq, hq]
    clear hq
    induction pre with
    | nil =>
      have hp2 : pr_pid p = pid := hp
      simp only [List.nil_append, kill_scan, if_pos hp2]
      rfl
    | cons e pre ih =>
      have he : ¬ pr_pid e = pid := hpre e (List.mem_cons_self _ _)
      show kill_scan pid (e :: (pre ++ p :: post)) = e :: (pre ++ _ :: post)
      simp only [kill_scan, if_neg he]
      rw [ih (fun x hx => hpre x (List.mem_cons_of_mem _ hx))]
  · rw [kill_process_eq]
    have := congrArg List.length (kill_scan_pids pid q)
    simpa using this
  · rw [kill_process_eq]; exact kill_scan_pids pid q
  · rw [kill_process_eq]
    induction q with
    | nil => rfl
    | cons p rest ih =>
      simp only [kill_scan]
      split
      · rfl
      · simp only [List.map_cons, ih]
  · intro hall
    rw [hcount reaped s]
    have : reaped.filter (fun r => r.2) = reaped := by
      rw [List.filter_eq_self]
      exact hall
    rw [this]

theorem live_count_cons (p : Process) (q : List Process) :
    live_count (p :: q) = (if p.status ≠ DEAD then 1 else 0) + live_count q := by
  unfold live_count
  rw [List.countP_cons]
  by_cases h : p.status = DEAD
  · simp [h]
  · simp only [ne_eq, h, not_false_eq_true, decide_True, if_true]
    push_cast
    ring

theorem live_count_append (q1 q2 : List Process) :
    live_count (q1 ++ q2) = live_count q1 + live_count q2 := by
  unfold live_count
  rw [List.countP_append]
  push_cast
  rfl

/-- The loop removes DEAD entries only, when every status is one of the three macros. -/
theorem reap_loop_live_count (q : List Process)
    (hv : ∀ p ∈ q, p.status = WAITING ∨ p.status = ALIVE ∨ p.status = DEAD) :
    live_count (reap_loop q).1 = live_count q := by
  induction q with
  | nil => rfl
  | cons p rest ih =>
    have hrest := fun e he => hv e (List.mem_cons_of_mem p he)
    by_cases hw : p.status = WAITING
    · rw [reap_loop_waiting p rest hw, live_count_cons, live_count_cons]
      have h1 : (pr_wake p).status ≠ DEAD := by show ALIVE ≠ DEAD; decide
      have h2 : p.status ≠ DEAD := by rw [hw]; decide
      rw [if_pos h1, if_pos h2]
    · by_cases ha : p.status = ALIVE
      · rw [reap_loop_alive p rest ha]
      · rw [reap_loop_other p rest hw ha, ih hrest, live_count_cons]
        have hd : p.status = DEAD := by
          rcases hv p (List.mem_cons_self _ _) with h | h | h
          · exact absurd h hw
          · exact absurd h ha
          · exact h
        rw [if_neg (by simpa using hd)]
        ring

theorem reap_loop_sublist (q : List Process) :
    ((reap_loop q).1.map pr_pid).Sublist (q.map pr_pid) := by
  induction q with
  | nil => exact List.Sublist.refl _
  | cons p rest ih =>
    by_cases hw : p.status = WAITING
    · rw [reap_loop_waiting p rest hw]; exact List.Sublist.refl _
    · by_cases ha : p.status = ALIVE
      · rw [reap_loop_alive p rest ha]
      · rw [reap_loop_other p rest hw ha]
        exact List.Sublist.cons _ ih

/-- The timer handler keeps the invariant of the active count. -/
theorem sigalrm_handler_ActiveInv (s : Sched) (h : ActiveInv s) :
    ActiveInv (step s Input.alarm).1 := by
  obtain ⟨hc, hnd, hv⟩ := h
  have hv2 : ∀ p ∈ (sigalrm_handler s.pr_list).1,
      p.status = WAITING ∨ p.status = ALIVE ∨ p.status = DEAD := by
    intro p hp
    obtain ⟨e, he, _, hm⟩ := sigalrm_handler_evolves s.pr_list p hp
    rcases hm with hm | ⟨_, hm⟩ | ⟨hm, _⟩
    · rw [← hm]; exact hv e he
    · exact Or.inr (Or.inl hm)
    · cases hm
  refine ⟨?_, ?_, hv2⟩
  · show s.active_processes = live_count (sigalrm_handler s.pr_list).1
    rw [hc]
    cases hq : s.pr_list with
    | nil => rfl
    | cons p rest =>
      rw [hq] at hv
      have hrot : ∀ p2 : Process, p2.status = p.status →
          live_count (reap_loop (cl_rotate (p2 :: rest))).1 = live_count (p :: rest) := by
        intro p2 hst
        rw [reap_loop_live_count]
        · simp only [cl_rotate]
          rw [live_count_append, live_count_cons, live_count_cons, hst]
          simp [live_count]
          ring
        · intro e he
          simp only [cl_rotate, List.mem_append, List.mem_singleton] at he
          rcases he with he | he
          · exact hv e (List.mem_cons_of_mem _ he)
          · rw [he, hst]; exact hv p (List.mem_cons_self _ _)
      by_cases ha : p.status = ALIVE
      · have hp : pr_status p = ALIVE := ha
        by_cases hl : (decr_tick p).1 ≠ 0
        · simp only [sigalrm_handler, if_pos hp, if_pos hl]
          rw [live_count_cons, live_count_cons, decr_tick_status]
        · simp only [sigalrm_handler, if_pos hp, if_neg hl]
          exact (hrot _ (decr_tick_status p)).symm
      · rw [sigalrm_handler_not_alive _ (by intro x hx; cases hx; exact ha)]
        exact (hrot p rfl).symm
  · show ((sigalrm_handler s.pr_list).1.map pr_pid).Nodup
    cases hq : s.pr_list with
    | nil => simp [sigalrm_handler]
    | cons p rest =>
      rw [hq] at hnd
      by_cases ha : p.status = ALIVE
      · have hp : pr_status p = ALIVE := ha
        by_cases hl : (decr_tick p).1 ≠ 0
        · simp only [sigalrm_handler, if_pos hp, if_pos hl]
          simpa [pr_pid, decr_tick_pid] using hnd
        · simp only [sigalrm_handler, if_pos hp, if_neg hl]
          exact (reap_loop_sublist _).nodup
            (nodup_pids_rotate p rest _ (decr_tick_pid p) hnd)
      · rw [sigalrm_handler_not_alive _ (by intro x hx; cases hx; exact ha)]
        exact (reap_loop_sublist _).nodup (nodup_pids_rotate p rest p rfl hnd)

/-- Marking a queued entry that is not DEAD lowers the count by one. -/
theorem kill_scan_live_count (pid : Int) (q : List Process)
    (hnd : (q.map pr_pid).Nodup) (hex : ∃ p ∈ q, p.pid = pid ∧ p.status ≠ DEAD) :
    live_count (kill_scan pid q) = live_count q - 1 := by
  induction q with
  | nil => obtain ⟨p, hp, _⟩ := hex; cases hp
  | cons e rest ih =>
    obtain ⟨p, hp, hpid, hst⟩ := hex
    by_cases he : pr_pid e = pid
    · have hpe : p = e := eq_of_pid_eq hnd hp (List.mem_cons_self _ _) (hpid.trans he.symm)
      rw [hpe] at hst
      simp only [kill_scan, if_pos he]
      rw [live_count_cons, live_count_cons, if_pos hst]
      have hd : ¬ (pr_kill e).status ≠ DEAD := fun h => h rfl
      rw [if_neg hd]
      ring
    · simp only [kill_scan, if_neg he]
      have hpr : p ∈ rest := by
        rcases List.mem_cons.mp hp with h | h
        · exact absurd (h ▸ hpid) he
        · exact h
      rw [live_count_cons, live_count_cons, ih (List.nodup_cons.mp hnd).2 ⟨p, hpr, hpid, hst⟩]
      ring

/-- The termination handler keeps the invariant of the active count. -/
theorem sigchld_handler_ActiveInv (reaped : List (Int × Bool)) (s : Sched)
    (h : ActiveInv s) (hok : reap_ok s.pr_list reaped) :
    ActiveInv (sigchld_handler s reaped).1 := by
  induction reaped generalizing s with
  | nil => exact h
  | cons r more ih =>
    obtain ⟨pid, ended⟩ := r
    cases ended with
    | false =>
      have hok2 : reap_ok s.pr_list more := by simpa [reap_ok] using hok
      simpa [sigchld_handler] using ih s h hok2
    | true =>
      have hok2 : (∃ p ∈ s.pr_list, p.pid = pid ∧ p.status ≠ DEAD) ∧
          reap_ok (kill_process s.pr_list pid) more := by simpa [reap_ok] using hok
      obtain ⟨hc, hnd, hv⟩ := h
      simp only [sigchld_handler, if_true]
      apply ih
      · refine ⟨?_, ?_, ?_⟩
        · show s.active_processes - 1 = live_count (kill_process s.pr_list pid)
          rw [kill_process_eq, kill_scan_live_count pid _ hnd hok2.1, hc]
        · show ((kill_process s.pr_list pid).map pr_pid).Nodup
          rw [kill_process_eq, kill_scan_pids]; exact hnd
        · intro p hp
          have hp2 : p ∈ kill_scan pid s.pr_list := by rw [← kill_process_eq]; exact hp
          obtain ⟨e, he, _, hm⟩ := kill_scan_evolves pid s.pr_list p hp2
          rcases hm with hm | ⟨_, hm⟩ | ⟨_, hm⟩
          · rw [← hm]; exact hv e he
          · exact Or.inr (Or.inl hm)
          · exact Or.inr (Or.inr hm)
      · exact hok2.2

theorem run_ActiveInv (ins : List Input) (s : Sched) (log : List Event)
    (h : ActiveInv s) (hok : notices_ok s ins) : ActiveInv (run s log ins).1 := by
  induction ins generalizing s log with
  | nil => exact h
  | cons i more ih =>
    simp only [run]
    cases i with
    | alarm => exact ih _ _ (sigalrm_handler_ActiveInv s h) hok
    | chld reaped => exact ih _ _ (sigchld_handler_ActiveInv reaped s h hok.1) hok.2

theorem live_count_eq_zero (q : List Process) :
    live_count q = 0 ↔ ∀ p ∈ q, p.status = DEAD := by
  unfold live_count
  rw [Nat.cast_eq_zero, List.countP_eq_zero]
  simp

/-- C20. Active-count invariant: starting from a launch state in which
`active_processes` is the number of queued entries, all of them not DEAD (WAITING or
ALIVE) and of pairwise distinct pids, and provided each termination notice is for the
pid of an entry that is queued and not DEAD, after every sequence of timer-handler
invocations and termination notices `active_processes` is the number of queued entries
that are not DEAD; the timer handler never changes `active_processes`; and the exit
condition of the control loop holds exactly when every entry still queued is DEAD. -/
theorem active_count_invariant (s : Sched) (log : List Event) (ins : List Input) (t : Sched)
    (hact : s.active_processes = cl_size s.pr_list)
    (hlive : ∀ p ∈ s.pr_list, p.status = WAITING ∨ p.status = ALIVE)
    (hnd : (s.pr_list.map pr_pid).Nodup)
    (hok : notices_ok s ins) :
    (run s log ins).1.active_processes = live_count (run s log ins).1.pr_list ∧
    (step t Input.alarm).1.active_processes = t.active_processes ∧
    ((run s log ins).1.active_processes = 0 ↔
      ∀ p ∈ (run s log ins).1.pr_list, p.status = DEAD) ∧
    (loop_exits (run s log ins).1 = true ↔
      ∀ p ∈ (run s log ins).1.pr_list, p.status = DEAD) := by
  have h0 : ActiveInv s := by
    refine ⟨?_, hnd, fun p hp => ?_⟩
    · rw [hact]
      unfold cl_size live_count
      congr 1
      symm
      rw [List.countP_eq_length]
      intro p hp
      rcases hlive p hp with h | h <;> simp [h] <;> decide
    · rcases hlive p hp with h | h
      · exact Or.inl h
      · exact Or.inr (Or.inl h)
  obtain ⟨hc, _, _⟩ := run_ActiveInv ins s log h0 hok
  refine ⟨hc, rfl, ?_, ?_⟩
  · rw [hc]; exact live_count_eq_zero _
  · rw [← live_count_eq_zero, ← hc]
    unfold loop_exits
    have hge : 0 ≤ (run s log ins).1.active_processes := by
      rw [hc]; unfold live_count; exact Int.natCast_nonneg _
    simp only [gt_iff_lt, Bool.not_eq_true', decide_eq_false_iff_not, not_lt]
    omega

/-- C20 at the sample launch state: after the second worker is started and both
terminations are noticed, both entries are still queued, DEAD, and the count is 0. -/
theorem active_count_invariant_witness :
    notices_ok sample_launch [Input.alarm, Input.notice 12, Input.notice 11] ∧
    (run sample_launch [] [Input.alarm, Input.notice 12, Input.notice 11]).1.active_processes
      = live_count
          (run sample_launch [] [Input.alarm, Input.notice 12, Input.notice 11]).1.pr_list ∧
    (run sample_launch [] [Input.alarm, Input.notice 12, Input.notice 11]).1.active_processes
      = 0 ∧
    (run sample_launch [] [Input.alarm, Input.notice 12, Input.notice 11]).1.pr_list.length
      = 2 :=
  have hok : notices_ok sample_launch [Input.alarm, Input.notice 12, Input.notice 11] :=
    ⟨⟨⟨⟨["b"], 12, 17, 2, 2, 0, 0, 0, 0⟩, by decide, rfl, by decide⟩, trivial⟩,
     ⟨⟨⟨["a"], 11, 16, 2, 2, 0, 0, 0, 0⟩, by decide, rfl, by decide⟩, trivial⟩, trivial⟩
  ⟨hok,
   (active_count_invariant sample_launch [] _ sample_launch rfl (by decide) (by decide) hok).1,
   by decide, by decide⟩

/-! ## The expiry step of the timer handler, described on the queue -/

/-- On entries with a status of process.h the loop of the timer handler drops the
longest DEAD prefix and starts or resumes what follows. -/
theorem reap_loop_spec (q : List Process) (hv : ∀ p ∈ q, valid_status p) :
    (reap_loop q).1 = resumed (q.dropWhile is_dead) ∧
    (reap_loop q).2.filterMap Event.sent = resume_signal (q.dropWhile is_dead) := by
  induction q with
  | nil => exact ⟨rfl, rfl⟩
  | cons p rest ih =>
    have ih1 := ih (fun x hx => hv x (List.mem_cons_of_mem _ hx))
    rcases hv p (List.mem_cons_self _ _) with hw | ha | hd
    · have hnd : is_dead p = false := by
        unfold is_dead; rw [hw]; decide
      rw [reap_loop_waiting p rest hw, List.dropWhile_cons_of_neg (by simp [hnd])]
      refine ⟨rfl, ?_⟩
      simp [resume_signal, Event.sent, pr_pid, pr_wake, hw]
    · have hnd : is_dead p = false := by
        unfold is_dead; rw [ha]; decide
      have hnw : p.status ≠ WAITING := by rw [ha]; decide
      rw [reap_loop_alive p rest ha, List.dropWhile_cons_of_neg (by simp [hnd])]
      refine ⟨?_, ?_⟩
      · show p :: rest = pr_wake p :: rest
        have : pr_wake p = p := by
          cases p; simp only [pr_wake] at *; simp [ha]
        rw [this]
      · simp [resume_signal, Event.sent, pr_pid, hnw]
    · have hdd : is_dead p = true := by
        unfold is_dead; simp [hd]
      have hnw : p.status ≠ WAITING := by rw [hd]; decide
      have hna : p.status ≠ ALIVE := by rw [hd]; decide
      rw [reap_loop_other p rest hnw hna, List.dropWhile_cons_of_pos hdd]
      exact ⟨ih1.1, by simpa [Event.sent] using ih1.2⟩

theorem is_dead_refilled (h : Process) : is_dead (refilled h) = is_dead h := by
  unfold refilled is_dead
  split_ifs <;> rfl

theorem pr_pid_refilled (h : Process) : pr_pid (refilled h) = pr_pid h := by
  unfold refilled
  split_ifs <;> rfl

theorem map_pid_resumed (q : List Process) : (resumed q).map pr_pid = q.map pr_pid := by
  cases q <;> rfl

theorem dropWhile_snoc_pid (rest : List Process) (a b : Process)
    (hd : is_dead a = is_dead b) (hp : pr_pid a = pr_pid b) :
    ((rest ++ [a]).dropWhile is_dead).map pr_pid
      = ((rest ++ [b]).dropWhile is_dead).map pr_pid := by
  induction rest with
  | nil =>
    by_cases hb : is_dead b = true
    · rw [List.nil_append, List.nil_append, List.dropWhile_cons_of_pos (by rw [hd]; exact hb),
        List.dropWhile_cons_of_pos hb]
    · rw [List.nil_append, List.nil_append, List.dropWhile_cons_of_neg (by rw [hd]; exact hb),
        List.dropWhile_cons_of_neg hb]
      simp [hp]
  | cons x xs ih =>
    by_cases hx : is_dead x = true
    · rw [List.cons_append, List.cons_append, List.dropWhile_cons_of_pos hx,
        List.dropWhile_cons_of_pos hx, ih]
    · rw [List.cons_append, List.cons_append, List.dropWhile_cons_of_neg hx,
        List.dropWhile_cons_of_neg hx]
      simp [hp]

/-- C30: when the head `h` gives up the processor (ALIVE with one tick left, or not
ALIVE), one timer-handler call leaves the rotated queue `rest ++ [h]` (an ALIVE `h`
with its counter refilled) without its longest DEAD prefix and with the new head
ALIVE; it sends SIGSTOP to `h` exactly when `h` was ALIVE, and then one notification
to the new head when there is one: SIGUSR1 to a WAITING head, SIGCONT to an ALIVE one.
On the empty queue the handler does nothing. -/
theorem timer_step_reaps_dead_prefix (h : Process) (rest : List Process)
    (hv : ∀ p ∈ h :: rest, valid_status p)
    (hc : (h.status = ALIVE ∧ h.ticks = 1) ∨ h.status ≠ ALIVE) :
    (sigalrm_handler (h :: rest)).1 = resumed ((rest ++ [refilled h]).dropWhile is_dead) ∧
    (sigalrm_handler (h :: rest)).2.filterMap Event.sent
      = (if h.status = ALIVE then [(h.pid, Signal.SIGSTOP)] else [])
        ++ resume_signal ((rest ++ [refilled h]).dropWhile is_dead) ∧
    (sigalrm_handler (h :: rest)).1.map pr_pid
      = ((rest ++ [h]).dropWhile is_dead).map pr_pid ∧
    (∀ x ∈ (sigalrm_handler (h :: rest)).1.head?, x.status = ALIVE) ∧
    sigalrm_handler [] = ([], []) := by
  have hvr : ∀ p ∈ rest ++ [refilled h], valid_status p := by
    intro p hp
    rcases List.mem_append.mp hp with hp | hp
    · exact hv p (List.mem_cons_of_mem _ hp)
    · rw [List.mem_singleton] at hp
      have h0 := hv h (List.mem_cons_self _ _)
      rw [hp]; unfold refilled
      split_ifs
      · exact h0
      · exact h0
  have hs := reap_loop_spec _ hvr
  have hq : (sigalrm_handler (h :: rest)).1 = resumed ((rest ++ [refilled h]).dropWhile is_dead) ∧
      (sigalrm_handler (h :: rest)).2.filterMap Event.sent
        = (if h.status = ALIVE then [(h.pid, Signal.SIGSTOP)] else [])
          ++ resume_signal ((rest ++ [refilled h]).dropWhile is_dead) := by
    rcases hc with ⟨ha, ht⟩ | hna
    · have hr : refilled h = { h with ticks := h.nticks } := by
        unfold refilled; rw [if_pos ha]
      rw [sigalrm_handler_expire h rest ha ht, ← hr]
      refine ⟨hs.1, ?_⟩
      rw [if_pos ha, List.filterMap_cons_some (by rw [Event.sent, pr_pid_refilled]), hs.2]
      rfl
    · have hr : refilled h = h := by
        unfold refilled; rw [if_neg hna]
      rw [hr] at hs ⊢
      rw [sigalrm_handler_not_alive (h :: rest) (by intro p hp; cases hp; exact hna)]
      have hrot : cl_rotate (h :: rest) = rest ++ [h] := rfl
      rw [hrot, if_neg hna]
      exact ⟨hs.1, by simpa using hs.2⟩
  refine ⟨hq.1, hq.2, ?_, ?_, rfl⟩
  · rw [hq.1, map_pid_resumed]
    exact dropWhile_snoc_pid rest _ _ (is_dead_refilled h) (pr_pid_refilled h)
  · rw [hq.1]
    intro x hx
    cases hdw : (rest ++ [refilled h]).dropWhile is_dead with
    | nil => rw [hdw] at hx; simp [resumed] at hx
    | cons y ys =>
      rw [hdw] at hx
      simp only [resumed, List.head?_cons, Option.mem_def, Option.some.injEq] at hx
      rw [← hx]; rfl

/-- C30 on a sample queue: the ALIVE head 31 on its last tick is stopped and goes to
the back with a full counter, the DEAD entry 32 is dropped, the WAITING entry 33 is
started. -/
theorem timer_step_reaps_dead_prefix_witness :
    (sigalrm_handler sample_expiry).1
      = [⟨["c"], 33, 17, 5, 5, 0, 0, 0, 0⟩, ⟨["a"], 31, 17, 5, 5, 0, 0, 0, 0⟩] ∧
    (sigalrm_handler sample_expiry).2.filterMap Event.sent
      = [(31, Signal.SIGSTOP), (33, Signal.SIGUSR1)] :=
  have h := timer_step_reaps_dead_prefix ⟨["a"], 31, 17, 1, 5, 0, 0, 0, 0⟩
    [⟨["b"], 32, 18, 5, 5, 0, 0, 0, 0⟩, ⟨["c"], 33, 16, 5, 5, 0, 0, 0, 0⟩]
    (by decide) (Or.inl ⟨rfl, rfl⟩)
  ⟨h.1.trans (by decide), h.2.1.trans (by decide)⟩

/-! ## The wake notifications of the termination handler -/

theorem kill_scan_mem (pid : Int) (q : List Process) (p : Process) (h : p ∈ kill_scan pid q) :
    p ∈ q ∨ ∃ e ∈ q, p = pr_kill e := by
  induction q with
  | nil => simp [kill_scan] at h
  | cons e rest ih =>
    simp only [kill_scan] at h
    split at h
    · rcases List.mem_cons.mp h with h | h
      · exact Or.inr ⟨e, List.mem_cons_self _ _, h⟩
      · exact Or.inl (List.mem_cons_of_mem _ h)
    · rcases List.mem_cons.mp h with h | h
      · exact Or.inl (h ▸ List.mem_cons_self _ _)
      · rcases ih h with h1 | ⟨x, hx, h1⟩
        · exact Or.inl (List.mem_cons_of_mem _ h1)
        · exact Or.inr ⟨x, List.mem_cons_of_mem _ hx, h1⟩

theorem sigchld_handler_pids (reaped : List (Int × Bool)) (s : Sched) :
    (sigchld_handler s reaped).1.pr_list.map pr_pid = s.pr_list.map pr_pid := by
  induction reaped generalizing s with
  | nil => rfl
  | cons r more ih =>
    obtain ⟨pid1, ended⟩ := r
    cases ended with
    | false => simpa [sigchld_handler] using ih s
    | true =>
      simp only [sigchld_handler, if_true]
      rw [ih, kill_process_eq]
      exact kill_scan_pids pid1 s.pr_list

theorem sigchld_handler_parent (reaped : List (Int × Bool)) (s : Sched) :
    (sigchld_handler s reaped).1.parent_pid = s.parent_pid := by
  induction reaped generalizing s with
  | nil => rfl
  | cons r more ih =>
    obtain ⟨pid1, ended⟩ := r
    cases ended with
    | false => simpa [sigchld_handler] using ih s
    | true =>
      simp only [sigchld_handler, if_true]
      rw [ih]

theorem cl_destroy_no_kill (q : List Process) : ∀ a ∈ cl_destroy q, Act.is_kill a = false := by
  induction q with
  | nil => intro a ha; cases ha
  | cons p rest ih =>
    intro a ha
    rcases List.mem_cons.mp ha with h | h
    · rw [h]; rfl
    · exact ih a h

theorem print_error_no_kill (pr_list : Option (List Process)) (msg : String) :
    ∀ a ∈ print_error pr_list msg, Act.is_kill a = false := by
  intro a ha
  unfold print_error at ha
  rcases List.mem_cons.mp ha with h | h
  · rw [h]; rfl
  · rcases List.mem_append.mp h with h | h
    · cases pr_list with
      | none => cases h
      | some q => exact cl_destroy_no_kill q a h
    · rw [List.mem_singleton] at h
      rw [h]; rfl

theorem fork_loop_no_kill (execvp_ok : List String → Bool) (fork : Nat → Int) (nticks : Int)
    (done : List Process) (j : Nat) (prs : List Process) :
    ∀ a ∈ (fork_loop execvp_ok fork nticks done j prs).acts, Act.is_kill a = false := by
  induction prs generalizing done j with
  | nil => intro a ha; cases ha
  | cons p rest ih =>
    intro a ha
    simp only [fork_loop] at ha
    split_ifs at ha with h0 hpos
    · simp only [child_branch] at ha
      split_ifs at ha
      · rw [List.mem_singleton] at ha
        rw [ha]; rfl
      · exact print_error_no_kill _ _ a ha
    · rcases List.mem_cons.mp ha with h | h
      · rw [h]; rfl
      · exact ih _ _ a h
    · exact print_error_no_kill _ _ a ha

/-- C21: the fork loop never calls `kill`, whatever `fork` returns: when the second
`fork` of a two-program workload fails after the first made child 101, the control
process only writes the message, frees the two entries and calls `_exit(0)`; child
101 gets no SIGKILL.  The path for a failing `setitimer` does send SIGKILL to every
queued child before it exits. -/
theorem fork_failure_sends_no_kill :
    (∀ execvp_ok fork nticks done j prs,
      ∀ a ∈ (fork_loop execvp_ok fork nticks done j prs).acts, Act.is_kill a = false) ∧
    fork_loop (fun _ => true) sample_forks 5 [] 0 sample_workload
      = { acts := [Act.fork 101,
                   Act.put (Out.str "ERROR: Previous call to fork() failed.\n"),
                   Act.free_pr ⟨["ls"], 101, 16, 5, 5, 0, 0, 0, 0⟩,
                   Act.free_pr ⟨["date"], 0, 16, 0, 0, 0, 0, 0, 0⟩,
                   Act.exit 0],
          next := none } ∧
    (∀ q : List Process, ∀ p ∈ q, Act.kill (pr_pid p) Signal.SIGKILL ∈ timer_failed q) := by
  refine ⟨fork_loop_no_kill, by decide, ?_⟩
  intro q
  induction q with
  | nil => intro p hp; cases hp
  | cons x rest ih =>
    intro p hp
    simp only [timer_failed]
    rcases List.mem_cons.mp hp with h | h
    · rw [h]; exact List.mem_cons_self _ _
    · exact List.mem_cons_of_mem _ (List.mem_cons_of_mem _ (ih p h))

theorem date_compare_neg_iff (d1 d2 : Date) : date_compare d1 d2 < 0 ↔ date_before d1 d2 := by
  unfold date_compare date_before
  split_ifs <;> omega

theorem date_compare_swap (d1 d2 : Date) : date_compare d2 d1 = - date_compare d1 d2 := by
  unfold date_compare
  split_ifs <;> omega

theorem date_compare_eq_zero_iff (d1 d2 : Date) : date_compare d1 d2 = 0 ↔ d1 = d2 := by
  obtain ⟨a1, b1, c1⟩ := d1
  obtain ⟨a2, b2, c2⟩ := d2
  simp only [date_compare, Date.mk.injEq]
  split_ifs <;> omega

/-- C27: `date_compare d1 d2` is negative, zero or positive exactly when `d1` is
earlier than, equal to or later than `d2` in the lexicographic order on (year, month,
day); swapping the arguments negates the result, so the signs are opposite; and the
order is transitive, strictly and weakly.  This holds for all field values, those
that `date_create` accepts (day 1..31, month 1..12, year 1..9999) included. -/
theorem date_compare_chronological (d1 d2 d3 : Date) :
    (date_compare d1 d2 < 0 ↔ date_before d1 d2) ∧
    (date_compare d1 d2 = 0 ↔ d1 = d2) ∧
    (date_compare d1 d2 > 0 ↔ date_before d2 d1) ∧
    date_compare d2 d1 = - date_compare d1 d2 ∧
    Int.sign (date_compare d2 d1) = - Int.sign (date_compare d1 d2) ∧
    (date_compare d1 d2 < 0 → date_compare d2 d3 < 0 → date_compare d1 d3 < 0) ∧
    (date_compare d1 d2 ≤ 0 → date_compare d2 d3 ≤ 0 → date_compare d1 d3 ≤ 0) ∧
    (∀ day month year d, date_create day month year = some d →
      d = ⟨day, month, year⟩ ∧ 1 ≤ day ∧ day ≤ 31 ∧ 1 ≤ month ∧ month ≤ 12 ∧
        1 ≤ year ∧ year ≤ 9999) := by
  refine ⟨date_compare_neg_iff d1 d2, date_compare_eq_zero_iff d1 d2, ?_,
    date_compare_swap d1 d2, ?_, ?_, ?_, ?_⟩
  · rw [← date_compare_neg_iff d2 d1, date_compare_swap d1 d2]
    omega
  · rw [date_compare_swap d1 d2, Int.sign_neg]
  · rw [date_compare_neg_iff, date_compare_neg_iff, date_compare_neg_iff]
    unfold date_before
    omega
  · intro h12 h23
    have e12 := date_compare_neg_iff d1 d2
    have e23 := date_compare_neg_iff d2 d3
    have e13 := date_compare_neg_iff d1 d3
    have z12 := date_compare_eq_zero_iff d1 d2
    have z23 := date_compare_eq_zero_iff d2 d3
    rcases lt_or_eq_of_le h12 with h | h
    · rcases lt_or_eq_of_le h23 with h2 | h2
      · have : date_before d1 d3 := by
          have a := e12.mp h
          have b := e23.mp h2
          unfold date_before at *
          omega
        exact le_of_lt (e13.mpr this)
      · rw [← z23.mp h2]; exact h12
    · rw [z12.mp h]; exact h23
  · intro day month year d h
    unfold date_create at h
    split_ifs at h with h1 h2 h3
    simp only [Option.some.injEq] at h
    exact ⟨h.symm, by omega, by omega, by omega, by omega, by omega, by omega⟩

/-! ## Compact numbers -/

theorem write_at_append (a r ws : List Char) (h : ws.length ≤ r.length) :
    write_at (a ++ r) a.length ws = a ++ ws ++ r.drop ws.length := by
  induction ws generalizing a r with
  | nil => simp [write_at]
  | cons c cs ih =>
    cases r with
    | nil => simp at h
    | cons x r1 =>
      have h1 : cs.length ≤ r1.length := by simpa using h
      have hset : (a ++ x :: r1).set a.length c = (a ++ [c]) ++ r1 := by
        simp
      have hlen : a.length + 1 = (a ++ [c]).length := by simp
      rw [write_at, hset, hlen, ih (a ++ [c]) r1 h1]
      simp

theorem write_at_length (buf ws : List Char) (i : Nat) :
    (write_at buf i ws).length = buf.length := by
  induction ws generalizing buf i with
  | nil => rfl
  | cons c cs ih => rw [write_at, ih, List.length_set]

theorem c_string_append_nul (a rest : List Char) (ha : ∀ c ∈ a, c ≠ NUL) :
    c_string (a ++ NUL :: rest) = a := by
  unfold c_string
  induction a with
  | nil => simp
  | cons x xs ih =>
    have hx : x ≠ NUL := ha x (List.mem_cons_self _ _)
    rw [List.cons_append, List.takeWhile_cons_of_pos (by simpa using hx),
      ih (fun c hc => ha c (List.mem_cons_of_mem _ hc))]

/-- Overwriting a C string from index `i` on with the characters `ws` and a NUL leaves
the first `i` characters followed by `ws`. -/
theorem c_string_write (s junk ws : List Char) (i : Nat) (hi : i + ws.length ≤ s.length)
    (hs : ∀ c ∈ s, c ≠ NUL) (hws : ∀ c ∈ ws, c ≠ NUL) :
    c_string (write_at (s ++ NUL :: junk) i (ws ++ [NUL])) = s.take i ++ ws := by
  have hsplit : s ++ NUL :: junk = s.take i ++ (s.drop i ++ NUL :: junk) := by
    rw [← List.append_assoc, List.take_append_drop]
  have hlen : (s.take i).length = i := by
    rw [List.length_take]; omega
  have hfit : (ws ++ [NUL]).length ≤ (s.drop i ++ NUL :: junk).length := by
    simp only [List.length_append, List.length_drop, List.length_cons, List.length_nil]
    omega
  have hw := write_at_append (s.take i) (s.drop i ++ NUL :: junk) (ws ++ [NUL]) hfit
  rw [hlen, ← hsplit] at hw
  rw [hw]
  have : s.take i ++ (ws ++ [NUL]) ++ List.drop (ws ++ [NUL]).length (s.drop i ++ NUL :: junk)
      = (s.take i ++ ws) ++ NUL :: List.drop (ws ++ [NUL]).length (s.drop i ++ NUL :: junk) := by
    simp
  rw [this]
  apply c_string_append_nul
  intro c hc
  rcases List.mem_append.mp hc with h | h
  · exact hs c (List.mem_of_mem_take h)
  · exact hws c h

theorem is_digit_ne_nul (c : Char) (h : is_digit c = true) : c ≠ NUL := by
  intro hc
  rw [hc] at h
  exact absurd h (by decide)

theorem decimal_value_foldl (s : List Char) (acc : Nat) :
    s.foldl (fun ans c => 10 * ans + (c.toNat - 48)) acc
      = acc * 10 ^ s.length + decimal_value s := by
  unfold decimal_value
  induction s generalizing acc with
  | nil => simp
  | cons c cs ih =>
    rw [List.foldl_cons, List.foldl_cons, ih, ih (10 * 0 + (c.toNat - 48)), List.length_cons,
      pow_succ]
    ring

theorem decimal_value_append (a d : List Char) :
    decimal_value (a ++ d) = decimal_value a * 10 ^ d.length + decimal_value d := by
  have h := decimal_value_foldl d (decimal_value a)
  unfold decimal_value at *
  rw [List.foldl_append, h]

theorem decimal_value_lt (d : List Char) (h : ∀ c ∈ d, is_digit c = true) :
    decimal_value d < 10 ^ d.length := by
  induction d using List.reverseRecOn with
  | nil => simp [decimal_value]
  | append_singleton xs x ih =>
    have hx : is_digit x = true := h x (by simp)
    have hx1 : x.toNat - 48 ≤ 9 := by
      unfold is_digit at hx
      simp only [decide_eq_true_eq] at hx
      omega
    have ih1 := ih (fun c hc => h c (by simp [hc]))
    rw [decimal_value_append, List.length_append, List.length_singleton, pow_succ]
    have : decimal_value [x] = x.toNat - 48 := by simp [decimal_value]
    rw [this, pow_zero, pow_succ]
    omega

/-- The first `s.length - m` digits of a decimal representation are the decimal
representation of the value divided by `10 ^ m`. -/
theorem IsDecimal_take (s : List Char) (n m : Nat) (h : IsDecimal s n) (hm : m < s.length)
    (hm0 : 0 < m) :
    IsDecimal (s.take (s.length - m)) (n / 10 ^ m) := by
  obtain ⟨hne, hdig, hlead, hval⟩ := h
  have hsplit : s = s.take (s.length - m) ++ s.drop (s.length - m) :=
    (List.take_append_drop _ _).symm
  have hdl : (s.drop (s.length - m)).length = m := by
    rw [List.length_drop]; omega
  refine ⟨?_, ?_, ?_, ?_⟩
  · intro h0
    have := congrArg List.length h0
    rw [List.length_take] at this
    simp at this
    omega
  · intro c hc
    exact hdig c (List.mem_of_mem_take hc)
  · intro h0
    have hh : s.head? = some '0' := by
      cases s with
      | nil => exact absurd rfl hne
      | cons x xs =>
        have : List.take (List.length (x :: xs) - m) (x :: xs)
            = x :: List.take (List.length (x :: xs) - m - 1) xs := by
          have : List.length (x :: xs) - m = (List.length (x :: xs) - m - 1) + 1 := by omega
          rw [this, List.take_succ_cons]
          simp
        rw [this] at h0
        simpa using h0
    have := hlead hh
    rw [this] at hm
    simp at hm
    omega
  · have hv := decimal_value_append (s.take (s.length - m)) (s.drop (s.length - m))
    rw [← hsplit, hdl, hval] at hv
    have hlt := decimal_value_lt (s.drop (s.length - m))
      (fun c hc => hdig c (List.mem_of_mem_drop hc))
    rw [hdl] at hlt
    rw [hv]
    have hpos : 0 < 10 ^ m := by positivity
    rw [Nat.add_comm, Nat.add_mul_div_right _ _ hpos, Nat.div_eq_of_lt hlt, Nat.zero_add]


theorem p1strlen_terminated (s junk : List Char) (hs : ∀ c ∈ s, c ≠ NUL) :
    p1strlen (s ++ NUL :: junk) = s.length := by
  unfold p1strlen
  rw [c_string_append_nul s junk hs]

/-- One suffix character and the terminator written over the tail of a C string. -/
theorem c_string_set_two (s junk : List Char) (i j : Nat) (w : Char) (hj : j = i + 1)
    (hi : i + 1 ≤ s.length) (hs : ∀ c ∈ s, c ≠ NUL) (hw : w ≠ NUL) :
    c_string (((s ++ NUL :: junk).set i w).set j NUL) = s.take i ++ [w] := by
  rw [hj]
  exact c_string_write s junk [w] i (by simpa using hi) hs (by simpa using hw)

/-- Three suffix characters and the terminator written over the tail of a C string. -/
theorem c_string_set_four (s junk : List Char) (i j1 j2 j3 : Nat) (w1 w2 w3 : Char)
    (h1 : j1 = i + 1) (h2 : j2 = i + 1 + 1) (h3 : j3 = i + 1 + 1 + 1)
    (hi : i + 3 ≤ s.length) (hs : ∀ c ∈ s, c ≠ NUL)
    (hw1 : w1 ≠ NUL) (hw2 : w2 ≠ NUL) (hw3 : w3 ≠ NUL) :
    c_string (((((s ++ NUL :: junk).set i w1).set j1 w2).set j2 w3).set j3 NUL)
      = s.take i ++ [w1, w2, w3] := by
  rw [h1, h2, h3]
  exact c_string_write s junk [w1, w2, w3] i (by simpa using hi) hs
    (by
      intro c hc
      simp only [List.mem_cons, List.mem_singleton, List.not_mem_nil, or_false] at hc
      rcases hc with h | h | h <;> rw [h] <;> assumption)

/-- C25: on a buffer that holds the decimal representation `s` (length `L`, no leading
zeros) of `n`, `compact_num` leaves the buffer as it is when `L <= 3`; otherwise the
buffer then holds the decimal representation of `n / 1000 ^ k` followed by the suffix
K, M, B, T, Q for `k = 1..5`, with `k = min 5 ((L - 1) / 3)`.  The buffer keeps its
length, for `L <= 18` the result has at most 4 characters, and `1000`, `1000000`,
`1000000000` become `1K`, `1M`, `1B`. -/
theorem compact_num_spec (s junk : List Char) (n : Nat) (h : IsDecimal s n) :
    (s.length ≤ 3 → compact_num (s ++ NUL :: junk) = s ++ NUL :: junk) ∧
    (4 ≤ s.length →
      c_string (compact_num (s ++ NUL :: junk))
        = s.take (s.length - 3 * min 5 ((s.length - 1) / 3))
          ++ [num_suffix (min 5 ((s.length - 1) / 3))] ∧
      IsDecimal (s.take (s.length - 3 * min 5 ((s.length - 1) / 3)))
        (n / 1000 ^ min 5 ((s.length - 1) / 3))) ∧
    (s.length ≤ 18 → (c_string (compact_num (s ++ NUL :: junk))).length ≤ 4) ∧
    (compact_num (s ++ NUL :: junk)).length = (s ++ NUL :: junk).length ∧
    c_string (compact_num ("1000".toList ++ NUL :: junk)) = "1K".toList ∧
    c_string (compact_num ("1000000".toList ++ NUL :: junk)) = "1M".toList ∧
    c_string (compact_num ("1000000000".toList ++ NUL :: junk)) = "1B".toList := by
  have hs : ∀ c ∈ s, c ≠ NUL := fun c hc => is_digit_ne_nul c (h.2.1 c hc)
  have hlen := p1strlen_terminated s junk hs
  have hsmall : s.length ≤ 3 → compact_num (s ++ NUL :: junk) = s ++ NUL :: junk := by
    intro hL
    unfold compact_num
    simp only [hlen]
    rw [if_neg (by omega), if_neg (by omega), if_neg (by omega), if_neg (by omega),
      if_neg (by omega)]
  have hbig : 4 ≤ s.length →
      c_string (compact_num (s ++ NUL :: junk))
        = s.take (s.length - 3 * min 5 ((s.length - 1) / 3))
          ++ [num_suffix (min 5 ((s.length - 1) / 3))] ∧
      IsDecimal (s.take (s.length - 3 * min 5 ((s.length - 1) / 3)))
        (n / 1000 ^ min 5 ((s.length - 1) / 3)) := by
    intro hL
    unfold compact_num
    simp only [hlen]
    by_cases h16 : s.length ≥ 16
    · have hk : min 5 ((s.length - 1) / 3) = 5 := by omega
      have hp : (1000 : Nat) ^ 5 = 10 ^ 15 := by norm_num
      rw [if_pos h16, hk, hp]
      exact ⟨c_string_set_two s junk _ _ _ (by omega) (by omega) hs (by decide),
        IsDecimal_take s n 15 h (by omega) (by omega)⟩
    by_cases h13 : s.length ≥ 13
    · have hk : min 5 ((s.length - 1) / 3) = 4 := by omega
      have hp : (1000 : Nat) ^ 4 = 10 ^ 12 := by norm_num
      rw [if_neg h16, if_pos h13, hk, hp]
      exact ⟨c_string_set_two s junk _ _ _ (by omega) (by omega) hs (by decide),
        IsDecimal_take s n 12 h (by omega) (by omega)⟩
    by_cases h10 : s.length ≥ 10
    · have hk : min 5 ((s.length - 1) / 3) = 3 := by omega
      have hp : (1000 : Nat) ^ 3 = 10 ^ 9 := by norm_num
      rw [if_neg h16, if_neg h13, if_pos h10, hk, hp]
      exact ⟨c_string_set_two s junk _ _ _ (by omega) (by omega) hs (by decide),
        IsDecimal_take s n 9 h (by omega) (by omega)⟩
    by_cases h7 : s.length ≥ 7
    · have hk : min 5 ((s.length - 1) / 3) = 2 := by omega
      have hp : (1000 : Nat) ^ 2 = 10 ^ 6 := by norm_num
      rw [if_neg h16, if_neg h13, if_neg h10, if_pos h7, hk, hp]
      exact ⟨c_string_set_two s junk _ _ _ (by omega) (by omega) hs (by decide),
        IsDecimal_take s n 6 h (by omega) (by omega)⟩
    · have hk : min 5 ((s.length - 1) / 3) = 1 := by omega
      have hp : (1000 : Nat) ^ 1 = 10 ^ 3 := by norm_num
      rw [if_neg h16, if_neg h13, if_neg h10, if_neg h7, if_pos hL, hk, hp]
      exact ⟨c_string_set_two s junk _ _ _ (by omega) (by omega) hs (by decide),
        IsDecimal_take s n 3 h (by omega) (by omega)⟩
  refine ⟨hsmall, hbig, ?_, ?_, ?_, ?_, ?_⟩
  · intro h18
    by_cases h4 : 4 ≤ s.length
    · rw [(hbig h4).1, List.length_append, List.length_take, List.length_singleton]
      omega
    · rw [hsmall (by omega), c_string_append_nul s junk hs]
      omega
  · unfold compact_num
    simp only [hlen]
    split_ifs <;> simp only [List.length_set]
  · exact c_string_set_two "1000".toList junk 1 2 _ rfl (by decide) (by decide) (by decide)
  · exact c_string_set_two "1000000".toList junk 1 2 _ rfl (by decide) (by decide) (by decide)
  · exact c_string_set_two "1000000000".toList junk 1 2 _ rfl (by decide) (by decide)
      (by decide)

/-- C25 for the digits of 1234567: the buffer then holds `1M`, and 1 is
`1234567 / 1000 ^ 2`. -/
theorem compact_num_spec_witness :
    IsDecimal "1234567".toList 1234567 ∧
    c_string (compact_num ("1234567".toList ++ [NUL])) = "1M".toList ∧
    IsDecimal "1".toList (1234567 / 1000 ^ 2) :=
  have h := (compact_num_spec "1234567".toList [] 1234567 (by decide)).2.1 (by decide)
  ⟨by decide, h.1.trans (by decide), h.2⟩

/-! ## The order of `strcmp` -/

theorem strcmp_self (a : List Char) : strcmp a a = 0 := by
  induction a with
  | nil => rfl
  | cons x xs ih => simp [strcmp, ih]

theorem strcmp_swap (a b : List Char) : strcmp b a = - strcmp a b := by
  induction a generalizing b with
  | nil => cases b <;> simp [strcmp]
  | cons x xs ih =>
    cases b with
    | nil => simp [strcmp]
    | cons y ys =>
      simp only [strcmp]
      split_ifs <;> first | omega | exact ih ys

theorem strcmp_trans (a b c : List Char) (h1 : strcmp a b < 0) (h2 : strcmp b c < 0) :
    strcmp a c < 0 := by
  induction a generalizing b c with
  | nil =>
    cases c with
    | nil => cases b <;> simp [strcmp] at h1 h2
    | cons z zs => simp [strcmp]
  | cons x xs ih =>
    cases b with
    | nil => simp [strcmp] at h1
    | cons y ys =>
      cases c with
      | nil => simp [strcmp] at h2
      | cons z zs =>
        simp only [strcmp] at h1 h2 ⊢
        split_ifs at h1 h2 ⊢ <;> first | omega | exact ih ys zs h1 h2

theorem strcmp_pos_iff (a b : List Char) : strcmp a b > 0 ↔ strcmp b a < 0 := by
  rw [strcmp_swap a b]; omega

theorem maximum_eq_max (a b : Int) : maximum a b = max a b := by
  unfold maximum
  split_ifs <;> omega

theorem height_ge (t : TLDNode) (h : Avl t) : -1 ≤ height t := by
  induction t with
  | null => simp [height]
  | mk l r tld ht c ihl ihr =>
    obtain ⟨hl, hr, hh, _, _⟩ := h
    have := ihl hl
    have := ihr hr
    simp only [height]
    rw [hh, maximum_eq_max]
    omega

/-! ## Rebalancing keeps the tree balanced -/

theorem height_mk (l r : TLDNode) (tld : List Char) (h c : Int) :
    height (TLDNode.mk l r tld h c) = h := rfl

theorem height_null : height TLDNode.null = -1 := rfl

/-- After an insertion into the left subtree that raised its height by at most one,
the rebalancing block and the height update give a balanced tree with the same
entries, whose height is the old one or one more. -/
theorem rebalance_left_avl (k : List Char) (l1 r : TLDNode) (tld : List Char) (h c hl : Int)
    (hA1 : Avl l1) (hAr : Avl r) (hb1 : hl - height r ≤ 1) (hb2 : height r - hl ≤ 1)
    (hh : height l1 = hl ∨ (height l1 = hl + 1 ∧ Grew k l1)) (hk : strcmp k tld < 0) :
    ∃ t, (match rebalance_left k (TLDNode.mk l1 r tld h c) with
          | none => none
          | some other => set_height other) = some t ∧
      Avl t ∧
      (height t = maximum hl (height r) + 1 ∨
        (height t = maximum hl (height r) + 1 + 1 ∧ Grew k t)) ∧
      entries t = entries l1 ++ (tld, c) :: entries r := by
  have hr1 := height_ge r hAr
  simp only [rebalance_left]
  by_cases hd : height l1 - height r = 2
  · rw [if_pos hd]
    rcases hh with hh | ⟨hg, hG⟩
    · omega
    cases l1 with
    | null => exact absurd hG (by simp [Grew])
    | mk a b k1 h1 c1 =>
      obtain ⟨hAa, hAb, hh1, hab1, hab2⟩ := hA1
      have ha1 := height_ge a hAa
      simp only [height_mk, height_null] at hd hg
      simp only [node_tld]
      rw [maximum_eq_max] at hh1
      rcases hG with ⟨hlt, hG⟩ | ⟨hgt, hG⟩ | ⟨heq, hG⟩
      · rw [if_pos hlt]
        simp only [rotateWithLeftChild, set_height]
        refine ⟨_, rfl, ?_, ?_, ?_⟩
        · simp only [Avl, height_mk, maximum_eq_max]
          refine ⟨hAa, ⟨hAb, hAr, trivial, ?_, ?_⟩, trivial, ?_, ?_⟩ <;> omega
        · left
          simp only [height_mk, maximum_eq_max]
          omega
        · simp [entries]
      · have hnl : ¬ strcmp k k1 < 0 := by omega
        rw [if_neg hnl]
        cases b with
        | null => simp only [height_mk, height_null] at hG; omega
        | mk bl br kb hb cb =>
          obtain ⟨hAbl, hAbr, hhb, hbb1, hbb2⟩ := hAb
          simp only [height_mk, height_null] at hG hh1 hab1 hab2
          rw [maximum_eq_max] at hhb
          simp only [doubleWithLeftChild, rotateWithRightChild, rotateWithLeftChild, set_height]
          refine ⟨_, rfl, ?_, ?_, ?_⟩
          · simp only [Avl, height_mk, maximum_eq_max]
            refine ⟨⟨hAa, hAbl, trivial, ?_, ?_⟩, ⟨hAbr, hAr, trivial, ?_, ?_⟩,
              trivial, ?_, ?_⟩ <;> omega
          · left
            simp only [height_mk, maximum_eq_max]
            omega
          · simp [entries]
      · omega
  · rw [if_neg hd]
    simp only [set_height]
    refine ⟨_, rfl, ?_, ?_, rfl⟩
    · simp only [Avl]
      refine ⟨hA1, hAr, trivial, ?_, ?_⟩ <;> omega
    · simp only [height_mk, maximum_eq_max]
      rcases hh with hh | ⟨hg, hG⟩
      · left; omega
      · by_cases he : hl = height r
        · right
          refine ⟨by omega, ?_⟩
          simp only [Grew]
          left
          exact ⟨hk, by omega⟩
        · left; omega

/-- The mirror image of `rebalance_left_avl` for an insertion into the right
subtree. -/
theorem rebalance_right_avl (k : List Char) (l r1 : TLDNode) (tld : List Char) (h c hr : Int)
    (hAl : Avl l) (hA1 : Avl r1) (hb1 : height l - hr ≤ 1) (hb2 : hr - height l ≤ 1)
    (hh : height r1 = hr ∨ (height r1 = hr + 1 ∧ Grew k r1)) (hk : strcmp k tld > 0) :
    ∃ t, (match rebalance_right k (TLDNode.mk l r1 tld h c) with
          | none => none
          | some other => set_height other) = some t ∧
      Avl t ∧
      (height t = maximum (height l) hr + 1 ∨
        (height t = maximum (height l) hr + 1 + 1 ∧ Grew k t)) ∧
      entries t = entries l ++ (tld, c) :: entries r1 := by
  have hl1 := height_ge l hAl
  simp only [rebalance_right]
  by_cases hd : height r1 - height l = 2
  · rw [if_pos hd]
    rcases hh with hh | ⟨hg, hG⟩
    · omega
    cases r1 with
    | null => exact absurd hG (by simp [Grew])
    | mk a b k1 h1 c1 =>
      obtain ⟨hAa, hAb, hh1, hab1, hab2⟩ := hA1
      have hb0 := height_ge b hAb
      simp only [height_mk, height_null] at hd hg
      simp only [node_tld]
      rw [maximum_eq_max] at hh1
      rcases hG with ⟨hlt, hG⟩ | ⟨hgt, hG⟩ | ⟨heq, hG⟩
      · have hnl : ¬ strcmp k k1 > 0 := by omega
        rw [if_neg hnl]
        cases a with
        | null => simp only [height_mk, height_null] at hG; omega
        | mk al ar ka ha ca =>
          obtain ⟨hAal, hAar, hha, haa1, haa2⟩ := hAa
          simp only [height_mk, height_null] at hG hh1 hab1 hab2
          rw [maximum_eq_max] at hha
          simp only [doubleWithRightChild, rotateWithRightChild, rotateWithLeftChild, set_height]
          refine ⟨_, rfl, ?_, ?_, ?_⟩
          · simp only [Avl, height_mk, maximum_eq_max]
            refine ⟨⟨hAl, hAal, trivial, ?_, ?_⟩, ⟨hAar, hAb, trivial, ?_, ?_⟩,
              trivial, ?_, ?_⟩ <;> omega
          · left
            simp only [height_mk, maximum_eq_max]
            omega
          · simp [entries]
      · rw [if_pos hgt]
        simp only [rotateWithRightChild, set_height]
        refine ⟨_, rfl, ?_, ?_, ?_⟩
        · simp only [Avl, height_mk, maximum_eq_max]
          refine ⟨⟨hAl, hAa, trivial, ?_, ?_⟩, hAb, trivial, ?_, ?_⟩ <;> omega
        · left
          simp only [height_mk, maximum_eq_max]
          omega
        · simp [entries]
      · omega
  · rw [if_neg hd]
    simp only [set_height]
    refine ⟨_, rfl, ?_, ?_, rfl⟩
    · simp only [Avl]
      refine ⟨hAl, hA1, trivial, ?_, ?_⟩ <;> omega
    · simp only [height_mk, maximum_eq_max]
      rcases hh with hh | ⟨hg, hG⟩
      · left; omega
      · by_cases he : hr = height l
        · right
          refine ⟨by omega, ?_⟩
          simp only [Grew]
          right; left
          exact ⟨hk, by omega⟩
        · left; omega

theorem node_tld_create (k : List Char) : node_tld (tldnode_create k) = some k := rfl

theorem Bst_mk (l r : TLDNode) (tld : List Char) (h c : Int)
    (hB : Bst (TLDNode.mk l r tld h c)) :
    Bst l ∧ Bst r ∧ (∀ x ∈ entries l, strcmp x.1 tld < 0) ∧
      (∀ y ∈ entries r, strcmp tld y.1 < 0) := by
  unfold Bst at hB ⊢
  simp only [entries] at hB
  rw [List.pairwise_append, List.pairwise_cons] at hB
  obtain ⟨h1, ⟨h2, h3⟩, h4⟩ := hB
  exact ⟨h1, h3, fun x hx => h4 x hx (tld, c) (List.mem_cons_self _ _), fun y hy => h2 y hy⟩

/-- Inserting a tld that the search does not find: `tldlist_insert` returns a tree (no
NULL pointer is dereferenced) that is balanced, is at most one higher, and whose
entries are the old ones with `(k, 1)` put at its place in the order. -/
theorem tldlist_insert_spec (k : List Char) (t : TLDNode) (hA : Avl t) (hB : Bst t)
    (hs : tldlist_search k t = TLDNode.null) :
    ∃ t1, tldlist_insert (tldnode_create k) t = some t1 ∧ Avl t1 ∧
      (height t1 = height t ∨ (height t1 = height t + 1 ∧ Grew k t1)) ∧
      ∃ pre post, entries t = pre ++ post ∧ entries t1 = pre ++ (k, 1) :: post ∧
        (∀ x ∈ pre, strcmp x.1 k < 0) ∧ (∀ x ∈ post, strcmp k x.1 < 0) := by
  induction t with
  | null =>
    refine ⟨TLDNode.mk TLDNode.null TLDNode.null k 0 1, rfl, ?_, ?_, [], [], rfl, rfl, ?_, ?_⟩
    · simp only [Avl, height_null, maximum_eq_max]
      refine ⟨trivial, trivial, ?_, ?_, ?_⟩ <;> omega
    · right
      refine ⟨rfl, ?_⟩
      simp only [Grew]
      right; right
      exact ⟨strcmp_self k, trivial⟩
    · intro x hx; cases hx
    · intro x hx; cases hx
  | mk l r tld h c ihl ihr =>
    obtain ⟨hAl, hAr, hh, hb1, hb2⟩ := hA
    obtain ⟨hBl, hBr, hlo, hhi⟩ := Bst_mk l r tld h c hB
    simp only [tldlist_insert, node_tld_create]
    simp only [tldlist_search] at hs
    by_cases hlt : strcmp k tld < 0
    · rw [if_pos hlt] at hs
      obtain ⟨l1, hl1, hA1, hh1, pre, post, he, he1, hpre, hpost⟩ := ihl hAl hBl hs
      rw [if_pos hlt, hl1]
      obtain ⟨t1, ht1, hAt, hht, het⟩ :=
        rebalance_left_avl k l1 r tld h c (height l) hA1 hAr hb1 hb2 hh1 hlt
      refine ⟨t1, ht1, hAt, ?_, pre, post ++ (tld, c) :: entries r, ?_, ?_, hpre, ?_⟩
      · rw [height_mk, hh]; exact hht
      · simp only [entries, he, List.append_assoc]
      · rw [het, he1]; simp
      · intro x hx
        rcases List.mem_append.mp hx with hx | hx
        · exact hpost x hx
        · rcases List.mem_cons.mp hx with hx | hx
          · rw [hx]; exact hlt
          · exact strcmp_trans _ _ _ hlt (hhi x hx)
    · rw [if_neg hlt] at hs
      by_cases hgt : strcmp k tld > 0
      · rw [if_pos hgt] at hs
        obtain ⟨r1, hr1, hA1, hh1, pre, post, he, he1, hpre, hpost⟩ := ihr hAr hBr hs
        rw [if_neg hlt, if_pos hgt, hr1]
        obtain ⟨t1, ht1, hAt, hht, het⟩ :=
          rebalance_right_avl k l r1 tld h c (height r) hAl hA1 hb1 hb2 hh1 hgt
        have htk : strcmp tld k < 0 := (strcmp_pos_iff k tld).mp hgt
        refine ⟨t1, ht1, hAt, ?_, entries l ++ (tld, c) :: pre, post, ?_, ?_, ?_, hpost⟩
        · rw [height_mk, hh]; exact hht
        · simp only [entries, he, List.append_assoc, List.cons_append]
        · rw [het, he1]; simp
        · intro x hx
          rcases List.mem_append.mp hx with hx | hx
          · exact strcmp_trans _ _ _ (hlo x hx) htk
          · rcases List.mem_cons.mp hx with hx | hx
            · rw [hx]; exact htk
            · exact hpre x hx
      · rw [if_neg hgt] at hs
        cases hs

/-! ## Searching and counting -/

theorem char_eq_of_toNat (a b : Char) (h : a.toNat = b.toNat) : a = b := by
  apply Char.ext
  apply UInt32.ext
  exact h

theorem strcmp_eq_zero (a b : List Char) (h : strcmp a b = 0) : a = b := by
  induction a generalizing b with
  | nil => cases b <;> simp [strcmp] at h ⊢
  | cons x xs ih =>
    cases b with
    | nil => simp [strcmp] at h
    | cons y ys =>
      simp only [strcmp] at h
      split_ifs at h with h1 h2
      · exact absurd h (by decide)
      · rw [ih ys h, char_eq_of_toNat x y (by omega)]

/-- A node that the search returns holds the tld that was searched. -/
theorem tldlist_search_name (k : List Char) (t : TLDNode)
    (hne : tldlist_search k t ≠ TLDNode.null) :
    tldnode_tldname (tldlist_search k t) = some k := by
  induction t with
  | null => exact absurd rfl hne
  | mk l r x h c ihl ihr =>
    simp only [tldlist_search] at hne ⊢
    split_ifs at hne ⊢ with h1 h2
    · exact ihl hne
    · exact ihr hne
    · rw [strcmp_eq_zero k x (by omega)]; rfl

/-- In a search tree the search for a stored tld reaches its node. -/
theorem tldlist_search_of_mem (k : List Char) (n : Int) (t : TLDNode) (hB : Bst t)
    (hm : (k, n) ∈ entries t) :
    tldnode_tldname (tldlist_search k t) = some k ∧ tldnode_count (tldlist_search k t) = n := by
  induction t with
  | null => cases hm
  | mk l r tld h c ihl ihr =>
    obtain ⟨hBl, hBr, hlo, hhi⟩ := Bst_mk l r tld h c hB
    simp only [entries] at hm
    simp only [tldlist_search]
    rcases List.mem_append.mp hm with hm | hm
    · have hlt : strcmp k tld < 0 := hlo (k, n) hm
      rw [if_pos hlt]
      exact ihl hBl hm
    · rcases List.mem_cons.mp hm with hm | hm
      · have h1 : k = tld := congrArg Prod.fst hm
        have h2 : n = c := congrArg Prod.snd hm
        have h0 : strcmp k tld = 0 := by rw [h1]; exact strcmp_self tld
        rw [if_neg (by omega), if_neg (by omega), h1, h2]
        exact ⟨rfl, rfl⟩
      · have hlt : strcmp tld k < 0 := hhi (k, n) hm
        have hgt : strcmp k tld > 0 := (strcmp_pos_iff k tld).mpr hlt
        rw [if_neg (by omega), if_pos hgt]
        exact ihr hBr hm

theorem height_incr_count (k : List Char) (t : TLDNode) : height (incr_count k t) = height t := by
  cases t with
  | null => rfl
  | mk l r tld h c =>
    simp only [incr_count]
    split_ifs <;> rfl

theorem Avl_incr_count (k : List Char) (t : TLDNode) (hA : Avl t) : Avl (incr_count k t) := by
  induction t with
  | null => exact hA
  | mk l r tld h c ihl ihr =>
    obtain ⟨hAl, hAr, hh, hb1, hb2⟩ := hA
    simp only [incr_count]
    split_ifs
    · simp only [Avl, height_incr_count]
      exact ⟨ihl hAl, hAr, hh, hb1, hb2⟩
    · simp only [Avl, height_incr_count]
      exact ⟨hAl, ihr hAr, hh, hb1, hb2⟩
    · exact ⟨hAl, hAr, hh, hb1, hb2⟩

theorem entries_incr_count (k : List Char) (t : TLDNode) :
    (entries (incr_count k t)).map Prod.fst = (entries t).map Prod.fst := by
  induction t with
  | null => rfl
  | mk l r tld h c ihl ihr =>
    simp only [incr_count]
    split_ifs
    · simp only [entries, List.map_append, List.map_cons, ihl]
    · simp only [entries, List.map_append, List.map_cons, ihr]
    · simp only [entries, List.map_append, List.map_cons]

theorem Bst_iff (t : TLDNode) :
    Bst t ↔ ((entries t).map Prod.fst).Pairwise (fun a b => strcmp a b < 0) := by
  unfold Bst
  rw [List.pairwise_map]

theorem Bst_incr_count (k : List Char) (t : TLDNode) (hB : Bst t) : Bst (incr_count k t) := by
  rw [Bst_iff, entries_incr_count, ← Bst_iff]
  exact hB

/-- The statement `res->count++` raises by one the count that a search for the same
tld then finds, when the search finds a node. -/
theorem tldlist_search_incr_count (k : List Char) (t : TLDNode)
    (hs : tldlist_search k t ≠ TLDNode.null) :
    tldnode_count (tldlist_search k (incr_count k t)) = tldnode_count (tldlist_search k t) + 1 ∧
    tldnode_tldname (tldlist_search k (incr_count k t)) = tldnode_tldname (tldlist_search k t) := by
  induction t with
  | null => exact absurd rfl hs
  | mk l r tld h c ihl ihr =>
    simp only [tldlist_search] at hs
    simp only [incr_count]
    by_cases hlt : strcmp k tld < 0
    · rw [if_pos hlt] at hs
      simp only [if_pos hlt, tldlist_search]
      exact ihl hs
    · rw [if_neg hlt] at hs
      by_cases hgt : strcmp k tld > 0
      · rw [if_pos hgt] at hs
        simp only [if_neg hlt, if_pos hgt, tldlist_search]
        exact ihr hs
      · simp only [if_neg hlt, if_neg hgt, tldlist_search]
        exact ⟨rfl, rfl⟩

theorem Bst_insert (k : List Char) (pre post : List (List Char × Int))
    (h : (pre ++ post).Pairwise (fun a b => strcmp a.1 b.1 < 0))
    (hpre : ∀ x ∈ pre, strcmp x.1 k < 0) (hpost : ∀ x ∈ post, strcmp k x.1 < 0) (n : Int) :
    (pre ++ (k, n) :: post).Pairwise (fun a b => strcmp a.1 b.1 < 0) := by
  rw [List.pairwise_append] at h ⊢
  obtain ⟨h1, h2, h3⟩ := h
  refine ⟨h1, List.pairwise_cons.mpr ⟨fun x hx => hpost x hx, h2⟩, ?_⟩
  intro a ha b hb
  rcases List.mem_cons.mp hb with hb | hb
  · rw [hb]; exact hpre a ha
  · exact h3 a ha b hb

/-- The list that `tldlist_create` makes satisfies the invariant. -/
theorem ListInv_create (b e : Date) (tld : TLDList) (h : tldlist_create b e = some tld) :
    ListInv tld ∧ tld.count = 0 ∧ tld.root = TLDNode.null ∧ tld.begin = b ∧ tld.end_ = e := by
  unfold tldlist_create at h
  split_ifs at h
  simp only [Option.some.injEq] at h
  rw [← h]
  exact ⟨⟨trivial, List.Pairwise.nil, rfl⟩, rfl, rfl, rfl, rfl⟩

/-- What one call of `tldlist_add` does to a list that satisfies the invariant, for a
hostname whose tld fits the buffer. -/
theorem tldlist_add_spec (tld : TLDList) (hostname : List Char) (d : Date) (buffer : List Char)
    (hinv : ListInv tld) (hfit : hostname_to_tld hostname 256 = some buffer) :
    ∃ r tld1, tldlist_add tld hostname d = some (r, tld1) ∧ ListInv tld1 ∧
      tld1.begin = tld.begin ∧ tld1.end_ = tld.end_ ∧
      (r = 1 ↔ (0 ≤ date_compare d tld.begin ∧ date_compare d tld.end_ ≤ 0)) ∧
      (r = 1 → tld1.count = tld.count + 1 ∧
        tldnode_tldname (tldlist_search buffer tld1.root) = some buffer ∧
        tldnode_count (tldlist_search buffer tld1.root)
          = tldnode_count (tldlist_search buffer tld.root) + 1) ∧
      (r ≠ 1 → r = 0 ∧ tld1 = tld) := by
  obtain ⟨hA, hB, hsz⟩ := hinv
  unfold tldlist_add
  by_cases hout : date_compare d tld.begin < 0 ∨ date_compare d tld.end_ > 0
  · rw [if_pos hout]
    refine ⟨0, tld, rfl, ⟨hA, hB, hsz⟩, rfl, rfl, ?_, ?_, fun _ => ⟨rfl, rfl⟩⟩
    · constructor
      · intro h; exact absurd h (by decide)
      · intro h; omega
    · intro h; exact absurd h (by decide)
  · simp only [if_neg hout, hfit]
    have hin : 0 ≤ date_compare d tld.begin ∧ date_compare d tld.end_ ≤ 0 := by omega
    cases hs : tldlist_search buffer tld.root with
    | null =>
      obtain ⟨t1, ht1, hA1, _, pre, post, he, he1, hpre, hpost⟩ :=
        tldlist_insert_spec buffer tld.root hA hB hs
      simp only [hs, ht1]
      have hB1 : Bst t1 := by
        unfold Bst at hB ⊢
        rw [he1]
        rw [he] at hB
        exact Bst_insert buffer pre post hB hpre hpost 1
      have hfound := tldlist_search_of_mem buffer 1 t1 hB1 (by rw [he1]; simp)
      refine ⟨1, _, rfl, ⟨hA1, hB1, ?_⟩, rfl, rfl, ?_, ?_, fun h => absurd rfl h⟩
      · show tld.size + 1 = ((entries t1).length : Int)
        rw [hsz, he1, he]
        simp only [List.length_append, List.length_cons]
        push_cast
        ring
      · exact ⟨fun _ => hin, fun _ => rfl⟩
      · intro _
        refine ⟨rfl, hfound.1, ?_⟩
        show tldnode_count (tldlist_search buffer t1) = tldnode_count TLDNode.null + 1
        rw [hfound.2]; rfl
    | mk fl fr ft fh fc =>
      have hne : tldlist_search buffer tld.root ≠ TLDNode.null := by rw [hs]; simp
      simp only [hs]
      have hinc := tldlist_search_incr_count buffer tld.root hne
      have hname := tldlist_search_name buffer tld.root hne
      refine ⟨1, _, rfl, ⟨Avl_incr_count _ _ hA, Bst_incr_count _ _ hB, ?_⟩, rfl, rfl, ?_, ?_,
        fun h => absurd rfl h⟩
      · show tld.size = ((entries (incr_count buffer tld.root)).length : Int)
        have := congrArg List.length (entries_incr_count buffer tld.root)
        simp only [List.length_map] at this
        rw [this]; exact hsz
      · exact ⟨fun _ => hin, fun _ => rfl⟩
      · intro _
        refine ⟨rfl, ?_, ?_⟩
        · show tldnode_tldname (tldlist_search buffer (incr_count buffer tld.root)) = _
          rw [hinc.2]; exact hname
        · show tldnode_count (tldlist_search buffer (incr_count buffer tld.root)) = _
          rw [hinc.1, hs]

/-! ## Lists made by `tldlist_create` and `tldlist_add`, and their iterator -/

/-- Every sequence of `tldlist_add` calls whose tlds fit the buffer runs without a
NULL dereference and keeps the invariant. -/
theorem ListInv_add_all (adds : List (List Char × Date)) (tld : TLDList) (hinv : ListInv tld)
    (hfit : ∀ a ∈ adds, (hostname_to_tld a.1 256).isSome = true) :
    ∃ tld1, tldlist_add_all tld adds = some tld1 ∧ ListInv tld1 ∧
      tld1.begin = tld.begin ∧ tld1.end_ = tld.end_ := by
  induction adds generalizing tld with
  | nil => exact ⟨tld, rfl, hinv, rfl, rfl⟩
  | cons a more ih =>
    obtain ⟨hostname, d⟩ := a
    obtain ⟨buffer, hb⟩ :=
      Option.isSome_iff_exists.mp (hfit (hostname, d) (List.mem_cons_self _ _))
    obtain ⟨r, t1, hadd, hinv1, hbeg, hend, _⟩ := tldlist_add_spec tld hostname d buffer hinv hb
    obtain ⟨t2, h2, hinv2, hbeg2, hend2⟩ :=
      ih t1 hinv1 (fun x hx => hfit x (List.mem_cons_of_mem _ hx))
    refine ⟨t2, ?_, hinv2, hbeg2.trans hbeg, hend2.trans hend⟩
    simp only [tldlist_add_all, hadd]
    exact h2

theorem inorder_length (t : TLDNode) : (inorder_traversal t).length = (entries t).length := by
  induction t with
  | null => rfl
  | mk l r tld h c ihl ihr =>
    simp only [inorder_traversal, entries, List.length_append, List.length_cons, ihl, ihr]

theorem mem_inorder (t n : TLDNode) (hn : n ∈ inorder_traversal t) :
    ∃ x c, tldnode_tldname n = some x ∧ tldnode_count n = c ∧ (x, c) ∈ entries t := by
  induction t with
  | null => cases hn
  | mk l r tld h c ihl ihr =>
    simp only [inorder_traversal] at hn
    simp only [entries]
    rcases List.mem_append.mp hn with hn | hn
    · obtain ⟨x, c1, h1, h2, h3⟩ := ihl hn
      exact ⟨x, c1, h1, h2, List.mem_append_left _ h3⟩
    · rcases List.mem_cons.mp hn with hn | hn
      · rw [hn]
        exact ⟨tld, c, rfl, rfl, List.mem_append_right _ (List.mem_cons_self _ _)⟩
      · obtain ⟨x, c1, h1, h2, h3⟩ := ihr hn
        exact ⟨x, c1, h1, h2, List.mem_append_right _ (List.mem_cons_of_mem _ h3)⟩

/-- In a search tree the in-order sequence of the nodes strictly ascends in the order
of `strcmp`. -/
theorem inorder_ascending (t : TLDNode) (hB : Bst t) :
    (inorder_traversal t).Pairwise (fun a b =>
      ∃ x y, tldnode_tldname a = some x ∧ tldnode_tldname b = some y ∧ strcmp x y < 0) := by
  induction t with
  | null => exact List.Pairwise.nil
  | mk l r tld h c ihl ihr =>
    obtain ⟨hBl, hBr, hlo, hhi⟩ := Bst_mk l r tld h c hB
    simp only [inorder_traversal]
    rw [List.pairwise_append, List.pairwise_cons]
    refine ⟨ihl hBl, ⟨?_, ihr hBr⟩, ?_⟩
    · intro b hb
      obtain ⟨y, c1, h1, _, h3⟩ := mem_inorder r b hb
      exact ⟨tld, y, rfl, h1, hhi (y, c1) h3⟩
    · intro a ha b hb
      obtain ⟨x, c1, h1, _, h3⟩ := mem_inorder l a ha
      rcases List.mem_cons.mp hb with hb | hb
      · rw [hb]
        exact ⟨x, tld, h1, rfl, hlo (x, c1) h3⟩
      · obtain ⟨y, c2, h4, _, h6⟩ := mem_inorder r b hb
        exact ⟨x, y, h1, h4, strcmp_trans _ _ _ (hlo (x, c1) h3) (hhi (y, c2) h6)⟩

/-- From position `i` on, the calls of `tldlist_iter_next` return the remaining
elements in order and leave the iterator at its end. -/
theorem iter_next_times_drop (E : List TLDNode) (m i : Nat) (h : i + m = E.length) :
    iter_next_times m { elements := E, next := i, size := E.length }
      = some (E.drop i, { elements := E, next := E.length, size := E.length }) := by
  induction m generalizing i with
  | zero =>
    have hi : i = E.length := by omega
    rw [hi, List.drop_length]
    rfl
  | succ m ih =>
    have hi : i < E.length := by omega
    have hne : ((i : Int) ≠ (E.length : Int)) := by omega
    have hnn : ¬ ((i : Int) < 0) := by omega
    have hget : E[(i : Int).toNat]? = some (E.get ⟨i, hi⟩) := by
      rw [Int.toNat_natCast]
      exact List.getElem?_eq_getElem hi
    have hstep : tldlist_iter_next { elements := E, next := i, size := E.length }
        = some (E.get ⟨i, hi⟩,
            { elements := E, next := ((i + 1 : Nat) : Int), size := E.length }) := by
      simp only [tldlist_iter_next, if_pos hne, if_neg hnn, hget]
      rfl
    simp only [iter_next_times, hstep, ih (i + 1) (by omega)]
    congr 2
    exact (List.drop_eq_getElem_cons hi).symm

/-- At its end the iterator returns NULL on every call and stays at its end. -/
theorem iter_next_times_end (E : List TLDNode) (j : Nat) :
    iter_next_times j { elements := E, next := E.length, size := E.length }
      = some (List.replicate j TLDNode.null,
          { elements := E, next := E.length, size := E.length }) := by
  induction j with
  | zero => rfl
  | succ j ih =>
    have hstep : tldlist_iter_next { elements := E, next := E.length, size := E.length }
        = some (TLDNode.null, { elements := E, next := E.length, size := E.length }) := by
      simp [tldlist_iter_next]
    simp only [iter_next_times, hstep, ih, List.replicate_succ]

/-! ## One call of the timer handler: frame conditions -/

/-- C31: when the head is ALIVE with a tick counter `t >= 2`, one call of the timer
handler makes no call at all (no signal, nothing freed), leaves the length and the
order of the queue and every entry behind the head as they are, and changes the head
only in its tick counter, which becomes `t - 1`. -/
theorem timer_step_ticks_remain (p : Process) (rest : List Process)
    (ha : p.status = ALIVE) (ht : 2 ≤ p.ticks) :
    (sigalrm_handler (p :: rest)).2 = [] ∧
    (sigalrm_handler (p :: rest)).1 = { p with ticks := p.ticks - 1 } :: rest ∧
    (sigalrm_handler (p :: rest)).1.length = (p :: rest).length ∧
    (sigalrm_handler (p :: rest)).1.map pr_pid = (p :: rest).map pr_pid ∧
    (sigalrm_handler (p :: rest)).1.tail = rest := by
  rw [sigalrm_handler_silent p rest ha ht]
  exact ⟨rfl, rfl, rfl, rfl, rfl⟩

/-- C31 on a sample queue: the head goes from 3 ticks to 2, nothing else happens. -/
theorem timer_step_ticks_remain_witness :
    sigalrm_handler sample_running
      = ([⟨["a"], 41, 17, 2, 5, 0, 0, 0, 0⟩, ⟨["b"], 42, 16, 5, 5, 0, 0, 0, 0⟩], []) :=
  have h := timer_step_ticks_remain ⟨["a"], 41, 17, 3, 5, 0, 0, 0, 0⟩
    [⟨["b"], 42, 16, 5, 5, 0, 0, 0, 0⟩] rfl (by decide)
  Prod.ext h.2.1 h.1

theorem count_of_status_ne (p x : Process) (l : List Process) (h : x.status ≠ p.status) :
    (x :: l).count p = l.count p := by
  have hne : x ≠ p := fun e => h (by rw [e])
  rw [List.count_cons_of_ne (Ne.symm hne)]

/-- Every DEAD entry that the loop of the timer handler meets is either still in the
queue as it was, or was passed as it was to `free_pr`. -/
theorem reap_loop_dead_count (q : List Process) (p : Process) (hd : p.status = DEAD) :
    q.count p = (reap_loop q).1.count p + (reap_loop q).2.count (Event.freed p) := by
  induction q with
  | nil => rfl
  | cons x rest ih =>
    by_cases hw : x.status = WAITING
    · rw [reap_loop_waiting x rest hw]
      have h1 : x.status ≠ p.status := by rw [hw, hd]; decide
      have h2 : (pr_wake x).status ≠ p.status := by
        rw [hd]; show ALIVE ≠ DEAD; decide
      rw [count_of_status_ne p x rest h1, count_of_status_ne p (pr_wake x) rest h2]
      simp
    · by_cases ha : x.status = ALIVE
      · rw [reap_loop_alive x rest ha]
        simp
      · rw [reap_loop_other x rest hw ha]
        show List.count p (x :: rest) = List.count p (reap_loop rest).1
          + List.count (Event.freed p) (Event.freed x :: (reap_loop rest).2)
        by_cases hx : x = p
        · rw [hx, List.count_cons_self, List.count_cons_self, ih]
          omega
        · have hx2 : Event.freed p ≠ Event.freed x :=
            fun e => hx (by injection e with e1; exact e1.symm)
          rw [List.count_cons_of_ne (Ne.symm hx), List.count_cons_of_ne hx2, ih]

/-- C34: for every queue and every entry `p` that is DEAD when the timer handler is
called, the copies of `p` in the queue before the call are exactly the copies still
in the queue after it, unchanged in every field, plus those passed unchanged to
`free_pr`: the handler does nothing to a DEAD entry but remove and destroy it.  No
signal is sent on behalf of a DEAD entry, and what is freed is neither WAITING nor
ALIVE. -/
theorem dead_entries_only_removed (q : List Process) (p : Process) (hd : p.status = DEAD) :
    q.count p = (sigalrm_handler q).1.count p + (sigalrm_handler q).2.count (Event.freed p) ∧
    (∀ sig, Event.signal p sig ∉ (sigalrm_handler q).2) ∧
    (∀ t, Event.freed t ∈ (sigalrm_handler q).2 → t.status ≠ WAITING ∧ t.status ≠ ALIVE) := by
  have hev := sigalrm_handler_events q
  refine ⟨?_, ?_, ?_⟩
  · cases q with
    | nil => rfl
    | cons x rest =>
      by_cases ha : x.status = ALIVE
      · have hp : pr_status x = ALIVE := ha
        have h1 : x.status ≠ p.status := by rw [ha, hd]; decide
        have h2 : (decr_tick x).2.status ≠ p.status := by
          rw [decr_tick_status, ha, hd]; decide
        have h2n : (decr_tick x).2 ≠ p := fun e => h2 (by rw [e])
        by_cases hl : (decr_tick x).1 ≠ 0
        · simp only [sigalrm_handler, if_pos hp, if_pos hl]
          rw [count_of_status_ne p x rest h1, count_of_status_ne p _ rest h2]
          simp
        · simp only [sigalrm_handler, if_pos hp, if_neg hl]
          have hrot : cl_rotate ((decr_tick x).2 :: rest) = rest ++ [(decr_tick x).2] := rfl
          have := reap_loop_dead_count (rest ++ [(decr_tick x).2]) p hd
          rw [List.count_append, List.count_singleton] at this
          rw [hrot, count_of_status_ne p x rest h1,
            List.count_cons_of_ne (by simp : Event.freed p
              ≠ Event.signal (decr_tick x).2 Signal.SIGSTOP)]
          simp only [beq_iff_eq, h2n, if_false, Nat.add_zero] at this
          exact this
      · rw [sigalrm_handler_not_alive (x :: rest) (by intro y hy; cases hy; exact ha)]
        have hrot : cl_rotate (x :: rest) = rest ++ [x] := rfl
        rw [hrot, ← reap_loop_dead_count (rest ++ [x]) p hd, List.count_append,
          List.count_cons, List.count_singleton]
  · intro sig hmem
    rcases hev _ hmem with ⟨t, sig1, he, hta, _⟩ | ⟨t, he, _⟩
    · injection he with h1 h2
      rw [h1, hta] at hd
      exact absurd hd (by decide)
    · cases he
  · intro t hmem
    rcases hev _ hmem with ⟨t1, sig1, he, _⟩ | ⟨t1, he, _, h1, h2⟩
    · cases he
    · injection he with h3
      rw [h3]; exact ⟨h1, h2⟩

/-- C34 on a sample queue: its DEAD entry 32 is not in the queue after the call and
was passed once, unchanged, to `free_pr`. -/
theorem dead_entries_only_removed_witness :
    sample_expiry.count ⟨["b"], 32, 18, 5, 5, 0, 0, 0, 0⟩
      = (sigalrm_handler sample_expiry).1.count ⟨["b"], 32, 18, 5, 5, 0, 0, 0, 0⟩
        + (sigalrm_handler sample_expiry).2.count (Event.freed ⟨["b"], 32, 18, 5, 5, 0, 0, 0, 0⟩) ∧
    (sigalrm_handler sample_expiry).2.count (Event.freed ⟨["b"], 32, 18, 5, 5, 0, 0, 0, 0⟩) = 1 :=
  ⟨(dead_entries_only_removed sample_expiry ⟨["b"], 32, 18, 5, 5, 0, 0, 0, 0⟩ rfl).1,
   by decide⟩

/-! ## The timer handler keeps the order of the queue -/

theorem same_entry_refl (a : Process) : same_entry a a := ⟨rfl, rfl, rfl⟩

theorem same_entry_wake (a : Process) : same_entry (pr_wake a) a := ⟨rfl, rfl, rfl⟩

theorem same_entry_decr (a : Process) : same_entry (decr_tick a).2 a := by
  unfold same_entry decr_tick
  simp only []
  split <;> exact ⟨rfl, rfl, rfl⟩

theorem forall₂_same_entry_refl (l : List Process) : List.Forall₂ same_entry l l := by
  induction l with
  | nil => exact List.Forall₂.nil
  | cons x xs ih => exact List.Forall₂.cons (same_entry_refl x) ih

theorem forall₂_same_entry_snoc (l : List Process) (a b : Process) (h : same_entry a b) :
    List.Forall₂ same_entry (l ++ [a]) (l ++ [b]) := by
  induction l with
  | nil => exact List.Forall₂.cons h List.Forall₂.nil
  | cons x xs ih => exact List.Forall₂.cons (same_entry_refl x) ih

/-- What the loop of the timer handler leaves of a rotated queue, entry by entry. -/
theorem forall₂_resumed_dropWhile (rest : List Process) (a b : Process)
    (hd : is_dead a = is_dead b) (h : same_entry a b) :
    List.Forall₂ same_entry (resumed ((rest ++ [a]).dropWhile is_dead))
      ((rest ++ [b]).dropWhile is_dead) := by
  induction rest with
  | nil =>
    by_cases hb : is_dead b = true
    · rw [List.nil_append, List.nil_append, List.dropWhile_cons_of_pos (by rw [hd]; exact hb),
        List.dropWhile_cons_of_pos hb]
      exact List.Forall₂.nil
    · rw [List.nil_append, List.nil_append, List.dropWhile_cons_of_neg (by rw [hd]; exact hb),
        List.dropWhile_cons_of_neg hb]
      exact List.Forall₂.cons ⟨h.1, h.2.1, h.2.2⟩ List.Forall₂.nil
  | cons y ys ih =>
    by_cases hy : is_dead y = true
    · rw [List.cons_append, List.cons_append, List.dropWhile_cons_of_pos hy,
        List.dropWhile_cons_of_pos hy]
      exact ih
    · rw [List.cons_append, List.cons_append, List.dropWhile_cons_of_neg hy,
        List.dropWhile_cons_of_neg hy]
      exact List.Forall₂.cons (same_entry_wake y) (forall₂_same_entry_snoc ys a b h)

theorem forall₂_exists_left {α β : Type} (R : α → β → Prop) (l1 : List α) (l2 : List β)
    (h : List.Forall₂ R l1 l2) : ∀ b ∈ l2, ∃ a ∈ l1, R a b := by
  induction h with
  | nil => intro b hb; cases hb
  | cons hab _ ih =>
    intro b hb
    rcases List.mem_cons.mp hb with hb | hb
    · rw [hb]; exact ⟨_, List.mem_cons_self _ _, hab⟩
    · obtain ⟨a, ha, hr⟩ := ih b hb
      exact ⟨a, List.mem_cons_of_mem _ ha, hr⟩

theorem takeWhile_is_dead (l : List Process) : ∀ p ∈ l.takeWhile is_dead, p.status = DEAD := by
  intro p hp
  have := List.mem_takeWhile_imp hp
  unfold is_dead at this
  simpa using this

/-- C33: for every queue of entries with a status of process.h, the queue after one
call of the timer handler is, entry by entry, what is left of a rotation by zero or
one position of the queue before the call when a prefix `D` of DEAD entries is
removed from that rotation: nothing else is removed, so every entry that is not DEAD
is still queued, and the surviving entries keep their cyclic order. -/
theorem timer_step_keeps_order (q : List Process) (hv : ∀ p ∈ q, valid_status p) :
    ∃ r D S, r ≤ 1 ∧ q.rotate r = D ++ S ∧ (∀ p ∈ D, p.status = DEAD) ∧
      List.Forall₂ same_entry (sigalrm_handler q).1 S ∧
      (∀ p ∈ q, p.status ≠ DEAD → ∃ p1 ∈ (sigalrm_handler q).1, same_entry p1 p) := by
  have hkey : ∃ r D S, r ≤ 1 ∧ q.rotate r = D ++ S ∧ (∀ p ∈ D, p.status = DEAD) ∧
      List.Forall₂ same_entry (sigalrm_handler q).1 S := by
    cases q with
    | nil => exact ⟨0, [], [], Nat.zero_le 1, rfl, fun p hp => (by cases hp), List.Forall₂.nil⟩
    | cons x rest =>
      have hmove : ∀ a : Process, is_dead a = is_dead x → same_entry a x → valid_status a →
          ∃ r D S, r ≤ 1 ∧ (x :: rest).rotate r = D ++ S ∧ (∀ p ∈ D, p.status = DEAD) ∧
            List.Forall₂ same_entry (reap_loop (rest ++ [a])).1 S := by
        intro a hda hsa hva
        have hvr : ∀ p ∈ rest ++ [a], valid_status p := by
          intro p hp
          rcases List.mem_append.mp hp with hp | hp
          · exact hv p (List.mem_cons_of_mem _ hp)
          · rw [List.mem_singleton] at hp; rw [hp]; exact hva
        refine ⟨1, (rest ++ [x]).takeWhile is_dead, (rest ++ [x]).dropWhile is_dead, le_refl 1,
          ?_, takeWhile_is_dead _, ?_⟩
        · rw [List.rotate_cons_succ, List.rotate_zero, List.takeWhile_append_dropWhile]
        · rw [(reap_loop_spec _ hvr).1]
          exact forall₂_resumed_dropWhile rest a x hda hsa
      by_cases ha : x.status = ALIVE
      · have hp : pr_status x = ALIVE := ha
        by_cases hl : (decr_tick x).1 ≠ 0
        · refine ⟨0, [], x :: rest, Nat.zero_le 1, List.rotate_zero _,
            fun p hp => (by cases hp), ?_⟩
          simp only [sigalrm_handler, if_pos hp, if_pos hl]
          exact List.Forall₂.cons (same_entry_decr x) (forall₂_same_entry_refl rest)
        · simp only [sigalrm_handler, if_pos hp, if_neg hl]
          have hrot : cl_rotate ((decr_tick x).2 :: rest) = rest ++ [(decr_tick x).2] := rfl
          rw [hrot]
          apply hmove
          · unfold is_dead; rw [decr_tick_status]
          · exact same_entry_decr x
          · unfold valid_status; rw [decr_tick_status]
            exact hv x (List.mem_cons_self _ _)
      · rw [sigalrm_handler_not_alive (x :: rest) (by intro y hy; cases hy; exact ha)]
        have hrot : cl_rotate (x :: rest) = rest ++ [x] := rfl
        rw [hrot]
        exact hmove x rfl (same_entry_refl x) (hv x (List.mem_cons_self _ _))
  obtain ⟨r, D, S, hr, hrot, hD, hF⟩ := hkey
  refine ⟨r, D, S, hr, hrot, hD, hF, ?_⟩
  intro p hp hnd
  have hmem : p ∈ D ++ S := by rw [← hrot]; exact List.mem_rotate.mpr hp
  rcases List.mem_append.mp hmem with h | h
  · exact absurd (hD p h) hnd
  · exact forall₂_exists_left same_entry _ _ hF p h

/-- C33 on a sample queue: after the call the queue holds the entries 33 and 31, the
rotation by one of the queue 31, 32, 33 without its DEAD entry 32. -/
theorem timer_step_keeps_order_witness :
    (∃ r D S, r ≤ 1 ∧ sample_expiry.rotate r = D ++ S ∧ (∀ p ∈ D, p.status = DEAD) ∧
      List.Forall₂ same_entry (sigalrm_handler sample_expiry).1 S) ∧
    (sigalrm_handler sample_expiry).1.map pr_pid = [33, 31] :=
  have h := timer_step_keeps_order sample_expiry (by decide)
  ⟨let ⟨r, D, S, h1, h2, h3, h4, _⟩ := h
   ⟨r, D, S, h1, h2, h3, h4⟩, by decide⟩

/-! ## The loop of the timer handler terminates -/

/-- With one evaluation of the loop condition more than there are entries, the loop
has returned, with the result of `reap_loop`. -/
theorem reap_loop_fuel_enough (q : List Process) (fuel : Nat) (h : q.length + 1 ≤ fuel) :
    reap_loop_fuel fuel q = some (reap_loop q) := by
  induction q generalizing fuel with
  | nil =>
    obtain ⟨k, rfl⟩ : ∃ k, fuel = k + 1 := ⟨fuel - 1, by simp at h; omega⟩
    rfl
  | cons x rest ih =>
    obtain ⟨k, rfl⟩ : ∃ k, fuel = k + 1 := ⟨fuel - 1, by omega⟩
    have hk : rest.length + 1 ≤ k := by simp at h; omega
    simp only [reap_loop_fuel, reap_loop, ih k hk]
    split_ifs <;> rfl

/-- On entries that are neither WAITING nor ALIVE the loop frees every entry and
leaves the queue empty, and it needs all `n + 1` evaluations of its condition. -/
theorem reap_loop_all_dead (q : List Process)
    (h : ∀ p ∈ q, p.status ≠ WAITING ∧ p.status ≠ ALIVE) :
    reap_loop q = ([], q.map Event.freed) ∧ reap_loop_fuel q.length q = none := by
  induction q with
  | nil => exact ⟨rfl, rfl⟩
  | cons x rest ih =>
    obtain ⟨hw, ha⟩ := h x (List.mem_cons_self _ _)
    obtain ⟨h1, h2⟩ := ih (fun p hp => h p (List.mem_cons_of_mem _ hp))
    have hw1 : ¬ pr_status x = WAITING := hw
    have ha1 : ¬ pr_status x = ALIVE := ha
    constructor
    · rw [reap_loop_other x rest hw ha, h1]
      rfl
    · simp only [List.length_cons, reap_loop_fuel, if_neg hw1, if_neg ha1, h2]

/-- C39: the loop of the timer handler returns after at most `n + 1` evaluations of
its condition on a queue of `n` entries, for every queue, since every iteration
returns or removes one entry; and on a non-empty queue whose entries are all DEAD the
handler frees every entry (the head last), sends no signal, and leaves the queue
empty, using all `n + 1` evaluations. -/
theorem timer_handler_terminates (q : List Process) :
    reap_loop_fuel (q.length + 1) q = some (reap_loop q) ∧
    (∀ fuel, q.length + 1 ≤ fuel → reap_loop_fuel fuel q = some (reap_loop q)) ∧
    ((∀ p ∈ q, p.status = DEAD) →
      (sigalrm_handler q).1 = [] ∧
      (sigalrm_handler q).2 = (cl_rotate q).map Event.freed ∧
      (sigalrm_handler q).2.filterMap Event.sent = [] ∧
      reap_loop_fuel q.length (cl_rotate q) = none) ∧
    sigalrm_handler sample_all_dead = ([], (cl_rotate sample_all_dead).map Event.freed) := by
  refine ⟨reap_loop_fuel_enough q _ (le_refl _),
    fun fuel h => reap_loop_fuel_enough q fuel h, ?_, by decide⟩
  intro hd
  have hrot : ∀ p ∈ cl_rotate q, p.status ≠ WAITING ∧ p.status ≠ ALIVE := by
    intro p hp
    rw [cl_rotate_eq_rotate, List.mem_rotate] at hp
    rw [hd p hp]
    exact ⟨by decide, by decide⟩
  have hlen : (cl_rotate q).length = q.length := by
    rw [cl_rotate_eq_rotate, List.length_rotate]
  have hh : sigalrm_handler q = reap_loop (cl_rotate q) := by
    apply sigalrm_handler_not_alive
    intro p hp
    rw [hd p (List.mem_of_mem_head? hp)]
    decide
  obtain ⟨h1, h2⟩ := reap_loop_all_dead (cl_rotate q) hrot
  rw [hh, h1]
  refine ⟨rfl, rfl, ?_, by rw [← hlen]; exact h2⟩
  show ((cl_rotate q).map Event.freed).filterMap Event.sent = []
  rw [List.filterMap_map]
  exact List.filterMap_eq_nil_iff.mpr (fun _ _ => rfl)

/-! ## The range of the quantum -/

/-- C37: for every integer that `p1atoi` returns, the quantum that `main` computes is
a multiple of 100 between 100 and 1000 (rounding does not leave the clamp range), the
number of ticks is one of 5, 10, ..., 50, the number of ticks times 20 is the quantum
exactly, and the number of ticks is at least 1. -/
theorem quantum_range (q : Int) :
    100 ∣ (compute_quantum q).quantum ∧
    MIN_QUANTUM ≤ (compute_quantum q).quantum ∧ (compute_quantum q).quantum ≤ MAX_QUANTUM ∧
    (∃ k : Int, 1 ≤ k ∧ k ≤ 10 ∧ (compute_quantum q).nticks = 5 * k) ∧
    (compute_quantum q).nticks ∈ [5, 10, 15, 20, 25, 30, 35, 40, 45, 50] ∧
    (compute_quantum q).nticks * SLICE = (compute_quantum q).quantum ∧
    1 ≤ (compute_quantum q).nticks := by
  obtain ⟨hq, hn⟩ := compute_quantum_eq q
  have hc : 100 ≤ clamp_spec q 100 1000 ∧ clamp_spec q 100 1000 ≤ 1000 := by
    unfold clamp_spec; omega
  have hr : round_nearest_100_spec (clamp_spec q 100 1000)
      = (clamp_spec q 100 1000 + 50) / 100 * 100 := by
    unfold round_nearest_100_spec
    simp only []
    split_ifs <;> omega
  generalize clamp_spec q 100 1000 = c at hc hr hq hn
  rw [hr] at hq hn
  rw [hq, hn]
  unfold MIN_QUANTUM MAX_QUANTUM SLICE
  have hm : ∃ m : Int, (c + 50) / 100 = m ∧ 1 ≤ m ∧ m ≤ 10 := ⟨_, rfl, by omega, by omega⟩
  obtain ⟨m, hm, h1, h10⟩ := hm
  rw [hm]
  have hdiv : m * 100 / 20 = 5 * m := by omega
  rw [hdiv]
  refine ⟨⟨m, by ring⟩, by omega, by omega, ⟨m, h1, h10, rfl⟩, ?_, by ring, by omega⟩
  have : m = 1 ∨ m = 2 ∨ m = 3 ∨ m = 4 ∨ m = 5 ∨ m = 6 ∨ m = 7 ∨ m = 8 ∨ m = 9 ∨ m = 10 := by
    omega
  rcases this with h | h | h | h | h | h | h | h | h | h <;> rw [h] <;> decide

/-! ## The tick counter stays between 1 and the quantum -/

theorem reap_loop_TickBound (q : List Process) (h : TickBound q) : TickBound (reap_loop q).1 := by
  induction q with
  | nil => exact h
  | cons x rest ih =>
    have hrest : TickBound rest := fun e he => h e (List.mem_cons_of_mem _ he)
    have hx := h x (List.mem_cons_self _ _)
    by_cases hw : x.status = WAITING
    · rw [reap_loop_waiting x rest hw]
      intro e he
      rcases List.mem_cons.mp he with he | he
      · rw [he]
        exact ⟨Or.inr (Or.inl rfl), hx.2.1, hx.2.2⟩
      · exact hrest e he
    · by_cases ha : x.status = ALIVE
      · rw [reap_loop_alive x rest ha]; exact h
      · rw [reap_loop_other x rest hw ha]; exact ih hrest

theorem decr_tick_bound (x : Process) (h1 : 1 ≤ x.ticks) (h2 : x.ticks ≤ x.nticks) :
    1 ≤ (decr_tick x).2.ticks ∧ (decr_tick x).2.ticks ≤ (decr_tick x).2.nticks := by
  rw [decr_tick_ticks, decr_tick_nticks]
  split_ifs <;> omega

theorem sigalrm_handler_TickBound (q : List Process) (h : TickBound q) :
    TickBound (sigalrm_handler q).1 := by
  cases q with
  | nil => exact h
  | cons x rest =>
    have hrest : TickBound rest := fun e he => h e (List.mem_cons_of_mem _ he)
    have hx := h x (List.mem_cons_self _ _)
    have hd : valid_status (decr_tick x).2 ∧ 1 ≤ (decr_tick x).2.ticks ∧
        (decr_tick x).2.ticks ≤ (decr_tick x).2.nticks := by
      refine ⟨?_, decr_tick_bound x hx.2.1 hx.2.2⟩
      unfold valid_status; rw [decr_tick_status]; exact hx.1
    have hsnoc : ∀ a : Process, (valid_status a ∧ 1 ≤ a.ticks ∧ a.ticks ≤ a.nticks) →
        TickBound (rest ++ [a]) := by
      intro a ha e he
      rcases List.mem_append.mp he with he | he
      · exact hrest e he
      · rw [List.mem_singleton] at he; rw [he]; exact ha
    by_cases ha : x.status = ALIVE
    · have hp : pr_status x = ALIVE := ha
      by_cases hl : (decr_tick x).1 ≠ 0
      · simp only [sigalrm_handler, if_pos hp, if_pos hl]
        intro e he
        rcases List.mem_cons.mp he with he | he
        · rw [he]; exact hd
        · exact hrest e he
      · simp only [sigalrm_handler, if_pos hp, if_neg hl]
        exact reap_loop_TickBound _ (hsnoc _ hd)
    · rw [sigalrm_handler_not_alive (x :: rest) (by intro y hy; cases hy; exact ha)]
      exact reap_loop_TickBound _ (hsnoc x hx)

theorem kill_scan_TickBound (pid : Int) (q : List Process) (h : TickBound q) :
    TickBound (kill_scan pid q) := by
  intro p hp
  rcases kill_scan_mem pid q p hp with h1 | ⟨e, he, h1⟩
  · exact h p h1
  · rw [h1]
    exact ⟨Or.inr (Or.inr rfl), (h e he).2.1, (h e he).2.2⟩

theorem sigchld_handler_TickBound (reaped : List (Int × Bool)) (s : Sched)
    (h : TickBound s.pr_list) : TickBound (sigchld_handler s reaped).1.pr_list := by
  induction reaped generalizing s with
  | nil => exact h
  | cons r more ih =>
    obtain ⟨pid, ended⟩ := r
    cases ended with
    | false => simpa [sigchld_handler] using ih s h
    | true =>
      simp only [sigchld_handler, if_true]
      apply ih
      show TickBound (kill_process s.pr_list pid)
      rw [kill_process_eq]
      exact kill_scan_TickBound pid _ h

theorem run_TickBound (ins : List Input) (s : Sched) (log : List Event)
    (h : TickBound s.pr_list) : TickBound (run s log ins).1.pr_list := by
  induction ins generalizing s log with
  | nil => exact h
  | cons i more ih =>
    simp only [run]
    apply ih
    cases i with
    | alarm => exact sigalrm_handler_TickBound _ h
    | chld reaped => exact sigchld_handler_TickBound reaped s h

theorem LaunchState_TickBound (q : List Process) (h : LaunchState q) : TickBound q :=
  fun p hp => ⟨Or.inl (h.1 p hp).1, by rw [(h.1 p hp).2.1]; exact (h.1 p hp).2.2,
    le_of_eq (h.1 p hp).2.1⟩

/-- C36: from a launch state (every entry WAITING with `ticks = nticks >= 1`), after
every sequence of timer-handler calls and termination notices, every queued entry has
`1 <= ticks <= nticks`, every queued entry behind the head that is not DEAD has
`ticks = nticks`, as has a WAITING head, and a call of `decr_tick` on an ALIVE head,
the only call of it that the handler makes, returns a value between 0 and
`nticks - 1`. -/
theorem tick_counter_invariant (s : Sched) (log : List Event) (ins : List Input)
    (h : LaunchState s.pr_list) :
    (∀ p ∈ (run s log ins).1.pr_list, 1 ≤ p.ticks ∧ p.ticks ≤ p.nticks) ∧
    (∀ p ∈ (run s log ins).1.pr_list.tail, p.status ≠ DEAD → p.ticks = p.nticks) ∧
    (∀ p, (run s log ins).1.pr_list.head? = some p → p.status = WAITING →
      p.ticks = p.nticks) ∧
    (∀ p, (run s log ins).1.pr_list.head? = some p → p.status = ALIVE →
      0 ≤ (decr_tick p).1 ∧ (decr_tick p).1 ≤ p.nticks - 1) := by
  have hb := run_TickBound ins s log (LaunchState_TickBound _ h)
  obtain ⟨_, hfull, hhead⟩ := run_TickInv ins s log (LaunchState_TickInv _ h)
  refine ⟨fun p hp => (hb p hp).2, ?_, hhead, ?_⟩
  · intro p hp hnd
    have hv := (hb p (List.mem_of_mem_tail hp)).1
    apply hfull p hp
    rcases hv with hv | hv | hv
    · exact Or.inl hv
    · exact Or.inr hv
    · exact absurd hv hnd
  · intro p hp _
    have := (hb p (List.mem_of_mem_head? hp)).2
    rw [decr_tick_left]
    omega

/-- C36 at the sample launch state after three timer ticks and one termination
notice: the bounds hold in the queue reached, where 11 runs with a full counter and
the DEAD entry 12 still has the one tick it had left. -/
theorem tick_counter_invariant_witness :
    (∀ p ∈ (run sample_launch [] [Input.alarm, Input.alarm, Input.notice 12,
        Input.alarm]).1.pr_list, 1 ≤ p.ticks ∧ p.ticks ≤ p.nticks) ∧
    (run sample_launch [] [Input.alarm, Input.alarm, Input.notice 12,
        Input.alarm]).1.pr_list.map (fun p => (p.pid, p.status, p.ticks))
      = [(11, 17, 2), (12, 18, 1)] :=
  ⟨(tick_counter_invariant sample_launch [] [Input.alarm, Input.alarm, Input.notice 12,
      Input.alarm] (by decide)).1, by decide⟩

/-! ## Version 4 schedules as version 3 -/

theorem reap_loop_v4_eq (q : List Process) :
    (reap_loop_v4 q).1 = (reap_loop q).1 ∧
    (reap_loop_v4 q).2 = (reap_loop q).2.map Event4.base ∧
    with_monitor (reap_loop q).2 = (reap_loop q).2.map Event4.base := by
  induction q with
  | nil => exact ⟨rfl, rfl, rfl⟩
  | cons x rest ih =>
    simp only [reap_loop_v4, reap_loop]
    split_ifs
    · exact ⟨rfl, rfl, rfl⟩
    · exact ⟨rfl, rfl, rfl⟩
    · refine ⟨ih.1, ?_, ?_⟩
      · simp only [List.map_cons, ih.2.1]
      · simp only [with_monitor, List.map_cons, ih.2.2]

/-- C35: for every queue the timer handler of uspsv4.c leaves the same queue as that
of uspsv3.c (same entries, statuses and tick counters) and makes the same calls in the
same order, with one more call, `print` for the head, right after the SIGSTOP: without
the `print` calls the two sequences are equal, and so are the signals sent; and the
quantum and the number of ticks are computed alike. -/
theorem v4_schedules_as_v3 (q : List Process) :
    (sigalrm_handler_v4 q).1 = (sigalrm_handler q).1 ∧
    (sigalrm_handler_v4 q).2 = with_monitor (sigalrm_handler q).2 ∧
    (sigalrm_handler_v4 q).2.filterMap Event4.v3 = (sigalrm_handler q).2 ∧
    (sigalrm_handler_v4 q).2.filterMap (fun e => (Event4.v3 e).bind Event.sent)
      = (sigalrm_handler q).2.filterMap Event.sent ∧
    (∀ n : Int, compute_quantum_v4 n = compute_quantum n) := by
  have hmap : ∀ l : List Event, (l.map Event4.base).filterMap Event4.v3 = l := by
    intro l
    rw [List.filterMap_map]
    induction l with
    | nil => rfl
    | cons e more ih => simpa [Event4.v3] using ih
  have h12 : (sigalrm_handler_v4 q).1 = (sigalrm_handler q).1 ∧
      (sigalrm_handler_v4 q).2 = with_monitor (sigalrm_handler q).2 ∧
      (sigalrm_handler_v4 q).2.filterMap Event4.v3 = (sigalrm_handler q).2 := by
    cases q with
    | nil => exact ⟨rfl, rfl, rfl⟩
    | cons x rest =>
      simp only [sigalrm_handler_v4, sigalrm_handler]
      split_ifs
      · exact ⟨rfl, rfl, rfl⟩
      · obtain ⟨h1, h2, h3⟩ := reap_loop_v4_eq (cl_rotate ((decr_tick x).2 :: rest))
        refine ⟨h1, ?_, ?_⟩
        · simp only [with_monitor, h2, h3]
        · simp only [h2, List.filterMap_cons, Event4.v3, hmap]
      · obtain ⟨h1, h2, h3⟩ := reap_loop_v4_eq (cl_rotate (x :: rest))
        exact ⟨h1, by rw [h2, h3], by rw [h2, hmap]⟩
  refine ⟨h12.1, h12.2.1, h12.2.2, ?_, fun n => rfl⟩
  rw [← h12.2.2, List.filterMap_filterMap]

/-! ## The tree stays a balanced search tree -/

theorem Avl_true_height (t : TLDNode) (h : Avl t) :
    height t = true_height t ∧ HeightsTrue t ∧ Balanced t := by
  induction t with
  | null => exact ⟨rfl, trivial, trivial⟩
  | mk l r tld ht c ihl ihr =>
    obtain ⟨hl, hr, hh, hb1, hb2⟩ := h
    obtain ⟨el, tl, bl⟩ := ihl hl
    obtain ⟨er, tr, br⟩ := ihr hr
    rw [maximum_eq_max, el, er] at hh
    rw [el, er] at hb1 hb2
    exact ⟨hh, ⟨tl, tr, hh⟩, ⟨bl, br, hb1, hb2⟩⟩

theorem tld_names_eq (t : TLDNode) : tld_names t = (entries t).map Prod.fst := by
  induction t with
  | null => rfl
  | mk l r tld h c ihl ihr =>
    simp only [tld_names, entries, List.map_append, List.map_cons, ihl, ihr]

theorem node_count_eq (t : TLDNode) : node_count t = (entries t).length := by
  induction t with
  | null => rfl
  | mk l r tld h c ihl ihr =>
    simp only [node_count, entries, List.length_append, List.length_cons, ihl, ihr]
    omega

theorem Bst_SearchTree (t : TLDNode) (h : Bst t) : SearchTree t := by
  induction t with
  | null => trivial
  | mk l r tld ht c ihl ihr =>
    obtain ⟨hl, hr, hlo, hhi⟩ := Bst_mk l r tld ht c h
    refine ⟨ihl hl, ihr hr, ?_, ?_⟩
    · intro x hx
      rw [tld_names_eq] at hx
      obtain ⟨e, he, hxe⟩ := List.mem_map.mp hx
      rw [← hxe]; exact hlo e he
    · intro y hy
      rw [tld_names_eq] at hy
      obtain ⟨e, he, hye⟩ := List.mem_map.mp hy
      rw [← hye]; exact hhi e he

theorem Bst_nodup (t : TLDNode) (h : Bst t) : (tld_names t).Nodup := by
  rw [tld_names_eq]
  rw [Bst_iff] at h
  refine List.Pairwise.imp ?_ h
  intro a b hab heq
  rw [heq, strcmp_self] at hab
  exact absurd hab (by decide)

/-! ## Every reachable list is a well-formed ring -/

/-- A call on a well-formed ring gives a well-formed ring. -/
theorem apply_op_ring {α : Type} (cl cl2 : CList α) (ring : List (Nat × α)) (op : ListOp α)
    (h : IsRing cl ring) (ho : Heap.apply_op cl op = some cl2) : ∃ ring2, IsRing cl2 ring2 := by
  cases op with
  | insert item node =>
    simp only [Heap.apply_op] at ho
    split_ifs at ho with hlive
    have hfresh : cl.nodes node = none := by
      cases hn : cl.nodes node with
      | none => rfl
      | some n => rw [hn] at hlive; exact absurd rfl hlive
    obtain ⟨c, hc, hr, _⟩ := IsRing_insert cl ring item node h hfresh
    rw [hc] at ho
    simp only [if_true, Option.some.injEq] at ho
    exact ⟨_, ho ▸ hr⟩
  | rotate =>
    simp only [Heap.apply_op] at ho
    cases ring with
    | nil =>
      have hs : cl.size = 0 := by simpa using h.1
      rw [cl_rotate_empty cl hs] at ho
      simp only [Option.some.injEq] at ho
      exact ⟨[], ho ▸ h⟩
    | cons e rest =>
      obtain ⟨a, x⟩ := e
      obtain ⟨h1, h2⟩ := IsRing_rotate cl a x rest h
      rw [h1] at ho
      simp only [Option.some.injEq] at ho
      exact ⟨_, ho ▸ h2⟩
  | remove =>
    simp only [Heap.apply_op] at ho
    cases ring with
    | nil =>
      have hs : cl.size = 0 := by simpa using h.1
      simp only [Heap.cl_remove, if_pos hs, Option.some.injEq] at ho
      exact ⟨[], ho ▸ h⟩
    | cons e rest =>
      obtain ⟨a, x⟩ := e
      obtain ⟨c, h1, h2, _⟩ := IsRing_remove cl a x rest h
      rw [h1] at ho
      simp only [Option.some.injEq] at ho
      exact ⟨_, ho ▸ h2⟩

theorem apply_ops_ring {α : Type} (ops : List (ListOp α)) (cl cl2 : CList α)
    (ring : List (Nat × α)) (h : IsRing cl ring) (ho : Heap.apply_ops cl ops = some cl2) :
    ∃ ring2, IsRing cl2 ring2 := by
  induction ops generalizing cl ring with
  | nil =>
    simp only [Heap.apply_ops, Option.some.injEq] at ho
    exact ⟨ring, ho ▸ h⟩
  | cons op more ih =>
    simp only [Heap.apply_ops] at ho
    cases h1 : Heap.apply_op cl op with
    | none => rw [h1] at ho; cases ho
    | some c1 =>
      rw [h1] at ho
      obtain ⟨r1, hr1⟩ := apply_op_ring cl c1 ring op h h1
      exact ih c1 r1 hr1 ho

/-- On a well-formed ring every call is defined: no dangling pointer is dereferenced,
and an insertion at a fresh address returns 1. -/
theorem apply_op_defined {α : Type} (cl : CList α) (ring : List (Nat × α)) (h : IsRing cl ring) :
    (∀ item node, cl.nodes node = none →
      ∃ cl2, Heap.apply_op cl (ListOp.insert item node) = some cl2) ∧
    (∃ cl2, Heap.apply_op cl ListOp.rotate = some cl2) ∧
    (∃ cl2, Heap.apply_op cl ListOp.remove = some cl2) := by
  refine ⟨?_, ?_, ?_⟩
  · intro item node hfresh
    obtain ⟨c, hc, _⟩ := IsRing_insert cl ring item node h hfresh
    exact ⟨c, by simp [Heap.apply_op, hfresh, hc]⟩
  · cases ring with
    | nil =>
      have hs : cl.size = 0 := by simpa using h.1
      exact ⟨cl, cl_rotate_empty cl hs⟩
    | cons e rest =>
      obtain ⟨a, x⟩ := e
      exact ⟨_, (IsRing_rotate cl a x rest h).1⟩
  · cases ring with
    | nil =>
      have hs : cl.size = 0 := by simpa using h.1
      exact ⟨cl, by simp [Heap.apply_op, Heap.cl_remove, hs]⟩
    | cons e rest =>
      obtain ⟨a, x⟩ := e
      obtain ⟨c, h1, _⟩ := IsRing_remove cl a x rest h
      exact ⟨c, by simp [Heap.apply_op, h1]⟩

/-- Following the links of a chain from its first node visits the rest of the chain
and then the node the chain is linked back to. -/
theorem follow_Linked {α : Type} (nodes : Nat → Option (CNode α)) (a : Nat) (x : α)
    (rest : List (Nat × α)) (back : Nat) (hl : Linked nodes ((a, x) :: rest) back) :
    follow nodes (rest.length + 1) a = some (rest.map Prod.fst ++ [back]) := by
  induction rest generalizing a x with
  | nil =>
    have h1 : nodes a = some ⟨x, back⟩ := hl.1
    simp only [follow, h1, List.length_nil, List.map_nil, List.nil_append]
  | cons e r ih =>
    obtain ⟨b, y⟩ := e
    have h1 : nodes a = some ⟨x, b⟩ := hl.1
    have h2 := ih b y hl.2
    simp only [List.length_cons, List.map_cons, List.cons_append]
    rw [show r.length + 1 + 1 = (r.length + 1) + 1 from rfl, follow, h1]
    simp only [h2]

/-- In a well-formed ring of `n >= 1` nodes, `n` steps from the tail node visit the
nodes of the ring from the head node to the tail node. -/
theorem follow_ring {α : Type} (cl : CList α) (ring : List (Nat × α)) (t : Nat)
    (h : IsRing cl ring) (ht : cl.tail = some t) :
    follow cl.nodes ring.length t = some (ring.map Prod.fst) ∧
    (ring.map Prod.fst).getLast? = some t := by
  rcases List.eq_nil_or_concat ring with hnil | ⟨front, ⟨t1, y⟩, hfl⟩
  · subst hnil
    have := h.2.2.1
    rw [ht] at this
    simp at this
  · rw [List.concat_eq_append] at hfl
    subst hfl
    obtain ⟨htail, hnode, hlink, _, _, _⟩ := IsRing_tail cl front t1 y h
    have htt : t1 = t := by rw [ht] at htail; injection htail with e; exact e.symm
    subst htt
    refine ⟨?_, by simp⟩
    cases front with
    | nil =>
      simp only [List.nil_append, first_addr] at hnode
      simp only [List.nil_append, List.length_singleton, List.map_cons, List.map_nil, follow,
        hnode]
    | cons e fr =>
      obtain ⟨a, x⟩ := e
      simp only [List.cons_append, first_addr] at hnode
      have hf := follow_Linked cl.nodes a x fr t1 hlink
      simp only [List.cons_append, List.length_cons, List.length_append, List.length_singleton,
        List.map_cons, List.map_append, List.map_nil]
      rw [follow, hnode]
      simp only [List.length_nil, Nat.zero_add, hf]

/-- C38: every list reached from `cl_create` by calls of `cl_insert` (at fresh
addresses, returning 1), `cl_rotate` and `cl_remove` is a well-formed ring of some
nodes `ring`: `size` is the number of nodes stored in memory, which are exactly those
of `ring`, and is not negative; `cl_isEmpty` holds exactly when `size` is 0, which
holds exactly when `tail` is NULL; when `tail` is not NULL, following `next` `size`
times from the tail node visits `size` pairwise distinct nodes, all those of the
ring, and ends at the tail node; and every further call on the list is defined. -/
theorem ring_well_formed {α : Type} (ops : List (ListOp α)) (cl : CList α)
    (h : Heap.apply_ops Heap.cl_create ops = some cl) :
    ∃ ring, IsRing cl ring ∧
      cl.size = ring.length ∧ 0 ≤ cl.size ∧
      (∀ a, cl.nodes a ≠ none ↔ a ∈ ring.map Prod.fst) ∧
      (Heap.cl_isEmpty cl = true ↔ cl.size = 0) ∧
      (cl.size = 0 ↔ cl.tail = none) ∧
      (∀ t, cl.tail = some t →
        1 ≤ cl.size ∧
        follow cl.nodes cl.size.toNat t = some (ring.map Prod.fst) ∧
        (ring.map Prod.fst).getLast? = some t ∧
        (ring.map Prod.fst).Nodup ∧
        (ring.map Prod.fst).length = cl.size.toNat) ∧
      ((∀ item node, cl.nodes node = none →
          ∃ cl2, Heap.apply_op cl (ListOp.insert item node) = some cl2) ∧
        (∃ cl2, Heap.apply_op cl ListOp.rotate = some cl2) ∧
        (∃ cl2, Heap.apply_op cl ListOp.remove = some cl2)) := by
  obtain ⟨ring, hr⟩ := apply_ops_ring ops Heap.cl_create cl [] IsRing_create h
  have hsize : cl.size = ring.length := hr.1
  have hnat : cl.size.toNat = ring.length := by rw [hsize]; simp
  refine ⟨ring, hr, hsize, by rw [hsize]; omega, ?_, ?_, ?_, ?_, apply_op_defined cl ring hr⟩
  · intro a
    constructor
    · intro hne
      by_contra hnot
      exact hne (hr.2.2.2.2 a hnot)
    · intro hmem
      exact Linked_mem cl.nodes ring _ hr.2.2.2.1 a hmem
  · simp [Heap.cl_isEmpty]
  · rw [hr.2.2.1, hsize]
    cases ring with
    | nil => simp
    | cons e rest =>
      constructor
      · intro h0; simp at h0; omega
      · intro h0
        have := List.getLast?_eq_none_iff.mp h0
        simp at this
  · intro t ht
    obtain ⟨h1, h2⟩ := follow_ring cl ring t hr ht
    refine ⟨?_, by rw [hnat]; exact h1, h2, hr.2.1, by rw [hnat, List.length_map]⟩
    cases ring with
    | nil => simp at h2
    | cons e rest => rw [hsize]; simp

/-- C38 on a sample run: three insertions, a rotation and a removal leave a ring of
two nodes, and two steps from its tail node come back to it. -/
theorem ring_well_formed_witness :
    ∃ cl : CList Int, Heap.apply_ops Heap.cl_create sample_ops = some cl ∧
      cl.size = 2 ∧ cl.tail = some 1 ∧ follow cl.nodes 2 1 = some [3, 1] ∧
      ∃ ring, IsRing cl ring ∧ cl.size = ring.length :=
  have hs : (Heap.apply_ops Heap.cl_create sample_ops).isSome = true := rfl
  let ⟨cl, hcl⟩ := Option.isSome_iff_exists.mp hs
  have hsize : cl.size = 2 := by
    have e : ((Heap.apply_ops Heap.cl_create sample_ops).map CList.size) = some 2 := rfl
    rw [hcl] at e
    exact Option.some.inj e
  have htail : cl.tail = some 1 := by
    have e : ((Heap.apply_ops Heap.cl_create sample_ops).bind CList.tail) = some 1 := rfl
    rw [hcl] at e
    exact e
  have hfollow : follow cl.nodes 2 1 = some [3, 1] := by
    have e : ((Heap.apply_ops Heap.cl_create sample_ops).bind
        fun c => follow c.nodes 2 1) = some [3, 1] := rfl
    rw [hcl] at e
    exact e
  let ⟨ring, hr, hlen, _⟩ := ring_well_formed sample_ops cl hcl
  ⟨cl, hcl, hsize, htail, hfollow, ring, hr, hlen⟩

/-! ## Compact byte sizes -/

theorem poke_some (buf : List Char) (i : Nat) (c : Char) (h : i < buf.length) :
    poke buf i c = some (buf.set i c) := by
  unfold poke
  rw [if_pos h]

/-- Four assignments in a row that all fall inside the buffer. -/
theorem poke_four (buf : List Char) (i j1 j2 j3 : Nat) (w1 w2 w3 w4 : Char)
    (h1 : j1 = i + 1) (h2 : j2 = i + 1 + 1) (h3 : j3 = i + 1 + 1 + 1) (hlt : j3 < buf.length) :
    ((poke buf i w1).bind fun b1 => (poke b1 j1 w2).bind fun b2 =>
      (poke b2 j2 w3).bind fun b3 => poke b3 j3 w4)
      = some (write_at buf i [w1, w2, w3, w4]) := by
  subst h1 h2 h3
  rw [poke_some buf i w1 (by omega), Option.some_bind,
    poke_some _ (i + 1) w2 (by rw [List.length_set]; omega), Option.some_bind,
    poke_some _ (i + 1 + 1) w3 (by rw [List.length_set, List.length_set]; omega),
    Option.some_bind,
    poke_some _ (i + 1 + 1 + 1) w4
      (by rw [List.length_set, List.length_set, List.length_set]; exact hlt)]
  rfl

/-- Assignments below index `n` leave the buffer from index `n` on as it is. -/
theorem drop_write_at (buf ws : List Char) (i n : Nat) (h : i + ws.length ≤ n) :
    (write_at buf i ws).drop n = buf.drop n := by
  induction ws generalizing buf i with
  | nil => rfl
  | cons c cs ih =>
    have h1 : i + 1 + cs.length ≤ n := by simp at h; omega
    rw [write_at, ih _ _ h1, List.drop_set_of_lt c buf (by simp at h; omega)]

theorem drop_terminated (s junk : List Char) : (s ++ NUL :: junk).drop (s.length + 1) = junk := by
  induction s with
  | nil => rfl
  | cons x xs ih => exact ih

/-- What `compact_size` does in the branch that keeps the first `i` digits: the four
assignments at the indices `i .. i + 3`, with `i + 3 <= L`. -/
theorem compact_size_branch (s junk : List Char) (i j1 j2 j3 : Nat) (w : Char)
    (h1 : j1 = i + 1) (h2 : j2 = i + 1 + 1) (h3 : j3 = i + 1 + 1 + 1)
    (hi : i + 3 ≤ s.length) (hs : ∀ c ∈ s, c ≠ NUL) (hw : w ≠ NUL) :
    ∃ buf, ((poke (s ++ NUL :: junk) i SP).bind fun b1 => (poke b1 j1 w).bind fun b2 =>
        (poke b2 j2 'b').bind fun b3 => poke b3 j3 NUL) = some buf ∧
      buf.length = (s ++ NUL :: junk).length ∧
      buf.drop (s.length + 1) = junk ∧
      c_string buf = s.take i ++ [SP, w, 'b'] := by
  refine ⟨write_at (s ++ NUL :: junk) i [SP, w, 'b', NUL], ?_, write_at_length _ _ _, ?_, ?_⟩
  · exact poke_four _ i j1 j2 j3 _ _ _ _ h1 h2 h3
      (by rw [h3, List.length_append, List.length_cons]; omega)
  · rw [drop_write_at _ _ i (s.length + 1) (by simp; omega), drop_terminated]
  · exact c_string_write s junk [SP, w, 'b'] i (by simpa using hi) hs
      (by
        intro c hc
        simp only [List.mem_cons, List.mem_singleton, List.not_mem_nil, or_false] at hc
        rcases hc with h | h | h
        · rw [h]; decide
        · rw [h]; exact hw
        · rw [h]; decide)

/-- C26: on a buffer that holds the decimal representation `s` (length `L`, no leading
zeros) of `n`, its terminator and whatever follows (`junk`, possibly nothing),
`compact_size` makes no assignment outside the buffer and none behind the index `L` of
the terminator: `junk` is as before, so the new terminator is at an index `<= L` and
the result is never longer than the input.  For `L <= 3` the buffer is unchanged;
otherwise it then holds the decimal representation of `n / 1000 ^ k` followed by
` Kb`, ` Mb`, ` Gb`, ` Tb` for `k = 1..4`, with `k = min 4 ((L - 1) / 3)`; `1000`
becomes `1 Kb`. -/
theorem compact_size_spec (s junk : List Char) (n : Nat) (h : IsDecimal s n) :
    ∃ buf, compact_size (s ++ NUL :: junk) = some buf ∧
      buf.length = (s ++ NUL :: junk).length ∧
      buf.drop (s.length + 1) = junk ∧
      (c_string buf).length ≤ s.length ∧
      (s.length ≤ 3 → buf = s ++ NUL :: junk) ∧
      (4 ≤ s.length →
        c_string buf = s.take (s.length - 3 * min 4 ((s.length - 1) / 3))
          ++ size_suffix (min 4 ((s.length - 1) / 3)) ∧
        IsDecimal (s.take (s.length - 3 * min 4 ((s.length - 1) / 3)))
          (n / 1000 ^ min 4 ((s.length - 1) / 3))) ∧
      (compact_size ("1000".toList ++ NUL :: junk)).map c_string
        = some ("1".toList ++ size_suffix 1) := by
  have hs : ∀ c ∈ s, c ≠ NUL := fun c hc => is_digit_ne_nul c (h.2.1 c hc)
  have hlen := p1strlen_terminated s junk hs
  have hex : (compact_size ("1000".toList ++ NUL :: junk)).map c_string
      = some ("1".toList ++ size_suffix 1) := by
    obtain ⟨b, hb, _, _, hc⟩ := compact_size_branch "1000".toList junk 1 2 3 4 'K' rfl rfl rfl
      (by decide) (by decide) (by decide)
    have hl : p1strlen ("1000".toList ++ NUL :: junk) = 4 :=
      p1strlen_terminated "1000".toList junk (by decide)
    have : compact_size ("1000".toList ++ NUL :: junk) = some b := by
      unfold compact_size
      simp only [hl]
      exact hb
    rw [this, Option.map_some', hc]
    rfl
  have hkey : ∀ (k : Nat) (w : Char) (buf : List Char), 1 ≤ k → 3 * k < s.length →
      min 4 ((s.length - 1) / 3) = k → size_suffix k = [SP, w, 'b'] →
      compact_size (s ++ NUL :: junk) = some buf →
      buf.length = (s ++ NUL :: junk).length → buf.drop (s.length + 1) = junk →
      c_string buf = s.take (s.length - 3 * k) ++ [SP, w, 'b'] →
      ∃ buf, compact_size (s ++ NUL :: junk) = some buf ∧
        buf.length = (s ++ NUL :: junk).length ∧
        buf.drop (s.length + 1) = junk ∧
        (c_string buf).length ≤ s.length ∧
        (s.length ≤ 3 → buf = s ++ NUL :: junk) ∧
        (4 ≤ s.length →
          c_string buf = s.take (s.length - 3 * min 4 ((s.length - 1) / 3))
            ++ size_suffix (min 4 ((s.length - 1) / 3)) ∧
          IsDecimal (s.take (s.length - 3 * min 4 ((s.length - 1) / 3)))
            (n / 1000 ^ min 4 ((s.length - 1) / 3))) ∧
        (compact_size ("1000".toList ++ NUL :: junk)).map c_string
          = some ("1".toList ++ size_suffix 1) := by
    intro k w buf hk1 hk3 hk hsuf hb hbl hbd hbc
    have hp : (1000 : Nat) ^ k = 10 ^ (3 * k) := by
      rw [pow_mul]; norm_num
    refine ⟨buf, hb, hbl, hbd, ?_, fun h3 => by omega, fun _ => ?_, hex⟩
    · rw [hbc, List.length_append, List.length_take]
      simp only [List.length_cons, List.length_nil]
      omega
    · rw [hk, hsuf, hp]
      exact ⟨hbc, IsDecimal_take s n (3 * k) h hk3 (by omega)⟩
  by_cases h13 : s.length ≥ 13
  · obtain ⟨b, hb, hbl, hbd, hbc⟩ := compact_size_branch s junk (s.length - 12) (s.length - 11)
      (s.length - 10) (s.length - 9) 'T' (by omega) (by omega) (by omega) (by omega) hs
      (by decide)
    refine hkey 4 'T' b (by omega) (by omega) (by omega) rfl ?_ hbl hbd hbc
    unfold compact_size
    simp only [hlen]
    rw [if_pos h13]
    exact hb
  by_cases h10 : s.length ≥ 10
  · obtain ⟨b, hb, hbl, hbd, hbc⟩ := compact_size_branch s junk (s.length - 9) (s.length - 8)
      (s.length - 7) (s.length - 6) 'G' (by omega) (by omega) (by omega) (by omega) hs
      (by decide)
    refine hkey 3 'G' b (by omega) (by omega) (by omega) rfl ?_ hbl hbd hbc
    unfold compact_size
    simp only [hlen]
    rw [if_neg h13, if_pos h10]
    exact hb
  by_cases h7 : s.length ≥ 7
  · obtain ⟨b, hb, hbl, hbd, hbc⟩ := compact_size_branch s junk (s.length - 6) (s.length - 5)
      (s.length - 4) (s.length - 3) 'M' (by omega) (by omega) (by omega) (by omega) hs
      (by decide)
    refine hkey 2 'M' b (by omega) (by omega) (by omega) rfl ?_ hbl hbd hbc
    unfold compact_size
    simp only [hlen]
    rw [if_neg h13, if_neg h10, if_pos h7]
    exact hb
  by_cases h4 : s.length ≥ 4
  · obtain ⟨b, hb, hbl, hbd, hbc⟩ := compact_size_branch s junk (s.length - 3) (s.length - 2)
      (s.length - 1) (s.length - 0) 'K' (by omega) (by omega) (by omega) (by omega) hs
      (by decide)
    refine hkey 1 'K' b (by omega) (by omega) (by omega) rfl ?_ hbl hbd hbc
    unfold compact_size
    simp only [hlen]
    rw [if_neg h13, if_neg h10, if_neg h7, if_pos h4]
    exact hb
  · refine ⟨s ++ NUL :: junk, ?_, rfl, drop_terminated s junk, ?_, fun _ => rfl,
      fun h4' => absurd h4' h4, hex⟩
    · unfold compact_size
      simp only [hlen]
      rw [if_neg h13, if_neg h10, if_neg h7, if_neg h4]
    · rw [c_string_append_nul s junk hs]

/-- C26 for the digits of 20480 in a buffer of exactly six characters: no assignment
falls outside it, the buffer then holds `20 Kb`, and 20 is `20480 / 1000 ^ 1`. -/
theorem compact_size_spec_witness :
    IsDecimal "20480".toList 20480 ∧
    (compact_size ("20480".toList ++ [NUL])).map c_string = some ("20".toList ++ size_suffix 1) ∧
    ∃ buf, compact_size ("20480".toList ++ [NUL]) = some buf ∧ buf.length = 6 :=
  ⟨by decide, by decide,
   let ⟨buf, h1, h2, _⟩ := compact_size_spec "20480".toList [] 20480 (by decide)
   ⟨buf, h1, h2⟩⟩

/-! ## Expiry of the quantum -/

theorem tldlist_add_out_of_range (tld : TLDList) (hostname : List Char) (d : Date)
    (h : ¬ date_in_range tld d) : tldlist_add tld hostname d = some (0, tld) := by
  unfold date_in_range at h
  unfold tldlist_add
  rw [if_pos (not_not.mp h)]

theorem tldlist_add_overflow (tld : TLDList) (hostname : List Char) (d : Date)
    (h : date_in_range tld d) (hno : hostname_to_tld hostname 256 = none) :
    tldlist_add tld hostname d = none := by
  unfold date_in_range at h
  unfold tldlist_add
  simp only [if_neg h, hno]

theorem sample_long_hostname_overflows : hostname_to_tld sample_long_hostname 256 = none := by
  unfold hostname_to_tld sample_long_hostname
  have h : ((List.replicate 256 'a').reverse.takeWhile (fun c => decide (c ≠ '.'))).reverse.length
      = 256 := by
    rw [List.reverse_replicate, List.length_reverse, List.takeWhile_eq_self_iff.mpr,
      List.length_replicate]
    intro c hc
    rw [List.eq_of_mem_replicate hc]
    decide
  simp only [h]
  rfl

/-- A sequence of `tldlist_add` calls on a list that satisfies the invariant runs to
its end exactly when no call with a date inside the range has a tld that overflows the
buffer; the list it then leaves satisfies the invariant, with the same date range. -/
theorem tldlist_add_all_spec (adds : List (List Char × Date)) (tld : TLDList)
    (hinv : ListInv tld) :
    ((tldlist_add_all tld adds).isSome = true ↔
      ∀ a ∈ adds, date_in_range tld a.2 → (hostname_to_tld a.1 256).isSome = true) ∧
    ∀ tld1, tldlist_add_all tld adds = some tld1 →
      ListInv tld1 ∧ tld1.begin = tld.begin ∧ tld1.end_ = tld.end_ := by
  induction adds generalizing tld with
  | nil =>
    refine ⟨⟨fun _ a ha => (by cases ha), fun _ => rfl⟩, ?_⟩
    intro tld1 h1
    simp only [tldlist_add_all, Option.some.injEq] at h1
    rw [← h1]
    exact ⟨hinv, rfl, rfl⟩
  | cons a more ih =>
    obtain ⟨hostname, d⟩ := a
    by_cases hin : date_in_range tld d
    · cases hfit : hostname_to_tld hostname 256 with
      | none =>
        have hnone : tldlist_add_all tld ((hostname, d) :: more) = none := by
          simp only [tldlist_add_all, tldlist_add_overflow tld hostname d hin hfit]
        rw [hnone]
        refine ⟨⟨fun h => (by cases h), fun h => ?_⟩, fun tld1 h1 => (by cases h1)⟩
        have := h (hostname, d) (List.mem_cons_self _ _) hin
        rw [hfit] at this
        cases this
      | some buffer =>
        obtain ⟨r, t1, hadd, hinv1, hbeg, hend, _⟩ :=
          tldlist_add_spec tld hostname d buffer hinv hfit
        have hstep : tldlist_add_all tld ((hostname, d) :: more) = tldlist_add_all t1 more := by
          simp only [tldlist_add_all, hadd]
        have hrange : ∀ x, date_in_range t1 x ↔ date_in_range tld x := by
          intro x; unfold date_in_range; rw [hbeg, hend]
        obtain ⟨ih1, ih2⟩ := ih t1 hinv1
        rw [hstep]
        refine ⟨?_, fun tld1 h1 => ?_⟩
        · rw [ih1]
          constructor
          · intro h x hx hxin
            rcases List.mem_cons.mp hx with hx | hx
            · rw [hx]; show (hostname_to_tld hostname 256).isSome = true
              rw [hfit]; rfl
            · exact h x hx ((hrange x.2).mpr hxin)
          · intro h x hx hxin
            exact h x (List.mem_cons_of_mem _ hx) ((hrange x.2).mp hxin)
        · obtain ⟨h3, h4, h5⟩ := ih2 tld1 h1
          exact ⟨h3, h4.trans hbeg, h5.trans hend⟩
    · have hstep : tldlist_add_all tld ((hostname, d) :: more) = tldlist_add_all tld more := by
        simp only [tldlist_add_all, tldlist_add_out_of_range tld hostname d hin]
      obtain ⟨ih1, ih2⟩ := ih tld hinv
      rw [hstep]
      refine ⟨?_, ih2⟩
      rw [ih1]
      constructor
      · intro h x hx hxin
        rcases List.mem_cons.mp hx with hx | hx
        · rw [hx] at hxin; exact absurd hxin hin
        · exact h x hx hxin
      · intro h x hx hxin
        exact h x (List.mem_cons_of_mem _ hx) hxin

/-- C28 (code bug): with a date inside the range and the 256-character hostname
`sample_long_hostname`, `tldlist_add` does not return: the copy of the tld overflows
`buffer[256]` (`none`), where the claim has it return 1 and count the entry.  On every
other input the claim holds, for lists that satisfy the invariant of lists made by
`tldlist_create` and `tldlist_add`: with a date outside `begin .. end` the call returns
0 and changes nothing, whatever the hostname; with a date inside and a tld that fits,
it returns 1, `tldlist_count` is one higher, and the node found for the tld holds it
with a count one higher than before (1 for a new tld); so `www.uoregon.EDU` of
15/6/2010 is counted on the empty list, which then holds `edu` once. -/
theorem tldlist_add_counts_unless_overflow :
    tldlist_add sample_tldlist sample_long_hostname ⟨15, 6, 2010⟩ = none ∧
    (tldlist_add sample_tldlist "www.uoregon.EDU".toList ⟨15, 6, 2010⟩).map
      (fun r => (r.1, tldlist_count r.2, entries r.2.root))
      = some (1, 1, [("edu".toList, 1)]) ∧
    ∀ (tld : TLDList) (hostname : List Char) (d : Date), ListInv tld →
      (¬ date_in_range tld d → tldlist_add tld hostname d = some (0, tld)) ∧
      (date_in_range tld d → hostname_to_tld hostname 256 = none →
        tldlist_add tld hostname d = none) ∧
      (date_in_range tld d → ∀ buffer, hostname_to_tld hostname 256 = some buffer →
        ∃ tld1, tldlist_add tld hostname d = some (1, tld1) ∧
          tldlist_count tld1 = tldlist_count tld + 1 ∧
          tldnode_tldname (tldlist_search buffer tld1.root) = some buffer ∧
          tldnode_count (tldlist_search buffer tld1.root)
            = tldnode_count (tldlist_search buffer tld.root) + 1 ∧
          (tldlist_search buffer tld.root = TLDNode.null →
            tldnode_count (tldlist_search buffer tld1.root) = 1) ∧
          ListInv tld1) := by
  refine ⟨tldlist_add_overflow _ _ _ (by decide) sample_long_hostname_overflows,
    by decide, ?_⟩
  intro tld hostname d hinv
  refine ⟨tldlist_add_out_of_range tld hostname d, tldlist_add_overflow tld hostname d, ?_⟩
  intro hin buffer hfit
  obtain ⟨r, tld1, hadd, hinv1, _, _, hiff, hone, _⟩ :=
    tldlist_add_spec tld hostname d buffer hinv hfit
  have hr : r = 1 := hiff.mpr (by unfold date_in_range at hin; omega)
  obtain ⟨h1, h2, h3⟩ := hone hr
  rw [hr] at hadd
  refine ⟨tld1, hadd, h1, h2, h3, ?_, hinv1⟩
  intro hnull
  rw [h3, hnull]
  rfl

/-- C29 (code bug): after a `tldlist_add` call with a date inside the range and the
256-character hostname `sample_long_hostname` there is no list to iterate: the copy of
the tld overflows `buffer[256]` (`none`).  A sequence of calls on a list made by
`tldlist_create` runs to its end exactly when no call with a date inside the range has
a tld that overflows; for the list it then leaves, `tldlist_iter_create` makes an
iterator, the first `size` calls of `tldlist_iter_next` return the nodes of the tree
in in-order, each node once, none of them NULL, with tlds that strictly ascend in the
order of `strcmp`, and every later call returns NULL; the three calls of `sample_adds`
leave the nodes of `com` (count 1) and `edu` (count 2). -/
theorem iterator_ascending_unless_overflow :
    tldlist_add_all sample_tldlist [(sample_long_hostname, ⟨15, 6, 2010⟩)] = none ∧
    (tldlist_add_all sample_tldlist sample_adds).map (fun tld => entries tld.root)
      = some [("com".toList, 1), ("edu".toList, 2)] ∧
    ∀ (b e : Date) (tld0 : TLDList) (adds : List (List Char × Date)),
      tldlist_create b e = some tld0 →
      ((tldlist_add_all tld0 adds).isSome = true ↔
        ∀ a ∈ adds, date_in_range tld0 a.2 → (hostname_to_tld a.1 256).isSome = true) ∧
      ∀ tld, tldlist_add_all tld0 adds = some tld →
        ∃ iter last, tldlist_iter_create tld = some iter ∧
          iter_next_times tld.size.toNat iter = some (inorder_traversal tld.root, last) ∧
          ((inorder_traversal tld.root).length : Int) = tld.size ∧
          (∀ n ∈ inorder_traversal tld.root, n ≠ TLDNode.null) ∧
          (inorder_traversal tld.root).Pairwise (fun n1 n2 =>
            ∃ x y, tldnode_tldname n1 = some x ∧ tldnode_tldname n2 = some y ∧
              strcmp x y < 0) ∧
          ∀ j, iter_next_times j last = some (List.replicate j TLDNode.null, last) := by
  refine ⟨?_, by decide, ?_⟩
  · simp only [tldlist_add_all,
      tldlist_add_overflow sample_tldlist sample_long_hostname ⟨15, 6, 2010⟩ (by decide)
        sample_long_hostname_overflows]
  intro b e tld0 adds hc
  obtain ⟨hdef, hall⟩ := tldlist_add_all_spec adds tld0 (ListInv_create b e tld0 hc).1
  refine ⟨hdef, ?_⟩
  intro tld htld
  obtain ⟨⟨_, hB, hsz⟩, _, _⟩ := hall tld htld
  have hlen : tld.size = ((inorder_traversal tld.root).length : Int) := by
    rw [inorder_length]; exact hsz
  refine ⟨{ elements := inorder_traversal tld.root, next := 0, size := tld.size },
    { elements := inorder_traversal tld.root, next := (inorder_traversal tld.root).length,
      size := (inorder_traversal tld.root).length }, ?_, ?_, hlen.symm, ?_,
    inorder_ascending tld.root hB, iter_next_times_end _⟩
  · unfold tldlist_iter_create
    rw [if_pos (by omega)]
  · rw [hlen, Int.toNat_natCast]
    have := iter_next_times_drop (inorder_traversal tld.root)
      (inorder_traversal tld.root).length 0 (by omega)
    rw [List.drop_zero] at this
    exact this
  · intro n hn hnull
    obtain ⟨x, _, h1, _⟩ := mem_inorder tld.root n hn
    rw [hnull] at h1
    cases h1


/-- C40 (code bug): after the three calls of `sample_adds`, a further `tldlist_add`
call with a date inside the range and the 256-character hostname
`sample_long_hostname` leaves no tree: the copy of the tld overflows `buffer[256]`
(`none`).  A sequence of calls on a list made by `tldlist_create` runs to its end
exactly when no call with a date inside the range has a tld that overflows; the tree
it then leaves is a binary search tree under `strcmp` with pairwise distinct tlds,
strictly ascending from left to right; the height field of every node is the true
height of its subtree; the heights of the two subtrees of every node differ by at most
1; and `size` is the number of nodes; eight calls with the seven tlds `a` to `g` leave
seven nodes in a tree of height 2. -/
theorem tld_tree_balanced_unless_overflow :
    tldlist_add_all sample_tldlist
      (sample_adds ++ [(sample_long_hostname, ⟨15, 6, 2010⟩)]) = none ∧
    (tldlist_add_all sample_tldlist
        (["a", "b", "c", "d", "e", "f", "g", "x.A"].map
          fun s => (s.toList, (⟨1, 1, 2010⟩ : Date)))).map
      (fun tld => (tld_names tld.root, true_height tld.root, tld.size, tld.count))
      = some (["a", "b", "c", "d", "e", "f", "g"].map String.toList, 2, 7, 8) ∧
    ∀ (b e : Date) (tld0 : TLDList) (adds : List (List Char × Date)),
      tldlist_create b e = some tld0 →
      ((tldlist_add_all tld0 adds).isSome = true ↔
        ∀ a ∈ adds, date_in_range tld0 a.2 → (hostname_to_tld a.1 256).isSome = true) ∧
      ∀ tld, tldlist_add_all tld0 adds = some tld →
        SearchTree tld.root ∧
        (tld_names tld.root).Pairwise (fun x y => strcmp x y < 0) ∧
        (tld_names tld.root).Nodup ∧
        HeightsTrue tld.root ∧
        Balanced tld.root ∧
        tld.size = node_count tld.root := by
  refine ⟨?_, by decide, ?_⟩
  · have hinv : ListInv sample_tldlist :=
      (ListInv_create ⟨1, 1, 2000⟩ ⟨31, 12, 2020⟩ sample_tldlist rfl).1
    have hdef := (tldlist_add_all_spec
      (sample_adds ++ [(sample_long_hostname, ⟨15, 6, 2010⟩)]) sample_tldlist hinv).1
    cases hres : tldlist_add_all sample_tldlist
        (sample_adds ++ [(sample_long_hostname, ⟨15, 6, 2010⟩)]) with
    | none => rfl
    | some t =>
      have hfit := hdef.mp (by rw [hres]; rfl) (sample_long_hostname, ⟨15, 6, 2010⟩)
        (List.mem_append_right _ (List.mem_singleton_self _)) (by decide)
      rw [sample_long_hostname_overflows] at hfit
      cases hfit
  intro b e tld0 adds hc
  obtain ⟨hdef, hall⟩ := tldlist_add_all_spec adds tld0 (ListInv_create b e tld0 hc).1
  refine ⟨hdef, ?_⟩
  intro tld htld
  obtain ⟨⟨hA, hB, hsz⟩, _, _⟩ := hall tld htld
  obtain ⟨_, ht, hbal⟩ := Avl_true_height tld.root hA
  refine ⟨Bst_SearchTree _ hB, ?_, Bst_nodup _ hB, ht, hbal, ?_⟩
  · rw [tld_names_eq]; exact (Bst_iff _).mp hB
  · rw [node_count_eq]; exact hsz

end USPS
